import Mathlib

/-!
Verification of the Echo planning backend against its specification.

The development shallowly embeds the Python sources:

* `src/backend/api/chat.py` — plan-text heuristics, fenced/brace JSON
  extraction, plan-JSON parsing, type normalization and the repair-retry
  flow of `send_chat_message`;
* `src/backend/services/planning_service.py` — default plan construction,
  date parsing with fallback, and `get_next_tasks`;
* `src/backend/services/progress_service.py` — `_calculate_time_health`
  and `identify_blockers`.

Modelling conventions:

* Python strings are `List Char`; Python `str.find`/slicing become list
  recursions.
* Calendar dates that are only added to, subtracted and compared are
  modelled as `Int` day ordinals (Python `date` arithmetic on `.days` is
  exactly integer arithmetic on ordinals).  The one place the textual
  `YYYY-MM-DD` format matters (`_parse_date`) uses an explicit
  year/month/day record.
* Python `float` arithmetic on progress percentages is modelled with `ℚ`
  (the quantities involved are small decimals; no claim depends on binary
  rounding).
* JSON documents are modelled by an explicit syntax tree whose numbers
  keep their decimal token (`json.loads` maps a token to a float and
  `json.dumps` prints it back; the token is a faithful exact stand-in for
  that float, avoiding floating-point semantics which no claim exercises).
-/

namespace Echo

/-! # String-aware brace scanner (`_extract_first_json_object`, chat.py)

The Python loop tracks `in_string`, `escape` and `depth` while walking the
text from the first `{`.  `scanStep` is one iteration of that loop body;
`scanFold` folds it over a character list. -/

structure ScanSt where
  inString : Bool
  escape : Bool
  depth : Int
deriving DecidableEq, Repr

/-- One iteration of the `for` loop body of `_extract_first_json_object`:
the branch order matches the Python `if`/`elif` chain exactly. -/
def scanStep (st : ScanSt) (c : Char) : ScanSt :=
  if st.escape then { st with escape := false }
  else if c = '\\' && st.inString then { st with escape := true }
  else if c = '"' then { st with inString := !st.inString }
  else if !st.inString && c = '{' then { st with depth := st.depth + 1 }
  else if !st.inString && c = '}' then { st with depth := st.depth - 1 }
  else st

def scanFold (st : ScanSt) (cs : List Char) : ScanSt :=
  cs.foldl scanStep st

/-- The state at the start of the scan (`in_string = escape = False`,
`depth = 0`). -/
def scanSt0 : ScanSt := ⟨false, false, 0⟩

/-- The loop returns at a character exactly when, in the state reached so
far, the character is an unescaped `}` outside a string that brings the
depth from 1 to 0. -/
def hitCond (st : ScanSt) (c : Char) : Bool :=
  !st.escape && !st.inString && c = '}' && st.depth = 1

/-- The scanning loop of `_extract_first_json_object`, from the first `{`:
returns the consumed characters (inclusive of the closing `}`) on the first
depth-zero hit, `none` if the depth never returns to zero. -/
def scanLoop (st : ScanSt) (acc : List Char) : List Char → Option (List Char)
  | [] => none
  | c :: cs =>
    if hitCond st c then some (acc ++ [c])
    else scanLoop (scanStep st c) (acc ++ [c]) cs

/-- Python whitespace stripped by `str.strip()` (ASCII part; the inputs
stripped in this code base contain no exotic Unicode whitespace). -/
def isPyWs (c : Char) : Bool :=
  c = ' ' || c = '\t' || c = '\n' || c = '\r' || c = '\x0b' || c = '\x0c'

def pyStripLeft (cs : List Char) : List Char := cs.dropWhile isPyWs

def pyStrip (cs : List Char) : List Char :=
  ((pyStripLeft cs).reverse.dropWhile isPyWs).reverse

/-- `text.find("{")`, returned as the suffix of the text from the first
`{` (or `none`). -/
def findBraceSuffix : List Char → Option (List Char)
  | [] => none
  | c :: cs => if c = '{' then some (c :: cs) else findBraceSuffix cs

/-- `_extract_first_json_object` (chat.py): first `{`, then the
string-aware depth-counted scan; the slice is `strip()`ped as in the
source. -/
def extractFirstJsonObject (s : List Char) : Option (List Char) :=
  if s = [] then none
  else
    match findBraceSuffix s with
    | none => none
    | some rest => (scanLoop scanSt0 [] rest).map pyStrip

/-! ## Scanner lemmas -/

theorem scanFold_nil (st : ScanSt) : scanFold st [] = st := rfl

theorem scanFold_cons (st : ScanSt) (c : Char) (cs : List Char) :
    scanFold st (c :: cs) = scanFold (scanStep st c) cs := rfl

theorem scanFold_append (st : ScanSt) (a b : List Char) :
    scanFold st (a ++ b) = scanFold (scanFold st a) b :=
  List.foldl_append ..

/-- `scanLoop` only ever extends its accumulator on the right. -/
theorem scanLoop_acc (cs : List Char) : ∀ (st : ScanSt) (acc : List Char),
    scanLoop st acc cs = (scanLoop st [] cs).map (acc ++ ·) := by
  induction cs with
  | nil => intro st acc; simp [scanLoop]
  | cons c cs ih =>
    intro st acc
    by_cases h : hitCond st c = true
    · simp [scanLoop, h]
    · rw [scanLoop, scanLoop, if_neg h, if_neg h]
      simp only [List.nil_append]
      rw [ih _ (acc ++ [c]), ih _ [c], Option.map_map]
      congr 1
      funext x
      simp

/-- A depth-zero hit at offset `j` of the scanned suffix (scan started in
state `st`). -/
def HitAt (st : ScanSt) (cs : List Char) (j : ℕ) : Prop :=
  ∃ p c q, cs = p ++ c :: q ∧ p.length = j ∧ hitCond (scanFold st p) c = true

/-- `scanLoop` fails exactly when no prefix of the input produces a
depth-zero hit. -/
theorem scanLoop_eq_none_iff (cs : List Char) : ∀ st : ScanSt,
    scanLoop st [] cs = none ↔ ∀ j, ¬ HitAt st cs j := by
  induction cs with
  | nil =>
    intro st
    simp only [scanLoop, true_iff]
    rintro j ⟨p, c, q, hpq, -, -⟩
    exact absurd hpq (by simp)
  | cons c cs ih =>
    intro st
    by_cases h : hitCond st c = true
    · simp only [scanLoop, h, if_true]
      constructor
      · intro hcontra; cases hcontra
      · intro hall
        exact absurd (hall 0 ⟨[], c, cs, rfl, rfl, by simpa [scanFold] using h⟩)
          (by intro hcontra; exact hcontra.elim)
    · rw [scanLoop, if_neg h]
      simp only [List.nil_append]
      rw [scanLoop_acc, Option.map_eq_none', ih]
      constructor
      · rintro hall j ⟨p, d, q, hpq, hlen, hhit⟩
        match p, j, hpq, hlen with
        | [], 0, hpq, _ =>
          cases hpq
          exact h (by simpa [scanFold] using hhit)
        | p0 :: p, j + 1, hpq, hlen =>
          obtain ⟨rfl, rfl⟩ : c = p0 ∧ cs = p ++ d :: q := by
            simpa using hpq
          exact hall j ⟨p, d, q, rfl, by simpa using hlen,
            by simpa [scanFold_cons] using hhit⟩
      · rintro hall j ⟨p, d, q, hpq, hlen, hhit⟩
        exact hall (j + 1) ⟨c :: p, d, q, by simp [hpq], by simp [hlen],
          by simpa [scanFold_cons] using hhit⟩

/-- When `scanLoop` succeeds it returns exactly the characters up to and
including the first depth-zero hit. -/
theorem scanLoop_eq_some (cs : List Char) : ∀ (st : ScanSt) (out : List Char),
    scanLoop st [] cs = some out →
    ∃ j, HitAt st cs j ∧ (∀ j' < j, ¬ HitAt st cs j') ∧ out = cs.take (j + 1) := by
  induction cs with
  | nil => intro st out h; cases h
  | cons c cs ih =>
    intro st out h
    by_cases hc : hitCond st c = true
    · rw [scanLoop, if_pos hc] at h
      refine ⟨0, ⟨[], c, cs, rfl, rfl, by simpa [scanFold] using hc⟩, ?_, ?_⟩
      · intro j' hj'; omega
      · simpa using h.symm
    · rw [scanLoop, if_neg hc] at h
      simp only [List.nil_append] at h
      rw [scanLoop_acc, Option.map_eq_some'] at h
      obtain ⟨out0, hout0, rfl⟩ := h
      obtain ⟨j, hhit, hmin, rfl⟩ := ih (scanStep st c) out0 hout0
      obtain ⟨p, d, q, hpq, hlen, hhitc⟩ := hhit
      refine ⟨j + 1, ⟨c :: p, d, q, by simp [hpq], by simp [hlen],
        by simpa [scanFold_cons] using hhitc⟩, ?_, by simp [hpq]⟩
      rintro j' hj' ⟨p', d', q', hpq', hlen', hhit'⟩
      match p', j', hpq', hlen' with
      | [], 0, hpq', _ =>
        cases hpq'
        exact hc (by simpa [scanFold] using hhit')
      | p0 :: p', j' + 1, hpq', hlen' =>
        obtain ⟨rfl, rfl⟩ : c = p0 ∧ cs = p' ++ d' :: q' := by simpa using hpq'
        exact hmin j' (by omega) ⟨p', d', q', rfl, by simpa using hlen',
          by simpa [scanFold_cons] using hhit'⟩

/-- `findBraceSuffix` succeeds exactly on the suffix starting at the first
`{` of the text. -/
theorem findBraceSuffix_eq_some (s rest : List Char) :
    findBraceSuffix s = some rest →
    ∃ pre, s = pre ++ rest ∧ '{' ∉ pre ∧ ∃ t, rest = '{' :: t := by
  induction s with
  | nil => intro h; cases h
  | cons c cs ih =>
    intro h
    rw [findBraceSuffix] at h
    by_cases hc : c = '{'
    · rw [if_pos hc] at h
      cases h
      exact ⟨[], by simp, by simp, cs, by rw [hc]⟩
    · rw [if_neg hc] at h
      obtain ⟨pre, hpre, hnb, t, ht⟩ := ih h
      exact ⟨c :: pre, by simp [hpre], by simp [hnb, Ne.symm hc], t, ht⟩

theorem findBraceSuffix_eq_none (s : List Char) :
    findBraceSuffix s = none ↔ '{' ∉ s := by
  induction s with
  | nil => simp [findBraceSuffix]
  | cons c cs ih =>
    rw [findBraceSuffix]
    by_cases hc : c = '{'
    · subst hc; simp
    · rw [if_neg hc, ih]
      simp only [List.mem_cons, not_or]
      constructor
      · intro h; exact ⟨fun hh => hc hh.symm, h⟩
      · intro h; exact h.2

/-- Whitespace characters are not braces, so an all-whitespace text has no
first `{`. -/
theorem findBraceSuffix_ws (s : List Char) (h : ∀ c ∈ s, isPyWs c = true) :
    findBraceSuffix s = none := by
  rw [findBraceSuffix_eq_none]
  intro hmem
  have := h _ hmem
  simp [isPyWs] at this

/-- `strip` is the identity on a list that starts and ends with
non-whitespace characters. -/
theorem pyStrip_id (cs : List Char) (hne : cs ≠ [])
    (hhead : ∀ c t, cs = c :: t → isPyWs c = false)
    (hlast : ∀ c p, cs = p ++ [c] → isPyWs c = false) : pyStrip cs = cs := by
  match cs, hne with
  | c :: t, _ =>
    have hh := hhead c t rfl
    rw [pyStrip, pyStripLeft, List.dropWhile_cons, hh]
    simp only [Bool.false_eq_true, if_false]
    obtain ⟨p, d, hpd⟩ : ∃ p d, c :: t = p ++ [d] :=
      ⟨(c :: t).dropLast, (c :: t).getLast (by simp), (List.dropLast_append_getLast (by simp)).symm⟩
    have hl := hlast d p hpd
    rw [hpd, List.reverse_append, List.reverse_singleton, List.singleton_append,
      List.dropWhile_cons, hl]
    simp

/-- `find` really locates the first brace: if the text splits as a
brace-free prefix followed by a suffix starting with `{`, that suffix is
returned. -/
theorem findBraceSuffix_append (pre t : List Char) (hnb : '{' ∉ pre) :
    findBraceSuffix (pre ++ '{' :: t) = some ('{' :: t) := by
  induction pre with
  | nil => simp [findBraceSuffix]
  | cons c cs ih =>
    have hc : c ≠ '{' := fun h => hnb (h ▸ List.mem_cons_self c cs)
    rw [List.cons_append, findBraceSuffix, if_neg hc]
    exact ih fun h => hnb (List.mem_cons_of_mem c h)

/-- C2: the extractor returns `none` on whitespace-only (hence also empty)
input and on input whose string-aware depth scan from the first `{` never
returns to depth zero; whenever it returns a candidate, the candidate is
exactly the slice of the text from the first opening brace to the first
position where the depth returns to zero. -/
theorem extractFirstJsonObject_spec (s : List Char) :
    ((∀ c ∈ s, isPyWs c = true) → extractFirstJsonObject s = none) ∧
    (∀ pre t, s = pre ++ '{' :: t → '{' ∉ pre →
      (∀ j, ¬ HitAt scanSt0 ('{' :: t) j) → extractFirstJsonObject s = none) ∧
    (∀ out, extractFirstJsonObject s = some out →
      ∃ pre t j, s = pre ++ '{' :: t ∧ '{' ∉ pre ∧
        HitAt scanSt0 ('{' :: t) j ∧ (∀ j' < j, ¬ HitAt scanSt0 ('{' :: t) j') ∧
        out = ('{' :: t).take (j + 1)) := by
  refine ⟨?_, ?_, ?_⟩
  · intro hws
    rw [extractFirstJsonObject]
    split
    · rfl
    · rw [findBraceSuffix_ws s hws]
  · intro pre t hs hnb hnohit
    rw [extractFirstJsonObject]
    split
    · rfl
    · rw [hs, findBraceSuffix_append pre t hnb]
      show Option.map pyStrip (scanLoop scanSt0 [] ('{' :: t)) = none
      rw [(scanLoop_eq_none_iff ('{' :: t) scanSt0).mpr hnohit]
      rfl
  · intro out hout
    rw [extractFirstJsonObject] at hout
    split at hout
    · cases hout
    · rename_i hne
      match hfind : findBraceSuffix s with
      | none => rw [hfind] at hout; cases hout
      | some rest =>
        rw [hfind] at hout
        obtain ⟨pre, hpre, hnb, t, rfl⟩ := findBraceSuffix_eq_some s rest hfind
        rw [Option.map_eq_some'] at hout
        obtain ⟨out0, hloop, rfl⟩ := hout
        obtain ⟨j, hhit, hmin, rfl⟩ := scanLoop_eq_some ('{' :: t) scanSt0 out0 hloop
        refine ⟨pre, t, j, hpre, hnb, hhit, hmin, ?_⟩
        obtain ⟨p, c, q, hsplit, hlen, hcond⟩ := hhit
        have hc : c = '}' := by
          simp only [hitCond, Bool.and_eq_true, decide_eq_true_eq] at hcond
          exact hcond.1.2
        have htake : ('{' :: t).take (j + 1) = p ++ [c] := by
          rw [hsplit, ← hlen, List.take_append]
          simp
        rw [htake]
        obtain ⟨p1, rfl⟩ : ∃ p1, p = '{' :: p1 := by
          match p, hsplit with
          | [], hsplit =>
            have hcc : '{' = c := by simpa using congrArg List.head? hsplit
            rw [hc] at hcc
            exact absurd hcc (by decide)
          | p0 :: p1, hsplit =>
            have hcc : '{' = p0 := by simpa using congrArg List.head? hsplit
            exact ⟨p1, by rw [← hcc]⟩
        refine pyStrip_id _ (by simp) ?_ ?_
        · intro c0 t0 heq
          have hcc : '{' = c0 := by simpa using congrArg List.head? heq
          rw [← hcc]
          decide
        · intro c0 p0 heq
          have ha : (('{' :: p1) ++ [c]).getLast? = some c :=
            List.getLast?_concat ('{' :: p1)
          simp only [List.cons_append] at ha heq
          rw [heq, List.getLast?_concat] at ha
          rw [(show c0 = c from (Option.some.inj ha.symm).symm), hc]
          decide


/-- Witness for C2: a whitespace-only text, a truncated object (depth
never returns to zero), and a complete object containing a brace inside a
string literal, each evaluated concretely. -/
theorem extractFirstJsonObject_spec_witness :
    extractFirstJsonObject ("  \n\t ".data) = none ∧
    extractFirstJsonObject ("x\x7b\"a\": 1".data) = none ∧
    (∃ pre t j, ("ab\x7b\"q\x7d\": 1\x7d z".data) = pre ++ '{' :: t ∧ '{' ∉ pre ∧
      HitAt scanSt0 ('{' :: t) j ∧ (∀ j' < j, ¬ HitAt scanSt0 ('{' :: t) j') ∧
      ("\x7b\"q\x7d\": 1\x7d".data) = ('{' :: t).take (j + 1)) :=
  ⟨(extractFirstJsonObject_spec _).1 (by decide),
   (extractFirstJsonObject_spec _).2.1 ['x'] ("\"a\": 1".data) (by decide)
     (by decide) ((scanLoop_eq_none_iff _ _).mp (by decide)),
   (extractFirstJsonObject_spec _).2.2 _ (by decide)⟩

/-! # A stable insertion sort

Python `sorted(..., key=...)` is a stable sort.  `stableSort lt` inserts
each element before the first existing element that is not strictly below
it, which reproduces the output of any stable sort by the corresponding
key. -/

def insortLt {α : Type} (lt : α → α → Bool) (x : α) : List α → List α
  | [] => [x]
  | y :: ys => if lt y x then y :: insortLt lt x ys else x :: y :: ys

def stableSort {α : Type} (lt : α → α → Bool) : List α → List α
  | [] => []
  | x :: xs => insortLt lt x (stableSort lt xs)

theorem mem_insortLt {α : Type} (lt : α → α → Bool) (x a : α) :
    ∀ l : List α, a ∈ insortLt lt x l ↔ a = x ∨ a ∈ l := by
  intro l
  induction l with
  | nil => simp [insortLt]
  | cons y ys ih =>
    rw [insortLt]
    split
    · simp only [List.mem_cons, ih]
      tauto
    · simp [List.mem_cons]

theorem mem_stableSort {α : Type} (lt : α → α → Bool) (a : α) :
    ∀ l : List α, a ∈ stableSort lt l ↔ a ∈ l := by
  intro l
  induction l with
  | nil => simp [stableSort]
  | cons y ys ih => rw [stableSort, mem_insortLt, ih]; simp

theorem insortLt_pairwise {α : Type} (lt : α → α → Bool) (le : α → α → Prop)
    (hcompat : ∀ a b, lt a b = true → le a b)
    (htot : ∀ a b, lt a b = false → le b a)
    (htrans : ∀ a b c, le a b → le b c → le a c)
    (x : α) : ∀ l : List α, l.Pairwise le → (insortLt lt x l).Pairwise le := by
  intro l
  induction l with
  | nil => intro _; simp [insortLt]
  | cons y ys ih =>
    intro hp
    rw [List.pairwise_cons] at hp
    rw [insortLt]
    split
    · rename_i hlt
      rw [List.pairwise_cons]
      refine ⟨?_, ih hp.2⟩
      intro z hz
      rw [mem_insortLt] at hz
      cases hz with
      | inl h => exact h ▸ hcompat y x hlt
      | inr h => exact hp.1 z h
    · rename_i hlt
      rw [List.pairwise_cons]
      have hxy : le x y := htot y x (by simpa using hlt)
      refine ⟨?_, List.pairwise_cons.mpr hp⟩
      intro z hz
      cases List.mem_cons.mp hz with
      | inl h => exact h ▸ hxy
      | inr h => exact htrans x y z hxy (hp.1 z h)

theorem stableSort_pairwise {α : Type} (lt : α → α → Bool) (le : α → α → Prop)
    (hcompat : ∀ a b, lt a b = true → le a b)
    (htot : ∀ a b, lt a b = false → le b a)
    (htrans : ∀ a b c, le a b → le b c → le a c) :
    ∀ l : List α, (stableSort lt l).Pairwise le := by
  intro l
  induction l with
  | nil => simp [stableSort]
  | cons y ys ih =>
    exact insortLt_pairwise lt le hcompat htot htrans y _ ih

/-! # Database rows

`models/goal.py`, `models/milestone.py`, `models/task.py`: only the
columns the verified services read are modelled.  `due_date` and
`target_date` are `nullable=False` in the schema, so they are plain day
ordinals here (the `if task.due_date` truthiness guards in
`identify_blockers` are then always true: a Python `date` object is always
truthy).  The `Goal` model has *no* `created_at` column, which matters for
`_calculate_time_health` below. -/

structure DbTask where
  id : String
  title : String
  dueDate : Int
  priority : String
  status : String
deriving DecidableEq, Repr

structure DbMilestone where
  id : String
  title : String
  targetDate : Int
  status : String
deriving DecidableEq, Repr

structure DbGoal where
  milestones : List DbMilestone
  tasks : List DbTask
deriving DecidableEq, Repr

/-! # Planning service (`planning_service.py`) -/

/-- `PlanningService._clamp_date`. -/
def clampDate (target earliest : Int) : Int :=
  if target ≥ earliest then target else earliest

structure TaskPayload where
  title : String
  dueDate : Int
  priority : String
  estimatedTime : ℚ
deriving DecidableEq, Repr

structure MilestonePayload where
  title : String
  targetDate : Int
  definitionOfDone : String
  order : ℕ
  status : String
  tasks : List TaskPayload
deriving DecidableEq, Repr

/-- `PlanningService._default_tasks`: the three fixed starter tasks;
`_due_in k` is `clamp(min(deadline, today + k), today)`. -/
def defaultTasks (deadline today : Int) : List TaskPayload :=
  [ ⟨"Define milestones and success criteria",
      clampDate (min deadline (today + 3)) today, "high", 2⟩,
    ⟨"Collect key resources and links",
      clampDate (min deadline (today + 5)) today, "medium", 3/2⟩,
    ⟨"Schedule the first work block",
      clampDate (min deadline (today + 7)) today, "medium", 1⟩ ]

/-- `PlanningService._build_milestones_payload`: the deterministic default
plan used when the AI path yields no accepted plan. -/
def buildMilestonesPayload (today deadline : Int) (goalTitle : String) :
    List MilestonePayload :=
  [ ⟨"Kickoff: " ++ goalTitle,
     clampDate (min deadline (today + 14)) today,
     "Initial plan, resources, and schedule are in place.",
     1, "not-started", defaultTasks deadline today⟩ ]

theorem clampDate_eq_max (t e : Int) : clampDate t e = max e t := by
  rw [clampDate]
  rcases le_total e t with h | h
  · rw [if_pos h, max_eq_right h]
  · rcases eq_or_lt_of_le h with h2 | h2
    · rw [← h2]; simp
    · rw [if_neg (by omega), max_eq_left h]

/-! # Planning service: `get_next_tasks` -/

/-- `priority_order.get(t.priority, 3)` with
`priority_order = {"high": 0, "medium": 1, "low": 2}`. -/
def priorityOrder (p : String) : ℕ :=
  if p = "high" then 0 else if p = "medium" then 1 else if p = "low" then 2 else 3

/-- The sort key `(priority_order.get(t.priority, 3), t.due_date)` compared
lexicographically, as Python compares tuples: the reflexive order. -/
def taskKeyLe (a b : DbTask) : Prop :=
  priorityOrder a.priority < priorityOrder b.priority ∨
    (priorityOrder a.priority = priorityOrder b.priority ∧ a.dueDate ≤ b.dueDate)

/-- The strict version of `taskKeyLe`, used for the stable sort. -/
def taskKeyLtB (a b : DbTask) : Bool :=
  priorityOrder a.priority < priorityOrder b.priority ||
    (priorityOrder a.priority = priorityOrder b.priority && a.dueDate < b.dueDate)

/-- `PlanningService.get_next_tasks`: filter incomplete tasks, sort by
`(priority rank, due date)`, return the first `limit` (the mapping into
`PlanTask` response objects copies fields one-to-one and is omitted). -/
def getNextTasks (g : Option DbGoal) (limit : ℕ) : List DbTask :=
  match g with
  | none => []
  | some goal =>
    let incomplete := goal.tasks.filter (fun t => t.status ≠ "completed")
    (stableSort taskKeyLtB incomplete).take limit

/-! # Progress service (`progress_service.py`) -/

/-- `ProgressService._calculate_time_health`.  Python's
`if not days_remaining` is also true for `0`; `hasattr(goal, "created_at")`
is always false because the `Goal` model declares no such column, so
`total_days` is the constant `90`; `if goal.deadline` is the `hasDeadline`
flag (a `date` object is always truthy when present). -/
def calculateTimeHealth (overallProgress : ℚ) (daysRemaining : Option Int)
    (hasDeadline : Bool) : String :=
  match daysRemaining with
  | none => "unknown"
  | some d =>
    if d = 0 then "unknown"
    else if d < 0 then "critical"
    else if hasDeadline then
      let totalDays : Int := 90
      let daysElapsed : Int := totalDays - d
      let expectedProgress : ℚ :=
        if 0 < totalDays then (daysElapsed : ℚ) / (totalDays : ℚ) * 100 else 0
      let gap : ℚ := overallProgress - expectedProgress
      if gap < -20 then "critical"
      else if gap < -10 then "warning"
      else "healthy"
    else "healthy"

/-- A blocker dictionary produced by `identify_blockers`; `days` is
`days_overdue` for the overdue kinds and `days_until_due` for
`urgent_task`.  The human-readable `message` field repeats the other
fields and is omitted. -/
structure Blocker where
  btype : String
  severity : String
  refId : String
  refTitle : String
  days : Int
deriving DecidableEq, Repr

/-- The per-task body of the first loop of `identify_blockers`: an
`if`/`elif` chain, so an overdue high-priority task only yields the
overdue blocker. -/
def taskBlockers (today : Int) (t : DbTask) : List Blocker :=
  if t.dueDate < today ∧ t.status ≠ "completed" then
    [⟨"overdue_task", "high", t.id, t.title, today - t.dueDate⟩]
  else if t.priority = "high" ∧ t.status ≠ "completed" ∧
      0 ≤ t.dueDate - today ∧ t.dueDate - today ≤ 3 then
    [⟨"urgent_task", "medium", t.id, t.title, t.dueDate - today⟩]
  else []

/-- The per-milestone body of the second loop of `identify_blockers`. -/
def milestoneBlockers (today : Int) (m : DbMilestone) : List Blocker :=
  if m.targetDate < today ∧ m.status ≠ "completed" then
    [⟨"overdue_milestone", "critical", m.id, m.title, today - m.targetDate⟩]
  else []

/-- The key `{"critical": 0, "high": 1, "medium": 2, "low": 3}[severity]`
of the final `sorted` call (only the four keys can occur). -/
def severityRank (s : String) : ℕ :=
  if s = "critical" then 0 else if s = "high" then 1
  else if s = "medium" then 2 else if s = "low" then 3 else 4

def blockerLtB (a b : Blocker) : Bool :=
  severityRank a.severity < severityRank b.severity

/-- `ProgressService.identify_blockers`: task blockers in task order, then
milestone blockers, sorted stably by severity rank. -/
def identifyBlockers (g : Option DbGoal) (today : Int) : List Blocker :=
  match g with
  | none => []
  | some goal =>
    stableSort blockerLtB
      ((goal.tasks.flatMap (taskBlockers today)) ++
        (goal.milestones.flatMap (milestoneBlockers today)))

/-! # Textual date parsing (`PlanningService._parse_date`)

`datetime.strptime(s, "%Y-%m-%d")` matches `%Y` against exactly four
digits, `%m` against `1[0-2]|0[1-9]|[1-9]`, `%d` against
`3[01]|[12]\d|0[1-9]|[1-9]`, requires the whole string to be consumed, and
then validates the calendar date (year at least 1, day within the month,
Gregorian leap years). -/

structure Ymd where
  y : ℕ
  m : ℕ
  d : ℕ
deriving DecidableEq, Repr

/-- Python `date` comparison: lexicographic on (year, month, day). -/
def ymdLt (a b : Ymd) : Prop :=
  a.y < b.y ∨ (a.y = b.y ∧ (a.m < b.m ∨ (a.m = b.m ∧ a.d < b.d)))

instance (a b : Ymd) : Decidable (ymdLt a b) := by
  rw [ymdLt]; infer_instance

def isDigitCh (c : Char) : Bool := '0' ≤ c && c ≤ '9'

def digVal (c : Char) : ℕ := c.toNat - '0'.toNat

def isLeap (y : ℕ) : Bool := y % 4 = 0 && (y % 100 ≠ 0 || y % 400 = 0)

def daysInMonth (y m : ℕ) : ℕ :=
  if m = 2 then (if isLeap y then 29 else 28)
  else if m = 4 ∨ m = 6 ∨ m = 9 ∨ m = 11 then 30 else 31

/-- The `%Y` field: exactly four digits. -/
def parseYearField : List Char → Option (ℕ × List Char)
  | a :: b :: c :: d :: rest =>
    if isDigitCh a && isDigitCh b && isDigitCh c && isDigitCh d then
      some (((digVal a * 10 + digVal b) * 10 + digVal c) * 10 + digVal d, rest)
    else none
  | _ => none

/-- The `%m` field: `1[0-2]|0[1-9]|[1-9]` (a two-digit match is always
followed by `-` or nothing parseable for the one-digit alternative, so the
regex backtracking never changes the outcome). -/
def parseMonthField : List Char → Option (ℕ × List Char)
  | a :: b :: rest =>
    if (a = '1' && ('0' ≤ b && b ≤ '2')) || (a = '0' && ('1' ≤ b && b ≤ '9')) then
      some (digVal a * 10 + digVal b, rest)
    else if '1' ≤ a && a ≤ '9' then some (digVal a, b :: rest)
    else none
  | [a] => if '1' ≤ a && a ≤ '9' then some (digVal a, []) else none
  | [] => none

/-- The `%d` field: `3[01]|[12]\d|0[1-9]|[1-9]`. -/
def parseDayField : List Char → Option (ℕ × List Char)
  | a :: b :: rest =>
    if (a = '3' && (b = '0' || b = '1')) ||
        (('1' ≤ a && a ≤ '2') && isDigitCh b) ||
        (a = '0' && ('1' ≤ b && b ≤ '9')) then
      some (digVal a * 10 + digVal b, rest)
    else if '1' ≤ a && a ≤ '9' then some (digVal a, b :: rest)
    else none
  | [a] => if '1' ≤ a && a ≤ '9' then some (digVal a, []) else none
  | [] => none

/-- `datetime.strptime(s, "%Y-%m-%d").date()`: fields joined by literal
`-`, the whole string consumed, then calendar validity. -/
def parseYmd (cs : List Char) : Option Ymd :=
  match parseYearField cs with
  | none => none
  | some (y, r1) =>
    match r1 with
    | '-' :: r2 =>
      match parseMonthField r2 with
      | none => none
      | some (m, r3) =>
        match r3 with
        | '-' :: r4 =>
          match parseDayField r4 with
          | none => none
          | some (d, r5) =>
            if r5 = [] ∧ 1 ≤ y ∧ d ≤ daysInMonth y m then some ⟨y, m, d⟩
            else none
        | _ => none
    | _ => none

/-- `PlanningService._parse_date`: empty/missing date strings and parse
failures return the fallback (the call sites pass the goal deadline);
a parsed date before today is replaced by today. -/
def parseDate (today : Ymd) (dateStr : Option (List Char)) (fallback : Ymd) : Ymd :=
  match dateStr with
  | none => fallback
  | some cs =>
    if cs = [] then fallback
    else
      match parseYmd cs with
      | none => fallback
      | some p => if ymdLt p today then today else p

/-! # Claim C3 -/

/-- C3: the deterministic default plan is exactly one milestone whose
target date is `min(deadline, today + 14)` clamped to no earlier than
today, with exactly three tasks due at `today+3/5/7` (capped at the
deadline, clamped to today), priorities high/medium/medium, estimated
hours 2.0/1.5/1.0, and every date in the hierarchy is at least today. -/
theorem buildMilestonesPayload_spec (today deadline : Int) (goalTitle : String) :
    ∃ ms, buildMilestonesPayload today deadline goalTitle = [ms] ∧
      ms.targetDate = max today (min deadline (today + 14)) ∧
      ms.tasks.map (fun t => t.dueDate) =
        [max today (min deadline (today + 3)),
         max today (min deadline (today + 5)),
         max today (min deadline (today + 7))] ∧
      ms.tasks.map (fun t => t.priority) = ["high", "medium", "medium"] ∧
      ms.tasks.map (fun t => t.estimatedTime) = [2, 3/2, 1] ∧
      today ≤ ms.targetDate ∧ ∀ t ∈ ms.tasks, today ≤ t.dueDate := by
  refine ⟨_, rfl, ?_, ?_, rfl, rfl, ?_, ?_⟩
  · simp [buildMilestonesPayload, clampDate_eq_max]
  · simp [buildMilestonesPayload, defaultTasks, clampDate_eq_max]
  · simp [buildMilestonesPayload, clampDate_eq_max]
  · intro t ht
    simp only [buildMilestonesPayload, defaultTasks, List.mem_cons,
      List.not_mem_nil, or_false] at ht
    rcases ht with rfl | rfl | rfl <;> simp [clampDate_eq_max]

/-- Witness for C3: the default plan for today = 0, deadline = 20,
title "Learn piano". -/
theorem buildMilestonesPayload_spec_witness :
    ∃ ms, buildMilestonesPayload 0 20 "Learn piano" = [ms] ∧
      ms.targetDate = max 0 (min 20 (0 + 14)) ∧
      ms.tasks.map (fun t => t.dueDate) =
        [max 0 (min 20 (0 + 3)),
         max 0 (min 20 (0 + 5)),
         max 0 (min 20 (0 + 7))] ∧
      ms.tasks.map (fun t => t.priority) = ["high", "medium", "medium"] ∧
      ms.tasks.map (fun t => t.estimatedTime) = [2, 3/2, 1] ∧
      (0 : Int) ≤ ms.targetDate ∧ ∀ t ∈ ms.tasks, (0 : Int) ≤ t.dueDate :=
  buildMilestonesPayload_spec 0 20 "Learn piano"

/-! # Claim C10 -/

/-- C10: `get_next_tasks` returns only incomplete tasks, in order of the
lexicographic key (priority rank, due date) with rank
high < medium < low, and any priority outside the three known values gets
rank 3, after all low-priority tasks. -/
theorem getNextTasks_spec (g : DbGoal) (limit : ℕ) :
    (∀ t ∈ getNextTasks (some g) limit, t.status ≠ "completed") ∧
    (getNextTasks (some g) limit).Pairwise taskKeyLe ∧
    priorityOrder "high" = 0 ∧ priorityOrder "medium" = 1 ∧
    priorityOrder "low" = 2 ∧
    (∀ p, p ∉ (["high", "medium", "low"] : List String) → priorityOrder p = 3) := by
  refine ⟨?_, ?_, rfl, rfl, rfl, ?_⟩
  · intro t ht
    rw [getNextTasks] at ht
    have hmem := List.mem_of_mem_take ht
    rw [mem_stableSort] at hmem
    have := List.of_mem_filter hmem
    simpa using this
  · rw [getNextTasks]
    refine List.Pairwise.sublist (List.take_sublist _ _) ?_
    refine stableSort_pairwise taskKeyLtB taskKeyLe ?_ ?_ ?_ _
    · intro a b h
      rw [taskKeyLtB] at h
      rw [taskKeyLe]
      simp only [Bool.or_eq_true, Bool.and_eq_true, decide_eq_true_eq] at h
      rcases h with h | ⟨h1, h2⟩
      · exact Or.inl h
      · exact Or.inr ⟨h1, le_of_lt h2⟩
    · intro a b h
      rw [taskKeyLtB] at h
      rw [taskKeyLe]
      simp only [Bool.or_eq_false_iff, Bool.and_eq_false_iff,
        decide_eq_false_iff_not] at h
      obtain ⟨h1, h2⟩ := h
      rcases Nat.lt_trichotomy (priorityOrder a.priority) (priorityOrder b.priority) with hlt | heq | hgt
      · exact absurd hlt h1
      · refine Or.inr ⟨heq.symm, ?_⟩
        rcases h2 with h2 | h2
        · exact absurd heq h2
        · omega
      · exact Or.inl hgt
    · intro a b c hab hbc
      rw [taskKeyLe] at *
      rcases hab with h | ⟨h1, h2⟩ <;> rcases hbc with h3 | ⟨h4, h5⟩
      · exact Or.inl (lt_trans h h3)
      · exact Or.inl (h4 ▸ h)
      · exact Or.inl (h1 ▸ h3)
      · exact Or.inr ⟨h1.trans h4, le_trans h2 h5⟩
  · intro p hp
    simp only [List.mem_cons, List.not_mem_nil, or_false, not_or] at hp
    obtain ⟨h1, h2, h3⟩ := hp
    rw [priorityOrder, if_neg h1, if_neg h2, if_neg h3]

/-- Witness for C10: a goal with a completed task, an `urgent`-priority
task and an overdue low-priority task; the returned list drops the
completed task and orders `urgent` after `low`. -/
theorem getNextTasks_spec_witness :
    (∀ t ∈ getNextTasks (some ⟨[],
      [⟨"a", "A", 5, "low", "not-started"⟩,
       ⟨"b", "B", 1, "urgent", "not-started"⟩,
       ⟨"c", "C", 0, "high", "completed"⟩]⟩) 5, t.status ≠ "completed") ∧
    (getNextTasks (some ⟨[],
      [⟨"a", "A", 5, "low", "not-started"⟩,
       ⟨"b", "B", 1, "urgent", "not-started"⟩,
       ⟨"c", "C", 0, "high", "completed"⟩]⟩) 5).Pairwise taskKeyLe ∧
    priorityOrder "urgent" = 3 :=
  ⟨(getNextTasks_spec _ 5).1, (getNextTasks_spec _ 5).2.1,
   (getNextTasks_spec ⟨[], []⟩ 5).2.2.2.2.2 "urgent" (by decide)⟩

/-! # Claim C4 -/

/-- C4 (amended): time health is `unknown` exactly when days-remaining is
missing or zero (Python `not days_remaining`); `critical` whenever
days-remaining is negative; otherwise, with a deadline present, it
classifies by `gap = overallProgress - expectedProgress` where
`expectedProgress = daysElapsed / totalDays * 100` for the constant
`totalDays = 90` (the `Goal` model has no creation-date column, so the
`hasattr` fallback always applies). -/
theorem calculateTimeHealth_spec (p : ℚ) (dr : Option Int) (hd : Bool) :
    (calculateTimeHealth p dr hd = "unknown" ↔ dr = none ∨ dr = some 0) ∧
    (∀ d, dr = some d → d < 0 → calculateTimeHealth p dr hd = "critical") ∧
    (∀ d, dr = some d → 0 < d →
      calculateTimeHealth p dr true =
        (if p - ((90 - d : Int) : ℚ) / ((90 : Int) : ℚ) * 100 < -20 then "critical"
         else if p - ((90 - d : Int) : ℚ) / ((90 : Int) : ℚ) * 100 < -10 then "warning"
         else "healthy")) := by
  refine ⟨?_, ?_, ?_⟩
  · cases dr with
    | none => simp [calculateTimeHealth]
    | some d =>
      simp only [calculateTimeHealth, Option.some.injEq, false_or,
        reduceCtorEq]
      split_ifs with h0
      · simp [h0]
      all_goals exact iff_of_false (by decide) h0
  · intro d hdr hneg
    subst hdr
    simp only [calculateTimeHealth]
    rw [if_neg (by omega), if_pos hneg]
  · intro d hdr hpos
    subst hdr
    simp only [calculateTimeHealth]
    rw [if_neg (by omega), if_neg (by omega)]
    norm_num

/-- Counterexample for C4 as stated: with a deadline whose remaining time
is exactly zero days, the engine returns `unknown` even though the
days-remaining context is known. -/
theorem calculateTimeHealth_unknown_counterexample :
    calculateTimeHealth 100 (some 0) true = "unknown" ∧
    some (0 : Int) ≠ (none : Option Int) :=
  ⟨by decide, by simp⟩

/-- Witness for C4: a negative days-remaining value is `critical`; ten
days remaining with 50% progress against the 90-day fallback window is
`critical` (gap below -20). -/
theorem calculateTimeHealth_spec_witness :
    calculateTimeHealth 50 (some (-3)) false = "critical" ∧
    calculateTimeHealth 50 (some 10) true = "critical" := by
  constructor
  · exact (calculateTimeHealth_spec 50 (some (-3)) false).2.1 (-3) rfl (by norm_num)
  · have h := (calculateTimeHealth_spec 50 (some 10) true).2.2 10 rfl (by norm_num)
    rw [h]
    norm_num

/-! # Claim C5 -/

/-- The per-task emission of `identify_blockers`, characterized: an
overdue blocker for an incomplete past-due task; otherwise an urgent
blocker for an incomplete high-priority task due within three days. -/
theorem mem_taskBlockers (today : Int) (t : DbTask) (b : Blocker) :
    b ∈ taskBlockers today t ↔
      (t.dueDate < today ∧ t.status ≠ "completed" ∧
        b = ⟨"overdue_task", "high", t.id, t.title, today - t.dueDate⟩) ∨
      (today ≤ t.dueDate ∧ t.dueDate ≤ today + 3 ∧ t.priority = "high" ∧
        t.status ≠ "completed" ∧
        b = ⟨"urgent_task", "medium", t.id, t.title, t.dueDate - today⟩) := by
  rw [taskBlockers]
  split_ifs with h1 h2
  · obtain ⟨hd, hs⟩ := h1
    simp only [List.mem_singleton]
    constructor
    · intro hb; exact Or.inl ⟨hd, hs, hb⟩
    · rintro (⟨-, -, hb⟩ | ⟨hle, -, -, -, -⟩)
      · exact hb
      · omega
  · obtain ⟨hp, hs, hge, hle⟩ := h2
    have hd : today ≤ t.dueDate := by omega
    simp only [List.mem_singleton]
    constructor
    · intro hb; exact Or.inr ⟨hd, by omega, hp, hs, hb⟩
    · rintro (⟨hlt, -, -⟩ | ⟨-, -, -, -, hb⟩)
      · omega
      · exact hb
  · simp only [List.not_mem_nil, false_iff, not_or]
    push_neg at h1 h2
    constructor
    · rintro ⟨hd, hs, -⟩; exact absurd (h1 hd) (by simp [hs])
    · rintro ⟨hge, hle, hp, hs, -⟩
      rcases Decidable.em (t.dueDate < today) with hlt | hnlt
      · omega
      · have := h2 hp hs (by omega)
        omega

theorem mem_milestoneBlockers (today : Int) (m : DbMilestone) (b : Blocker) :
    b ∈ milestoneBlockers today m ↔
      (m.targetDate < today ∧ m.status ≠ "completed" ∧
        b = ⟨"overdue_milestone", "critical", m.id, m.title, today - m.targetDate⟩) := by
  rw [milestoneBlockers]
  split_ifs with h1
  · obtain ⟨hd, hs⟩ := h1
    simp only [List.mem_singleton]
    constructor
    · intro hb; exact ⟨hd, hs, hb⟩
    · rintro ⟨-, -, hb⟩; exact hb
  · push_neg at h1
    simp only [List.not_mem_nil, false_iff, not_and]
    intro hd hs
    exact absurd (h1 hd) (by simp [hs])

/-- C5 (amended): `identify_blockers` emits exactly the overdue-task
blockers (severity high, annotated with days overdue) for incomplete
past-due tasks, urgent-task blockers (severity medium) for incomplete
high-priority tasks due within 3 days, and overdue-milestone blockers
(severity critical) for incomplete past-due milestones, and returns them
sorted by severity rank critical < high < medium < low. -/
theorem identifyBlockers_spec (g : DbGoal) (today : Int) :
    (∀ b, b ∈ identifyBlockers (some g) today ↔
      ((∃ t ∈ g.tasks, t.dueDate < today ∧ t.status ≠ "completed" ∧
          b = ⟨"overdue_task", "high", t.id, t.title, today - t.dueDate⟩) ∨
       (∃ t ∈ g.tasks, today ≤ t.dueDate ∧ t.dueDate ≤ today + 3 ∧
          t.priority = "high" ∧ t.status ≠ "completed" ∧
          b = ⟨"urgent_task", "medium", t.id, t.title, t.dueDate - today⟩) ∨
       (∃ m ∈ g.milestones, m.targetDate < today ∧ m.status ≠ "completed" ∧
          b = ⟨"overdue_milestone", "critical", m.id, m.title,
                today - m.targetDate⟩))) ∧
    (identifyBlockers (some g) today).Pairwise
      (fun a b => severityRank a.severity ≤ severityRank b.severity) ∧
    severityRank "critical" = 0 ∧ severityRank "high" = 1 ∧
    severityRank "medium" = 2 ∧ severityRank "low" = 3 := by
  refine ⟨?_, ?_, rfl, rfl, rfl, rfl⟩
  · intro b
    rw [identifyBlockers, mem_stableSort, List.mem_append]
    simp only [List.mem_flatMap, mem_taskBlockers, mem_milestoneBlockers]
    constructor
    · rintro (⟨t, ht, h | h⟩ | ⟨m, hm, h⟩)
      · exact Or.inl ⟨t, ht, h⟩
      · exact Or.inr (Or.inl ⟨t, ht, h⟩)
      · exact Or.inr (Or.inr ⟨m, hm, h⟩)
    · rintro (⟨t, ht, h⟩ | ⟨t, ht, h⟩ | ⟨m, hm, h⟩)
      · exact Or.inl ⟨t, ht, Or.inl h⟩
      · exact Or.inl ⟨t, ht, Or.inr h⟩
      · exact Or.inr ⟨m, hm, h⟩
  · rw [identifyBlockers]
    refine stableSort_pairwise blockerLtB _ ?_ ?_ ?_ _
    · intro a b h
      rw [blockerLtB] at h
      simp only [decide_eq_true_eq] at h
      exact le_of_lt h
    · intro a b h
      rw [blockerLtB] at h
      simp only [decide_eq_false_iff_not, not_lt] at h
      exact h
    · intro a b c hab hbc
      exact le_trans hab hbc

/-- Counterexample for C5 as stated: a high-priority incomplete task due
in exactly 3 days (outside any "within 2 days" window) still produces an
urgent-task blocker. -/
theorem identifyBlockers_within_two_days_counterexample :
    identifyBlockers (some ⟨[], [⟨"t1", "T1", 3, "high", "not-started"⟩]⟩) 0 =
      [⟨"urgent_task", "medium", "t1", "T1", 3⟩] ∧ ¬((3 : Int) ≤ 0 + 2) := by
  refine ⟨?_, by norm_num⟩
  decide

/-- Witness for C5: the spec scenario of a task five days overdue yields
the overdue-task blocker with `days = 5`, via the membership direction of
the amended theorem. -/
theorem identifyBlockers_spec_witness :
    (⟨"overdue_task", "high", "t1", "T1", 5⟩ : Blocker) ∈
      identifyBlockers (some ⟨[], [⟨"t1", "T1", -5, "medium", "in-progress"⟩]⟩) 0 :=
  ((identifyBlockers_spec ⟨[], [⟨"t1", "T1", -5, "medium", "in-progress"⟩]⟩ 0).1 _).mpr
    (Or.inl ⟨⟨"t1", "T1", -5, "medium", "in-progress"⟩, by decide, by norm_num,
      by decide, by decide⟩)

/-! # Claim C8 -/

/-- C8 (amended): a date taken from an accepted plan is parsed in the
`YYYY-MM-DD` format; a missing or unparseable date yields the fallback
passed by the caller (the goal deadline), which is *not* clamped to today;
a successfully parsed date is never returned as a date before today. -/
theorem parseDate_spec (today fb : Ymd) (ds : Option (List Char)) :
    (parseDate today ds fb = fb ∨ ¬ ymdLt (parseDate today ds fb) today) ∧
    (∀ cs p, ds = some cs → parseYmd cs = some p →
      ¬ ymdLt (parseDate today ds fb) today) := by
  constructor
  · match ds with
    | none => exact Or.inl rfl
    | some cs =>
      rw [parseDate]
      split_ifs with h0
      · exact Or.inl rfl
      · cases hp : parseYmd cs with
        | none => exact Or.inl rfl
        | some p =>
          show (if ymdLt p today then today else p) = fb ∨
            ¬ ymdLt (if ymdLt p today then today else p) today
          split_ifs with hlt
          · exact Or.inr (by
              intro hcon
              rw [ymdLt] at hcon
              omega)
          · exact Or.inr hlt
  · intro cs p hds hp
    subst hds
    rw [parseDate]
    have hne : cs ≠ [] := by
      intro h
      subst h
      rw [show parseYmd [] = none from rfl] at hp
      cases hp
    rw [if_neg hne, hp]
    show ¬ ymdLt (if ymdLt p today then today else p) today
    split_ifs with hlt
    · intro hcon
      rw [ymdLt] at hcon
      omega
    · exact hlt

/-- Counterexample for C8 as stated: with an overdue goal (deadline
yesterday) and an unparseable date string, the mapper substitutes the
deadline fallback, a date strictly before today. -/
theorem parseDate_before_today_counterexample :
    parseDate ⟨2026, 10, 12⟩ (some ("not-a-date".data)) ⟨2026, 10, 11⟩ =
      ⟨2026, 10, 11⟩ ∧ ymdLt ⟨2026, 10, 11⟩ ⟨2026, 10, 12⟩ :=
  ⟨by decide, by decide⟩

/-- Witness for C8: a well-formed but past date string is clamped to
today, so the result does not precede today. -/
theorem parseDate_spec_witness :
    ¬ ymdLt (parseDate ⟨2026, 10, 12⟩ (some ("2020-01-05".data)) ⟨2020, 1, 1⟩)
      ⟨2026, 10, 12⟩ :=
  (parseDate_spec ⟨2026, 10, 12⟩ ⟨2020, 1, 1⟩ (some ("2020-01-05".data))).2
    ("2020-01-05".data) ⟨2020, 1, 5⟩ rfl (by decide)

/-! # JSON documents (`json.loads` / `json.dumps`)

`json.loads` maps a number token to an `int` or `float` and `json.dumps`
prints that value back; since every claim only moves numbers between
`loads` and `dumps` (or rewrites them wholesale), numbers are modelled by
their decimal token, an exact stand-in for the float value that avoids
floating-point semantics.  `NaN`, `Infinity` and `-Infinity` are accepted
by `json.loads` and printed back by `json.dumps`, and are modelled as
their own constructors. -/

structure JNum where
  neg : Bool
  ip : List Char
  fp : Option (List Char)
  ep : Option (Bool × Option Bool × List Char)
deriving DecidableEq, Repr

inductive Json where
  | null
  | bool (b : Bool)
  | num (n : JNum)
  | nan
  | inf (neg : Bool)
  | str (s : List Char)
  | arr (elems : List Json)
  | obj (fields : List (List Char × Json))

/-- JSON whitespace skipped between tokens (`[ \t\n\r]`). -/
def isJsonWs (c : Char) : Bool := c = ' ' || c = '\t' || c = '\n' || c = '\r'

def skipJsonWs (cs : List Char) : List Char := cs.dropWhile isJsonWs

/-- A maximal run of decimal digits. -/
def takeDigitsJ : List Char → List Char × List Char
  | [] => ([], [])
  | c :: cs =>
    if isDigitCh c then
      let (ds, r) := takeDigitsJ cs
      (c :: ds, r)
    else ([], c :: cs)

/-- The integer part of the number grammar `(?:0|[1-9]\d*)`: a lone `0` or
a nonzero-led digit run. -/
def scanIntPart : List Char → Option (List Char × List Char)
  | [] => none
  | c :: cs =>
    if c = '0' then some (['0'], cs)
    else if isDigitCh c then
      let (ds, r) := takeDigitsJ cs
      some (c :: ds, r)
    else none

/-- The optional fraction group `(?:\.\d+)?`: absent unless the dot is
followed by at least one digit. -/
def scanFrac : List Char → Option (List Char) × List Char
  | [] => (none, [])
  | c :: cs =>
    if c = '.' then
      match takeDigitsJ cs with
      | ([], _) => (none, c :: cs)
      | (ds, r) => (some ds, r)
    else (none, c :: cs)

/-- The optional exponent group `(?:[eE][-+]?\d+)?`. -/
def scanExp : List Char → Option (Bool × Option Bool × List Char) × List Char
  | [] => (none, [])
  | c :: cs =>
    if c = 'e' || c = 'E' then
      match cs with
      | s :: cs2 =>
        if s = '+' || s = '-' then
          match takeDigitsJ cs2 with
          | ([], _) => (none, c :: s :: cs2)
          | (ds, r) => (some (c = 'E', some (s = '-'), ds), r)
        else
          match takeDigitsJ cs with
          | ([], _) => (none, c :: cs)
          | (ds, r) => (some (c = 'E', none, ds), r)
      | [] => (none, [c])
    else (none, c :: cs)

/-- The number token scanner (Python's `NUMBER_RE`), after an optional
leading minus sign was consumed by the caller. -/
def scanNumberTok (neg : Bool) (cs : List Char) : Option (JNum × List Char) :=
  match scanIntPart cs with
  | none => none
  | some (ip, r1) =>
    let (fp, r2) := scanFrac r1
    let (ep, r3) := scanExp r2
    some (⟨neg, ip, fp, ep⟩, r3)

def hexDigVal (c : Char) : Option ℕ :=
  if isDigitCh c then some (digVal c)
  else if 'a' ≤ c && c ≤ 'f' then some (10 + (c.toNat - 'a'.toNat))
  else if 'A' ≤ c && c ≤ 'F' then some (10 + (c.toNat - 'A'.toNat))
  else none

def hex4 (a b c d : Char) : Option ℕ :=
  match hexDigVal a, hexDigVal b, hexDigVal c, hexDigVal d with
  | some va, some vb, some vc, some vd => some (((va * 16 + vb) * 16 + vc) * 16 + vd)
  | _, _, _, _ => none

/-- The short escapes of `py_scanstring`. -/
def escMap : Char → Option Char
  | '"' => some '"'
  | '\\' => some '\\'
  | '/' => some '/'
  | 'b' => some '\x08'
  | 'f' => some '\x0c'
  | 'n' => some '\n'
  | 'r' => some '\x0d'
  | 't' => some '\t'
  | _ => none

/-- The `\uXXXX` decoding step of `py_scanstring` (with surrogate-pair
combination), applied to the characters after `\u`: the decoded character
and the remaining input. -/
def decodeUEsc (cs2 : List Char) : Option (Char × List Char) :=
  match cs2 with
  | a :: b :: c1 :: d1 :: rest =>
    (match hex4 a b c1 d1 with
     | none => none
     | some n =>
       if n < 0xD800 || 0xE000 ≤ n then some (Char.ofNat n, rest)
       else if n ≤ 0xDBFF then
         match rest with
         | e2 :: u2 :: a2 :: b2 :: c2 :: d2 :: rest2 =>
           if e2 = '\\' && u2 = 'u' then
             (match hex4 a2 b2 c2 d2 with
              | some n2 =>
                if 0xDC00 ≤ n2 && n2 ≤ 0xDFFF then
                  some (Char.ofNat (0x10000 + ((n - 0xD800) * 1024 + (n2 - 0xDC00))), rest2)
                else none
              | none => none)
           else none
         | _ => none
       else none)
  | _ => none

set_option maxRecDepth 4096 in
/-- The remaining input of a `\uXXXX` decode is a tail of its input. -/
theorem decodeUEsc_length (cs2 : List Char) (ch : Char) (rest : List Char)
    (h : decodeUEsc cs2 = some (ch, rest)) : rest.length ≤ cs2.length := by
  match cs2 with
  | [] => cases h
  | [a] => cases h
  | [a, b] => cases h
  | [a, b, c1] => cases h
  | a :: b :: c1 :: d1 :: rest0 =>
    cases hh : hex4 a b c1 d1 with
    | none => simp only [decodeUEsc, hh] at h; exact Option.noConfusion h
    | some n =>
      simp only [decodeUEsc, hh] at h
      by_cases h1 : (decide (n < 0xD800) || decide (0xE000 ≤ n)) = true
      · rw [if_pos h1] at h
        cases h
        simp only [List.length_cons]
        omega
      · rw [if_neg h1] at h
        by_cases h2 : n ≤ 0xDBFF
        · rw [if_pos h2] at h
          match rest0, h with
          | [], h => exact Option.noConfusion h
          | [e2], h => exact Option.noConfusion h
          | [e2, u2], h => exact Option.noConfusion h
          | [e2, u2, a2], h => exact Option.noConfusion h
          | [e2, u2, a2, b2], h => exact Option.noConfusion h
          | [e2, u2, a2, b2, c2], h => exact Option.noConfusion h
          | e2 :: u2 :: a2 :: b2 :: c2 :: d2 :: rest2, h =>
            have h : (if (decide (e2 = '\\') && decide (u2 = 'u')) = true then
                (match hex4 a2 b2 c2 d2 with
                 | some n2 =>
                   if (decide (0xDC00 ≤ n2) && decide (n2 ≤ 0xDFFF)) = true then
                     some (Char.ofNat (0x10000 + ((n - 0xD800) * 1024 + (n2 - 0xDC00))),
                       rest2)
                   else none
                 | none => none)
              else none) = some (ch, rest) := h
            by_cases h3 : (decide (e2 = '\\') && decide (u2 = 'u')) = true
            · rw [if_pos h3] at h
              cases hh2 : hex4 a2 b2 c2 d2 with
              | none => rw [hh2] at h; exact Option.noConfusion h
              | some n2 =>
                rw [hh2] at h
                have h : (if (decide (0xDC00 ≤ n2) && decide (n2 ≤ 0xDFFF)) = true then
                    some (Char.ofNat (0x10000 + ((n - 0xD800) * 1024 + (n2 - 0xDC00))),
                      rest2)
                  else none) = some (ch, rest) := h
                by_cases h4 : (decide (0xDC00 ≤ n2) && decide (n2 ≤ 0xDFFF)) = true
                · rw [if_pos h4] at h
                  injection h with h5
                  have h6 : rest2 = rest := congrArg Prod.snd h5
                  subst h6
                  simp only [List.length_cons]
                  omega
                · rw [if_neg h4] at h; exact Option.noConfusion h
            · rw [if_neg h3] at h; exact Option.noConfusion h
        · rw [if_neg h2] at h; exact Option.noConfusion h

/-- The string-body scanner of `json.loads` (strict mode): plain
characters up to the closing quote, raw control characters rejected,
escapes and `\uXXXX` (with surrogate-pair combination) decoded.  A lone
surrogate, which Python represents as a lone-surrogate `str` character,
has no `Char` counterpart and is mapped to a parse failure; no code path
of the repository produces one.  The fuel only bounds the recursion depth
and never runs out on the fuel the wrapper supplies (each step consumes
at least one character). -/
def parseStringBodyF : ℕ → List Char → Option (List Char × List Char)
  | 0, _ => none
  | _ + 1, [] => none
  | fuel + 1, c :: cs =>
    if c = '"' then some ([], cs)
    else if c = '\\' then
      match cs with
      | [] => none
      | e :: cs2 =>
        if e = 'u' then
          match decodeUEsc cs2 with
          | some (ch, rest) =>
            (parseStringBodyF fuel rest).map (fun sr => (ch :: sr.1, sr.2))
          | none => none
        else
          match escMap e with
          | some ch => (parseStringBodyF fuel cs2).map (fun sr => (ch :: sr.1, sr.2))
          | none => none
    else if c.toNat < 0x20 then none
    else (parseStringBodyF fuel cs).map (fun sr => (c :: sr.1, sr.2))

def parseStringBody (cs : List Char) : Option (List Char × List Char) :=
  parseStringBodyF (cs.length + 1) cs

/-- Python `dict` insertion `pairs[key] = value`: replace the value at an
existing key in place, else append. -/
def objInsert (fields : List (List Char × Json)) (k : List Char) (v : Json) :
    List (List Char × Json) :=
  match fields with
  | [] => [(k, v)]
  | (k0, v0) :: rest =>
    if k0 = k then (k0, v) :: rest else (k0, v0) :: objInsert rest k v

/-- Building the object dict from its members in order. -/
def objCollapse (ps : List (List Char × Json)) : List (List Char × Json) :=
  ps.foldl (fun acc kv => objInsert acc kv.1 kv.2) []

/-- Consume an expected literal continuation (`ull` of `null`, etc.). -/
def stripLit (lit cs : List Char) : Option (List Char) :=
  if lit.isPrefixOf cs then some (cs.drop lit.length) else none

mutual

/-- One JSON value at the current position (no leading whitespace), as in
Python's `scan_once`; the fuel only bounds recursion and never runs out on
inputs the real parser accepts (each unit of fuel consumes input). -/
def scanValue : ℕ → List Char → Option (Json × List Char)
  | 0, _ => none
  | fuel + 1, cs =>
    match cs with
    | [] => none
    | c :: r =>
      if c = '"' then (parseStringBody r).map (fun sr => (Json.str sr.1, sr.2))
      else if c = '{' then
        (match skipJsonWs r with
         | '}' :: r2 => some (Json.obj [], r2)
         | r2 =>
           (parseMembers fuel r2).map (fun mr => (Json.obj (objCollapse mr.1), mr.2)))
      else if c = '[' then
        (match skipJsonWs r with
         | ']' :: r2 => some (Json.arr [], r2)
         | r2 => (parseElems fuel r2).map (fun er => (Json.arr er.1, er.2)))
      else if c = 'n' then
        (match stripLit ("ull".data) r with
         | some r2 => some (.null, r2)
         | none => none)
      else if c = 't' then
        (match stripLit ("rue".data) r with
         | some r2 => some (.bool true, r2)
         | none => none)
      else if c = 'f' then
        (match stripLit ("alse".data) r with
         | some r2 => some (.bool false, r2)
         | none => none)
      else if c = 'N' then
        (match stripLit ("aN".data) r with
         | some r2 => some (.nan, r2)
         | none => none)
      else if c = 'I' then
        (match stripLit ("nfinity".data) r with
         | some r2 => some (.inf false, r2)
         | none => none)
      else if c = '-' then
        (match stripLit ("Infinity".data) r with
         | some r2 => some (.inf true, r2)
         | none => (scanNumberTok true r).map (fun nr => (Json.num nr.1, nr.2)))
      else if isDigitCh c then
        (scanNumberTok false (c :: r)).map (fun nr => (Json.num nr.1, nr.2))
      else none

/-- One or more comma-separated object members followed by `}` (the empty
object was handled by the caller), as in `JSONObject`. -/
def parseMembers : ℕ → List Char → Option (List (List Char × Json) × List Char)
  | 0, _ => none
  | fuel + 1, cs =>
    match cs with
    | '"' :: r =>
      (match parseStringBody r with
       | none => none
       | some (key, r1) =>
         match skipJsonWs r1 with
         | ':' :: r2 =>
           (match scanValue fuel (skipJsonWs r2) with
            | none => none
            | some (v, r3) =>
              match skipJsonWs r3 with
              | '}' :: r4 => some ([(key, v)], r4)
              | ',' :: r4 =>
                (parseMembers fuel (skipJsonWs r4)).map (fun mr => ((key, v) :: mr.1, mr.2))
              | _ => none)
         | _ => none)
    | _ => none

/-- One or more comma-separated array elements followed by `]` (the empty
array was handled by the caller), as in `JSONArray`. -/
def parseElems : ℕ → List Char → Option (List Json × List Char)
  | 0, _ => none
  | fuel + 1, cs =>
    match scanValue fuel cs with
    | none => none
    | some (v, r) =>
      match skipJsonWs r with
      | ']' :: r2 => some ([v], r2)
      | ',' :: r2 => (parseElems fuel (skipJsonWs r2)).map (fun er => (v :: er.1, er.2))
      | _ => none

end

/-- `json.loads`: skip leading whitespace, scan one value, allow trailing
whitespace only. -/
def loads (cs : List Char) : Option Json :=
  match scanValue (cs.length + 1) (skipJsonWs cs) with
  | none => none
  | some (v, rest) => if skipJsonWs rest = [] then some v else none

/-! # `json.dumps(plan, ensure_ascii=False, indent=2)` -/

def hexDigCh (n : ℕ) : Char :=
  if n < 10 then Char.ofNat ('0'.toNat + n) else Char.ofNat ('a'.toNat + (n - 10))

/-- One character escaped as `json.dumps(ensure_ascii=False)` escapes it:
quote, backslash and control characters only; everything else raw. -/
def escapeChar (c : Char) : List Char :=
  if c = '"' then ['\\', '"']
  else if c = '\\' then ['\\', '\\']
  else if c = '\n' then ['\\', 'n']
  else if c = '\r' then ['\\', 'r']
  else if c = '\t' then ['\\', 't']
  else if c = '\x08' then ['\\', 'b']
  else if c = '\x0c' then ['\\', 'f']
  else if c.toNat < 0x20 then
    ['\\', 'u', '0', '0', hexDigCh (c.toNat / 16), hexDigCh (c.toNat % 16)]
  else [c]

def renderStr (s : List Char) : List Char :=
  '"' :: (s.flatMap escapeChar ++ ['"'])

def renderSgn : Option Bool → List Char
  | none => []
  | some true => ['-']
  | some false => ['+']

def renderFracPart : Option (List Char) → List Char
  | none => []
  | some ds => '.' :: ds

def renderExpPart : Option (Bool × Option Bool × List Char) → List Char
  | none => []
  | some (up, sgn, ds) => (if up then 'E' else 'e') :: (renderSgn sgn ++ ds)

def renderNum (n : JNum) : List Char :=
  (if n.neg then ['-'] else []) ++ n.ip ++
    (renderFracPart n.fp ++ renderExpPart n.ep)

/-- The newline-plus-indent emitted before items at nesting level `lvl`
(`indent=2`). -/
def nlIndent (lvl : ℕ) : List Char := '\n' :: List.replicate (2 * lvl) ' '

mutual

def renderValue : Json → ℕ → List Char
  | .null, _ => ['n', 'u', 'l', 'l']
  | .bool true, _ => ['t', 'r', 'u', 'e']
  | .bool false, _ => ['f', 'a', 'l', 's', 'e']
  | .num n, _ => renderNum n
  | .nan, _ => ['N', 'a', 'N']
  | .inf false, _ => ['I', 'n', 'f', 'i', 'n', 'i', 't', 'y']
  | .inf true, _ => ['-', 'I', 'n', 'f', 'i', 'n', 'i', 't', 'y']
  | .str s, _ => renderStr s
  | .arr [], _ => ['[', ']']
  | .arr (e :: es), lvl =>
    '[' :: (nlIndent (lvl + 1) ++ renderValue e (lvl + 1) ++
      renderElemsTail es (lvl + 1) ++ nlIndent lvl ++ [']'])
  | .obj [], _ => ['{', '}']
  | .obj (kv :: kvs), lvl =>
    '{' :: (nlIndent (lvl + 1) ++ renderMember kv (lvl + 1) ++
      renderMembersTail kvs (lvl + 1) ++ nlIndent lvl ++ ['}'])

def renderMember : (List Char × Json) → ℕ → List Char
  | (k, v), lvl => renderStr k ++ ':' :: ' ' :: renderValue v lvl

def renderElemsTail : List Json → ℕ → List Char
  | [], _ => []
  | e :: es, lvl => ',' :: (nlIndent lvl ++ renderValue e lvl ++ renderElemsTail es lvl)

def renderMembersTail : List (List Char × Json) → ℕ → List Char
  | [], _ => []
  | kv :: kvs, lvl => ',' :: (nlIndent lvl ++ renderMember kv lvl ++ renderMembersTail kvs lvl)

end

/-- `json.dumps(plan_data, ensure_ascii=False, indent=2)`. -/
def dumps (j : Json) : List Char := renderValue j 0

/-! # chat.py: plan-text heuristics and plan-JSON parsing -/

/-- Case-insensitive prefix match (the pattern is lowercase ASCII, as all
the patterns used are). -/
def ciStartsWith : List Char → List Char → Bool
  | [], _ => true
  | _ :: _, [] => false
  | p :: ps, c :: cs => p = c.toLower && ciStartsWith ps cs

def containsSub (pat : List Char) : List Char → Bool
  | [] => pat.isEmpty
  | c :: tail => pat.isPrefixOf (c :: tail) || containsSub pat tail

/-- The fixed keyword list of `_looks_like_plan_text`. -/
def planKeywords : List (List Char) :=
  ["```json".data, "milestones".data, "definition_of_done".data,
   "response_to_user".data, "goal_title".data, "resources".data,
   "insights".data, "\"goal\"".data]

/-- `_looks_like_plan_text` (chat.py): empty text is not plan-like;
otherwise any keyword occurring in the lowercased text makes it
plan-like. -/
def looksLikePlanText (text : List Char) : Bool :=
  if text = [] then false
  else planKeywords.any (fun k => containsSub k (text.map Char.toLower))

/-- Split at the first occurrence of ` ``` `, returning the text before it
and the text after it. -/
def splitAtFirstTicks : List Char → Option (List Char × List Char)
  | [] => none
  | c :: cs =>
    if ("```".data).isPrefixOf (c :: cs) then some ([], (c :: cs).drop 3)
    else (splitAtFirstTicks cs).map (fun ba => (c :: ba.1, ba.2))

/-- The search loop of `_extract_json_from_fence`: the regex
`` ```json\s*([\s\S]*?)\s*``` `` (case-insensitive) matches at the first
`` ```json `` that is followed by a closing `` ``` ``; the lazily-matched
group with its surrounding `\s*`, then `.strip()`, amount to stripping the
text between the markers. -/
def fenceLoop : List Char → Option (List Char)
  | [] => none
  | c :: cs =>
    if ciStartsWith ("```json".data) (c :: cs) then
      match splitAtFirstTicks ((c :: cs).drop 7) with
      | some ba => some (pyStrip ba.1)
      | none => fenceLoop cs
    else fenceLoop cs

/-- `_extract_json_from_fence` (chat.py). -/
def extractJsonFromFence (text : List Char) : Option (List Char) :=
  if text = [] then none else fenceLoop text

/-- Key lookup in a parsed object (`parsed["milestones"]`-style access;
`loads` collapses duplicate keys, so the first match is the dict value). -/
def objGet : List (List Char × Json) → List Char → Option Json
  | [], _ => none
  | (k0, v) :: rest, k => if k0 = k then some v else objGet rest k

/-- `isinstance(parsed, dict) and "milestones" in parsed and
"response_to_user" in parsed`. -/
def hasPlanKeys : Json → Bool
  | .obj fields =>
    (objGet fields ("milestones".data)).isSome &&
      (objGet fields ("response_to_user".data)).isSome
  | _ => false

/-- The result triple of `_try_parse_plan_json`. -/
structure ParseOut where
  ok : Bool
  parsed : Option Json
  reason : String

/-- The second half of `_try_parse_plan_json`: brace-scan extraction,
parse, dict-shape check; a parse exception here is reported as
`json_parse_failed`, a wrong shape falls to the final return. -/
def tryParseFromTextObject (content : List Char) : ParseOut :=
  match extractFirstJsonObject content with
  | some cand =>
    if cand ≠ [] then
      match loads cand with
      | some p =>
        if hasPlanKeys p then ⟨true, some p, "parsed_from_text_object"⟩
        else ⟨false, none, "no_json_found_or_incomplete"⟩
      | none => ⟨false, none, "json_parse_failed"⟩
    else ⟨false, none, "no_json_found_or_incomplete"⟩
  | none => ⟨false, none, "no_json_found_or_incomplete"⟩

/-- `_try_parse_plan_json` (chat.py): fenced candidate first; on any
failure there (no fence, empty candidate, parse exception, wrong shape)
fall through to the first-object extraction. -/
def tryParsePlanJson (content : List Char) : ParseOut :=
  if content = [] then ⟨false, none, "empty_content"⟩
  else
    match extractJsonFromFence content with
    | some cand =>
      if cand ≠ [] then
        match loads cand with
        | some p =>
          if hasPlanKeys p then ⟨true, some p, "parsed_from_fence"⟩
          else tryParseFromTextObject content
        | none => tryParseFromTextObject content
      else tryParseFromTextObject content
    | none => tryParseFromTextObject content

/-! # chat.py: type normalization (`_to_float_hours`,
`_normalize_plan_types`) -/

def stripLeadingZeros (ds : List Char) : List Char :=
  match ds.dropWhile (fun c => c = '0') with
  | [] => ['0']
  | r => r

def stripTrailingZeros (ds : List Char) : List Char :=
  (ds.reverse.dropWhile (fun c => c = '0')).reverse

/-- The float produced by `float(<digits>[.<digits>])` on a regex match,
as printed back by `repr`: leading zeros dropped, trailing fraction zeros
dropped, a fraction of `.0` always present.  (For matches longer than a
float's 17 significant digits Python would also round; the repository
never distinguishes such values.) -/
def floatTokenOfDigits (ip fp : List Char) : JNum :=
  let ip2 := stripLeadingZeros ip
  let fp2 := stripTrailingZeros fp
  ⟨false, ip2, some (if fp2 = [] then ['0'] else fp2), none⟩

/-- The first match of `r"(\d+(\.\d+)?)"`: integer digits and optional
fraction digits. -/
def firstNumberMatch : List Char → Option (List Char × List Char)
  | [] => none
  | c :: cs =>
    if isDigitCh c then
      let pr := takeDigitsJ (c :: cs)
      if pr.2.head? = some '.' then
        let fr := takeDigitsJ pr.2.tail
        if fr.1 = [] then some (pr.1, []) else some (pr.1, fr.1)
      else some (pr.1, [])
    else firstNumberMatch cs

/-- `float(v)` for a value `json.loads` produced, as a decimal token: an
integer token gains `.0` (so it prints as a float), tokens with a fraction
or exponent keep their digits (Python would print the same value in its
canonical spelling; the token is value-equal and round-trips
identically). -/
def floatOfNumTok (n : JNum) : JNum :=
  match n.fp, n.ep with
  | none, none => ⟨n.neg, n.ip, some ['0'], none⟩
  | _, _ => n

/-- `_to_float_hours` (chat.py): numbers (Python `bool` included — it is
an `int`) pass through `float()`, strings contribute their first decimal
number, everything else is `None`. -/
def toFloatHours : Option Json → Option Json
  | none => none
  | some .null => none
  | some (.bool b) => some (.num ⟨false, [if b then '1' else '0'], some ['0'], none⟩)
  | some (.num n) => some (.num (floatOfNumTok n))
  | some .nan => some .nan
  | some (.inf b) => some (.inf b)
  | some (.str s) => (firstNumberMatch s).map (fun df => .num (floatTokenOfDigits df.1 df.2))
  | some (.arr _) => none
  | some (.obj _) => none

/-- A zero float is falsy in Python, so `x or 0.0` replaces it by the
literal `0.0`; `NaN` and the infinities are truthy. -/
def jsonFloatIsZero : Json → Bool
  | .num n =>
    n.ip.all (fun c => c = '0') &&
      (match n.fp with
       | none => true
       | some fs => fs.all (fun c => c = '0'))
  | _ => false

def zeroFloatTok : Json := .num ⟨false, ['0'], some ['0'], none⟩

/-- `_to_float_hours(task.get("estimated_time")) or 0.0`. -/
def floatHoursOrZero (v : Option Json) : Json :=
  match toFloatHours v with
  | none => zeroFloatTok
  | some j => if jsonFloatIsZero j then zeroFloatTok else j

/-- The per-task body of `_normalize_plan_types`: force
`estimated_time` to a float and rewrite an invalid `priority` to
`medium` (non-dict tasks are skipped). -/
def normalizeTask (t : Json) : Json :=
  match t with
  | .obj fields =>
    let fields1 := objInsert fields ("estimated_time".data)
      (floatHoursOrZero (objGet fields ("estimated_time".data)))
    let fields2 :=
      if (match objGet fields1 ("priority".data) with
          | some (.str s) =>
            s = "high".data || s = "medium".data || s = "low".data
          | _ => false) then fields1
      else objInsert fields1 ("priority".data) (.str ("medium".data))
    .obj fields2
  | _ => t

/-- The per-milestone body of `_normalize_plan_types`: rewrite the tasks
in place when `tasks` is a list (non-dict milestones skipped). -/
def normalizeMilestone (ms : Json) : Json :=
  match ms with
  | .obj fields =>
    (match objGet fields ("tasks".data) with
     | some (.arr ts) =>
       .obj (objInsert fields ("tasks".data) (.arr (ts.map normalizeTask)))
     | _ => ms)
  | _ => ms

/-- `_normalize_plan_types` (chat.py). -/
def normalizePlanTypes (plan : Json) : Json :=
  match plan with
  | .obj fields =>
    (match objGet fields ("milestones".data) with
     | some (.arr ms) =>
       .obj (objInsert fields ("milestones".data) (.arr (ms.map normalizeMilestone)))
     | _ => plan)
  | _ => plan

/-! # chat.py: the repair-retry flow of `send_chat_message` -/

def repairPromptV1 : List Char :=
  ("Your previous output is NOT valid/complete JSON (likely truncated or invalid).\n" ++
   "Re-output ONE valid JSON object ONLY (you may wrap with a single ```json fence). NO extra text.\n" ++
   "Include ALL required fields exactly: response_to_user, goal_title, milestones, insights, resources.\n" ++
   "IMPORTANT:\n" ++
   "- estimated_time must be a NUMBER (float hours), e.g. 8 or 2.5 (NOT \x278 hours\x27).\n" ++
   "- Keep it concise to avoid truncation.\n" ++
   "Now output the corrected JSON.\n").data

def repairPromptV2Minimal : List Char :=
  ("Still not parseable JSON.\n" ++
   "Now output a MINIMAL valid JSON object ONLY (you may wrap in ```json).\n" ++
   "Rules:\n" ++
   "- 3 milestones ONLY.\n" ++
   "- First 2 milestones: 5 tasks each.\n" ++
   "- Third milestone: 2 tasks.\n" ++
   "- resources: 3 items ONLY.\n" ++
   "- insights must be concise.\n" ++
   "- estimated_time must be NUMBER (float).\n" ++
   "Output JSON only, nothing else.\n").data

/-- A failure of the external generator call (`send_message` raising). -/
structure GenErr where
  msg : String
deriving DecidableEq, Repr

/-- The observable outcome of the parsing/repair portion of
`send_chat_message`: the content returned to the client, the accepted
plan (if any), and the prompts sent to the generator, in order. -/
structure FlowOut where
  content : List Char
  plan : Option Json
  prompts : List (List Char)

/-- `if ok and isinstance(parsed, dict)`: the accepted dict of a parse
attempt, if any. -/
def okDict (r : ParseOut) : Option Json :=
  match r.ok, r.parsed with
  | true, some (.obj fields) => some (.obj fields)
  | _, _ => none

/-- Step 4 of `send_chat_message`: an accepted plan is type-normalized and
the content rewritten as a canonical pretty-printed fence. -/
def canonicalContent (d : Json) : List Char :=
  ("```json\n".data) ++ dumps d ++ ("\n```".data)

def finishFlow (content : List Char) (plan : Option Json)
    (prompts : List (List Char)) : FlowOut :=
  match plan with
  | some d =>
    let d2 := normalizePlanTypes d
    ⟨canonicalContent d2, some d2, prompts⟩
  | none => ⟨content, none, prompts⟩

/-- The parsing/repair portion of `send_chat_message` (chat.py), with the
generator as an explicit function from prompt to reply (or raised
`GenErr`).  A raised generator error propagates to the route's generic
handler, which turns it into an HTTP 500 — modelled as `Except.error`.
The database-storage step cannot affect the outcome (all its exceptions
are swallowed) and the title-generation step is independent; both are
omitted. -/
def sendChatFlow (gen : List Char → Except GenErr (List Char))
    (userMsg : List Char) : Except GenErr FlowOut :=
  match gen userMsg with
  | .error e => .error e
  | .ok content =>
    match okDict (tryParsePlanJson content) with
    | some d => .ok (finishFlow content (some d) [userMsg])
    | none =>
      if looksLikePlanText content then
        match gen repairPromptV1 with
        | .error e => .error e
        | .ok content2 =>
          match okDict (tryParsePlanJson content2) with
          | some d2 => .ok (finishFlow content2 (some d2) [userMsg, repairPromptV1])
          | none =>
            match gen repairPromptV2Minimal with
            | .error e => .error e
            | .ok content3 =>
              match okDict (tryParsePlanJson content3) with
              | some d3 => .ok (finishFlow content3 (some d3)
                  [userMsg, repairPromptV1, repairPromptV2Minimal])
              | none => .ok (finishFlow content none
                  [userMsg, repairPromptV1, repairPromptV2Minimal])
      else .ok (finishFlow content none [userMsg])

/-! # Claim C1 -/

/-- C1 (amended): when every generator reply fails plan-JSON
normalization, the flow issues exactly three generation calls — the user
message, the repair-v1 prompt, then the repair-v2-minimal prompt — and
gives up with no plan, *provided the initial reply resembles plan text*;
an initial reply with no plan keyword is not retried (one call).  In all
cases at most three generation calls are issued. -/
theorem sendChatFlow_retry_bound (gen : List Char → Except GenErr (List Char))
    (userMsg : List Char)
    (hok : ∀ p, ∃ r, gen p = .ok r)
    (hfail : ∀ p r, gen p = .ok r → okDict (tryParsePlanJson r) = none) :
    (∀ r0, gen userMsg = .ok r0 → looksLikePlanText r0 = true →
      sendChatFlow gen userMsg =
        .ok ⟨r0, none, [userMsg, repairPromptV1, repairPromptV2Minimal]⟩) ∧
    (∀ r0, gen userMsg = .ok r0 → looksLikePlanText r0 = false →
      sendChatFlow gen userMsg = .ok ⟨r0, none, [userMsg]⟩) ∧
    (∀ out, sendChatFlow gen userMsg = .ok out → out.prompts.length ≤ 3) := by
  obtain ⟨r1, h1⟩ := hok repairPromptV1
  obtain ⟨r2, h2⟩ := hok repairPromptV2Minimal
  have hcase1 : ∀ r0, gen userMsg = .ok r0 → looksLikePlanText r0 = true →
      sendChatFlow gen userMsg =
        .ok ⟨r0, none, [userMsg, repairPromptV1, repairPromptV2Minimal]⟩ := by
    intro r0 h0 hlooks
    simp only [sendChatFlow, h0, hfail _ _ h0, hlooks, if_true, h1,
      hfail _ _ h1, h2, hfail _ _ h2, finishFlow]
  have hcase2 : ∀ r0, gen userMsg = .ok r0 → looksLikePlanText r0 = false →
      sendChatFlow gen userMsg = .ok ⟨r0, none, [userMsg]⟩ := by
    intro r0 h0 hlooks
    simp only [sendChatFlow, h0, hfail _ _ h0, hlooks, Bool.false_eq_true,
      if_false, finishFlow]
  refine ⟨hcase1, hcase2, ?_⟩
  intro out hout
  obtain ⟨r0, h0⟩ := hok userMsg
  by_cases hl : looksLikePlanText r0 = true
  · rw [hcase1 r0 h0 hl] at hout
    cases hout
    simp
  · rw [hcase2 r0 h0 (by simpa using hl)] at hout
    cases hout
    simp

/-- Counterexample for C1 as stated: an adversarial generator whose
unparseable reply does not resemble plan text triggers no repair at all —
one generation call, not three. -/
theorem sendChatFlow_three_calls_counterexample :
    okDict (tryParsePlanJson ("hello".data)) = none ∧
    sendChatFlow (fun _ => .ok ("hello".data)) ("plan my goal".data) =
      .ok ⟨"hello".data, none, [("plan my goal".data)]⟩ :=
  ⟨rfl, rfl⟩

/-- Witness for C1: an adversarial generator whose reply contains a plan
keyword but never parses is retried exactly twice and exhausted. -/
theorem sendChatFlow_retry_bound_witness :
    sendChatFlow (fun _ => .ok ("milestones \x7b".data)) ("plan".data) =
      .ok ⟨"milestones \x7b".data, none,
        [("plan".data), repairPromptV1, repairPromptV2Minimal]⟩ :=
  (sendChatFlow_retry_bound _ _ (fun _ => ⟨_, rfl⟩)
    (fun p r h => by cases h; rfl)).1 _ rfl rfl

/-! # Claim C6 -/

/-- C6 (amended): parse and normalization failures are absorbed — when
every generation call returns text, the flow always succeeds, with either
an accepted plan rewritten to the canonical fenced form or the raw initial
reply — but a `GenerationError` raised by any generation call (initial or
repair) escapes to the route's generic handler and fails the request with
an HTTP 500 instead of being treated as a failed attempt. -/
theorem sendChatFlow_absorbs_parse_failures
    (gen : List Char → Except GenErr (List Char)) (userMsg : List Char)
    (hok : ∀ p, ∃ r, gen p = .ok r) :
    ∃ out, sendChatFlow gen userMsg = .ok out ∧
      ((∃ d, out.plan = some d ∧ out.content = canonicalContent d) ∨
       (out.plan = none ∧ ∃ r0, gen userMsg = .ok r0 ∧ out.content = r0)) := by
  obtain ⟨r0, h0⟩ := hok userMsg
  obtain ⟨r1, h1⟩ := hok repairPromptV1
  obtain ⟨r2, h2⟩ := hok repairPromptV2Minimal
  simp only [sendChatFlow, h0]
  cases hp0 : okDict (tryParsePlanJson r0) with
  | some d => exact ⟨_, rfl, Or.inl ⟨_, rfl, rfl⟩⟩
  | none =>
    by_cases hl : looksLikePlanText r0 = true
    · simp only [hl, if_true, h1]
      cases hp1 : okDict (tryParsePlanJson r1) with
      | some d => exact ⟨_, rfl, Or.inl ⟨_, rfl, rfl⟩⟩
      | none =>
        simp only [h2]
        cases hp2 : okDict (tryParsePlanJson r2) with
        | some d => exact ⟨_, rfl, Or.inl ⟨_, rfl, rfl⟩⟩
        | none => exact ⟨_, rfl, Or.inr ⟨rfl, r0, rfl, rfl⟩⟩
    · rw [Bool.not_eq_true] at hl
      simp only [hl, Bool.false_eq_true, if_false]
      exact ⟨_, rfl, Or.inr ⟨rfl, r0, rfl, rfl⟩⟩

/-- Counterexample for C6 as stated: the initial reply resembles a plan
but cannot be parsed, and the repair-v1 generation call raises — the
request fails with the generator error (HTTP 500) instead of proceeding to
the next repair state. -/
theorem sendChatFlow_generation_error_counterexample :
    sendChatFlow
      (fun p => if p = ("plan".data) then .ok ("milestones \x7b".data)
        else .error ⟨"network failure"⟩)
      ("plan".data) = .error ⟨"network failure"⟩ := rfl

/-- A generator that always replies with fixed non-plan text. -/
def constGenHello : List Char → Except GenErr (List Char) :=
  fun _ => .ok ("hello".data)

/-- Witness for C6: with a generator that always returns (non-plan) text,
the flow succeeds and passes the raw reply through. -/
theorem sendChatFlow_absorbs_parse_failures_witness :
    ∃ out, sendChatFlow constGenHello ("plan".data) = .ok out ∧
      ((∃ d, out.plan = some d ∧ out.content = canonicalContent d) ∨
       (out.plan = none ∧ ∃ r0, constGenHello ("plan".data) = .ok r0 ∧
          out.content = r0)) :=
  sendChatFlow_absorbs_parse_failures constGenHello _ (fun _ => ⟨_, rfl⟩)

/-! # Claim C7 -/

theorem hasPlanKeys_obj (p : Json) (h : hasPlanKeys p = true) :
    ∃ fields, p = .obj fields ∧
      (objGet fields ("milestones".data)).isSome = true ∧
      (objGet fields ("response_to_user".data)).isSome = true := by
  match p, h with
  | .obj fields, h =>
    rw [hasPlanKeys, Bool.and_eq_true] at h
    exact ⟨fields, rfl, h.1, h.2⟩

theorem tryParseFromTextObject_requires_keys (content : List Char)
    (hok : (tryParseFromTextObject content).ok = true) :
    ∃ fields, (tryParseFromTextObject content).parsed = some (.obj fields) ∧
      (objGet fields ("milestones".data)).isSome = true ∧
      (objGet fields ("response_to_user".data)).isSome = true := by
  revert hok
  rw [tryParseFromTextObject]
  split
  · split_ifs with hne
    · split
      · split_ifs with hkeys
        · intro _
          obtain ⟨fields, rfl, hm, hr⟩ := hasPlanKeys_obj _ hkeys
          exact ⟨fields, rfl, hm, hr⟩
        · intro hcon; cases hcon
      · intro hcon; cases hcon
    · intro hcon; cases hcon
  · intro hcon; cases hcon

/-- C7 (amended): an accepted candidate always parses to an object
containing both the `milestones` and `response_to_user` keys — but the
shape of `milestones` is not checked (it may be empty or not a list), and
there is no `missing-required-fields` reason: a parsed object lacking the
keys falls through to the `no_json_found_or_incomplete` outcome. -/
theorem tryParsePlanJson_requires_keys (content : List Char)
    (hok : (tryParsePlanJson content).ok = true) :
    ∃ fields, (tryParsePlanJson content).parsed = some (.obj fields) ∧
      (objGet fields ("milestones".data)).isSome = true ∧
      (objGet fields ("response_to_user".data)).isSome = true := by
  revert hok
  rw [tryParsePlanJson]
  split_ifs with hempty
  · intro hcon; cases hcon
  · split
    · split_ifs with hne
      · split
        · split_ifs with hkeys
          · intro _
            obtain ⟨fields, rfl, hm, hr⟩ := hasPlanKeys_obj _ hkeys
            exact ⟨fields, rfl, hm, hr⟩
          · exact tryParseFromTextObject_requires_keys content
        · exact tryParseFromTextObject_requires_keys content
      · exact tryParseFromTextObject_requires_keys content
    · exact tryParseFromTextObject_requires_keys content

/-- Counterexample for C7 as stated: a candidate whose `milestones` value
is the empty list is accepted, not rejected with
`missing-required-fields`. -/
theorem tryParsePlanJson_empty_milestones_counterexample :
    (tryParsePlanJson
      ("```json\n\x7b\"milestones\": [], \"response_to_user\": \"ok\"\x7d\n```".data)).ok
        = true ∧
    (tryParsePlanJson
      ("```json\n\x7b\"milestones\": [], \"response_to_user\": \"ok\"\x7d\n```".data)).parsed
        = some (.obj [(("milestones".data), .arr []),
            (("response_to_user".data), .str ("ok".data))]) :=
  ⟨rfl, rfl⟩

/-- Witness for C7: a candidate whose `milestones` value is not even a
list is accepted; the accepted object carries both required keys. -/
theorem tryParsePlanJson_requires_keys_witness :
    ∃ fields, (tryParsePlanJson
      ("```json\n\x7b\"milestones\": 5, \"response_to_user\": \"ok\"\x7d\n```".data)).parsed
        = some (.obj fields) ∧
      (objGet fields ("milestones".data)).isSome = true ∧
      (objGet fields ("response_to_user".data)).isSome = true :=
  tryParsePlanJson_requires_keys _ rfl

/-! # Round trip: well-formed documents

`loads` only ever produces number tokens matching the number grammar and
objects with distinct keys (the dict collapsed duplicates); `wfB` captures
exactly that, and is what the `loads`/`dumps` round trip needs. -/

def digitsOnly (ds : List Char) : Bool := ds.all isDigitCh

def intPartWfB : List Char → Bool
  | [] => false
  | [c] => isDigitCh c
  | c :: cs => isDigitCh c && c ≠ '0' && digitsOnly cs

def numWfB (n : JNum) : Bool :=
  intPartWfB n.ip &&
  (match n.fp with
   | none => true
   | some ds => !ds.isEmpty && digitsOnly ds) &&
  (match n.ep with
   | none => true
   | some (_, _, ds) => !ds.isEmpty && digitsOnly ds)

def keysNodupB : List (List Char) → Bool
  | [] => true
  | k :: ks => !(decide (k ∈ ks)) && keysNodupB ks

mutual

def wfB : Json → Bool
  | .null => true
  | .bool _ => true
  | .nan => true
  | .inf _ => true
  | .num n => numWfB n
  | .str _ => true
  | .arr es => wfArrB es
  | .obj fs => keysNodupB (fs.map Prod.fst) && wfObjB fs

def wfArrB : List Json → Bool
  | [] => true
  | e :: es => wfB e && wfArrB es

def wfObjB : List (List Char × Json) → Bool
  | [] => true
  | kv :: fs => wfB kv.2 && wfObjB fs

end

/-! ## Number-token inverses -/

def numDelimJ : List Char → Bool
  | [] => true
  | c :: _ => !(isDigitCh c || c = '.' || c = 'e' || c = 'E')

theorem numDelimJ_head (c : Char) (t : List Char) (h : numDelimJ (c :: t) = true) :
    isDigitCh c = false ∧ c ≠ '.' ∧ c ≠ 'e' ∧ c ≠ 'E' := by
  rw [numDelimJ] at h
  simp only [Bool.not_eq_true', Bool.or_eq_false_iff, decide_eq_false_iff_not] at h
  exact ⟨h.1.1.1, h.1.1.2, h.1.2, h.2⟩

theorem takeDigitsJ_not_digit (rest : List Char)
    (hrest : ∀ c t, rest = c :: t → isDigitCh c = false) :
    takeDigitsJ rest = ([], rest) := by
  match rest with
  | [] => rfl
  | c :: t => rw [takeDigitsJ, hrest c t rfl]; rfl

theorem takeDigitsJ_append (ds : List Char) (rest : List Char)
    (hds : digitsOnly ds = true)
    (hrest : ∀ c t, rest = c :: t → isDigitCh c = false) :
    takeDigitsJ (ds ++ rest) = (ds, rest) := by
  induction ds with
  | nil => simpa using takeDigitsJ_not_digit rest hrest
  | cons c cs ih =>
    rw [digitsOnly, List.all_cons, Bool.and_eq_true] at hds
    rw [List.cons_append, takeDigitsJ, hds.1, ih hds.2]
    rfl

theorem scanIntPart_inv (ip rest : List Char) (h : intPartWfB ip = true)
    (hrest : ∀ c t, rest = c :: t → isDigitCh c = false) :
    scanIntPart (ip ++ rest) = some (ip, rest) := by
  match ip, h with
  | [c], h =>
    rw [intPartWfB] at h
    by_cases hc : c = '0'
    · subst hc; rfl
    · rw [List.singleton_append, scanIntPart, if_neg hc, if_pos h,
        takeDigitsJ_not_digit rest hrest]
  | c :: c2 :: cs, h =>
    have h2 : (isDigitCh c && decide (c ≠ '0') && digitsOnly (c2 :: cs)) = true := h
    rw [Bool.and_eq_true, Bool.and_eq_true] at h2
    obtain ⟨⟨hd, hz⟩, hrest2⟩ := h2
    have htk := takeDigitsJ_append (c2 :: cs) rest hrest2 hrest
    rw [List.cons_append] at htk
    rw [List.cons_append, scanIntPart, if_neg (by simpa using hz), if_pos hd,
      List.cons_append, htk]

theorem scanFrac_none (rest : List Char)
    (hrest : ∀ t, rest ≠ '.' :: t) : scanFrac rest = (none, rest) := by
  match rest with
  | [] => rfl
  | c :: t =>
    have hc : c ≠ '.' := fun hcon => hrest t (by rw [hcon])
    rw [scanFrac, if_neg hc]

theorem scanFrac_some (ds rest : List Char) (hne : ds ≠ [])
    (hds : digitsOnly ds = true)
    (hrest : ∀ c t, rest = c :: t → isDigitCh c = false) :
    scanFrac ('.' :: (ds ++ rest)) = (some ds, rest) := by
  obtain ⟨d0, ds1, rfl⟩ : ∃ d0 ds1, ds = d0 :: ds1 := by
    match ds, hne with
    | d :: ds, _ => exact ⟨d, ds, rfl⟩
  have htk := takeDigitsJ_append (d0 :: ds1) rest hds hrest
  rw [List.cons_append] at htk
  rw [scanFrac, if_pos rfl, List.cons_append, htk]

theorem scanExp_none (rest : List Char)
    (hrest : ∀ c t, rest = c :: t → c ≠ 'e' ∧ c ≠ 'E') :
    scanExp rest = (none, rest) := by
  match rest with
  | [] => rfl
  | c :: t =>
    obtain ⟨he, hE⟩ := hrest c t rfl
    simp only [scanExp.eq_def]
    rw [if_neg (by simp [he, hE])]

theorem scanExp_some (up : Bool) (sgn : Option Bool) (ds rest : List Char)
    (hne : ds ≠ []) (hds : digitsOnly ds = true)
    (hrest : ∀ c t, rest = c :: t → isDigitCh c = false) :
    scanExp ((if up then 'E' else 'e') ::
      ((match sgn with
        | none => []
        | some true => ['-']
        | some false => ['+']) ++ ds ++ rest)) = (some (up, sgn, ds), rest) := by
  obtain ⟨d0, ds1, rfl⟩ : ∃ d0 ds1, ds = d0 :: ds1 := by
    match ds, hne with
    | d :: ds, _ => exact ⟨d, ds, rfl⟩
  have hd0 : isDigitCh d0 = true := by
    rw [digitsOnly, List.all_cons, Bool.and_eq_true] at hds
    exact hds.1
  have htk := takeDigitsJ_append (d0 :: ds1) rest hds hrest
  rw [List.cons_append] at htk
  have hd0p : (d0 = '+' || d0 = '-') = false := by
    simp only [Bool.or_eq_false_iff, decide_eq_false_iff_not]
    constructor
    · intro hcon; rw [hcon] at hd0; exact absurd hd0 (by decide)
    · intro hcon; rw [hcon] at hd0; exact absurd hd0 (by decide)
  match sgn with
  | none =>
    cases up
    all_goals
      simp only [if_true, if_false, Bool.false_eq_true, List.nil_append,
        List.cons_append, scanExp.eq_def]
    all_goals
      rw [if_pos (by decide), hd0p]
      simp only [Bool.false_eq_true, if_false, htk]
      simp
  | some true =>
    cases up
    all_goals
      simp only [if_true, if_false, Bool.false_eq_true, List.cons_append,
        List.nil_append, scanExp.eq_def]
    all_goals
      rw [if_pos (by decide)]
      simp only [if_pos (by decide : ('-' = '+' || '-' = '-') = true), htk]
      simp
  | some false =>
    cases up
    all_goals
      simp only [if_true, if_false, Bool.false_eq_true, List.cons_append,
        List.nil_append, scanExp.eq_def]
    all_goals
      rw [if_pos (by decide)]
      simp only [if_pos (by decide : ('+' = '+' || '+' = '-') = true), htk]
      simp

theorem scanExp_some_render (up : Bool) (sgn : Option Bool) (ds rest : List Char)
    (hne : ds ≠ []) (hds : digitsOnly ds = true)
    (hrest : ∀ c t, rest = c :: t → isDigitCh c = false) :
    scanExp ((if up then 'E' else 'e') :: (renderSgn sgn ++ (ds ++ rest)))
      = (some (up, sgn, ds), rest) := by
  have h := scanExp_some up sgn ds rest hne hds hrest
  cases sgn with
  | none => simpa [renderSgn, List.append_assoc] using h
  | some b => cases b <;> simpa [renderSgn, List.append_assoc] using h

/-- The number-token scanner inverts the number renderer (after the sign),
whenever the remainder cannot extend the token. -/
theorem scanNumberTok_inv (neg : Bool) (ip : List Char) (fp : Option (List Char))
    (ep : Option (Bool × Option Bool × List Char)) (rest : List Char)
    (hwf : numWfB ⟨neg, ip, fp, ep⟩ = true) (hrest : numDelimJ rest = true) :
    scanNumberTok neg (ip ++ (renderFracPart fp ++ (renderExpPart ep ++ rest)))
      = some (⟨neg, ip, fp, ep⟩, rest) := by
  have hrestd : ∀ c t, rest = c :: t → isDigitCh c = false :=
    fun c t h => (numDelimJ_head c t (h ▸ hrest)).1
  have hrestdot : ∀ t, rest ≠ '.' :: t := by
    intro t hcon
    exact absurd rfl (numDelimJ_head '.' t (hcon ▸ hrest)).2.1
  have hreste : ∀ c t, rest = c :: t → c ≠ 'e' ∧ c ≠ 'E' := by
    intro c t h
    exact ⟨(numDelimJ_head c t (h ▸ hrest)).2.2.1, (numDelimJ_head c t (h ▸ hrest)).2.2.2⟩
  have hexphead : ∀ x, ∀ c t, renderExpPart (some x) ++ rest = c :: t →
      isDigitCh c = false ∧ c ≠ '.' := by
    rintro ⟨u, s, d⟩ c t h
    rw [renderExpPart, List.cons_append] at h
    obtain ⟨rfl, -⟩ : (if u then 'E' else 'e') = c ∧ _ = t := by
      rw [List.cons.injEq] at h
      exact h
    cases u <;> exact ⟨by decide, by decide⟩
  match fp, ep with
  | none, none =>
    have hip : intPartWfB ip = true := by
      simpa [numWfB] using hwf
    have h1 := scanIntPart_inv ip rest hip hrestd
    have h2 := scanFrac_none rest hrestdot
    have h3 := scanExp_none rest hreste
    simp only [renderFracPart, renderExpPart, List.nil_append, scanNumberTok,
      h1, h2, h3]
  | some fs, none =>
    have hwf2 : intPartWfB ip = true ∧ fs ≠ [] ∧ digitsOnly fs = true := by
      simpa [numWfB, List.isEmpty_eq_false] using hwf
    obtain ⟨hip, hfsne, hfsd⟩ := hwf2
    have h1 := scanIntPart_inv ip ('.' :: (fs ++ rest)) hip
      (by intro c t h; rw [List.cons.injEq] at h; rw [← h.1]; decide)
    have h2 := scanFrac_some fs rest hfsne hfsd hrestd
    have h3 := scanExp_none rest hreste
    simp only [renderFracPart, renderExpPart, List.nil_append, List.cons_append,
      scanNumberTok, h1, h2, h3]
  | none, some x =>
    obtain ⟨u, s, d⟩ := x
    have hwf2 : intPartWfB ip = true ∧ d ≠ [] ∧ digitsOnly d = true := by
      simpa [numWfB, List.isEmpty_eq_false] using hwf
    obtain ⟨hip, hdne, hdd⟩ := hwf2
    have h1 := scanIntPart_inv ip (renderExpPart (some (u, s, d)) ++ rest) hip
      (fun c t h => (hexphead (u, s, d) c t h).1)
    have h2 := scanFrac_none (renderExpPart (some (u, s, d)) ++ rest)
      (by intro t hcon; exact absurd rfl (hexphead (u, s, d) '.' t hcon).2)
    have h3 := scanExp_some_render u s d rest hdne hdd hrestd
    have hrender : renderExpPart (some (u, s, d)) ++ rest
        = (if u then 'E' else 'e') :: (renderSgn s ++ (d ++ rest)) := by
      rw [renderExpPart, List.cons_append, List.append_assoc]
    rw [hrender] at h1 h2
    simp only [renderFracPart, List.nil_append, scanNumberTok, hrender, h1, h2, h3]
  | some fs, some x =>
    obtain ⟨u, s, d⟩ := x
    have hwf2 : (intPartWfB ip = true ∧ fs ≠ [] ∧ digitsOnly fs = true) ∧
        d ≠ [] ∧ digitsOnly d = true := by
      simpa [numWfB, List.isEmpty_eq_false] using hwf
    obtain ⟨⟨hip, hfsne, hfsd⟩, hdne, hdd⟩ := hwf2
    have h1 := scanIntPart_inv ip ('.' :: (fs ++ (renderExpPart (some (u, s, d)) ++ rest))) hip
      (by intro c t h; rw [List.cons.injEq] at h; rw [← h.1]; decide)
    have h2 := scanFrac_some fs (renderExpPart (some (u, s, d)) ++ rest) hfsne hfsd
      (fun c t h => (hexphead (u, s, d) c t h).1)
    have h3 := scanExp_some_render u s d rest hdne hdd hrestd
    have hrender : renderExpPart (some (u, s, d)) ++ rest
        = (if u then 'E' else 'e') :: (renderSgn s ++ (d ++ rest)) := by
      rw [renderExpPart, List.cons_append, List.append_assoc]
    rw [hrender] at h1 h2
    simp only [renderFracPart, List.cons_append, scanNumberTok, hrender, h1, h2, h3]

/-! ## String-body round trip (claim C9 groundwork) -/

theorem parseStringBodyF_nil (f : ℕ) : parseStringBodyF f [] = none := by
  cases f <;> rfl

/-- Any sufficient fuel computes the same string-body parse. -/
theorem parseStringBodyF_mono (f1 f2 : ℕ) (cs : List Char)
    (h1 : cs.length < f1) (h2 : cs.length < f2) :
    parseStringBodyF f1 cs = parseStringBodyF f2 cs := by
  match f1, f2, cs with
  | fa + 1, fb + 1, [] => rfl
  | fa + 1, fb + 1, [c] =>
    simp only [parseStringBodyF]
    by_cases hq : c = '"'
    · rw [if_pos hq, if_pos hq]
    rw [if_neg hq, if_neg hq]
    by_cases hb : c = '\\'
    · rw [if_pos hb, if_pos hb]
    rw [if_neg hb, if_neg hb]
    by_cases hc : c.toNat < 0x20
    · rw [if_pos hc, if_pos hc]
    · rw [if_neg hc, if_neg hc, parseStringBodyF_nil, parseStringBodyF_nil]
  | fa + 1, fb + 1, c :: e :: cs2 =>
    simp only [parseStringBodyF]
    by_cases hq : c = '"'
    · rw [if_pos hq, if_pos hq]
    rw [if_neg hq, if_neg hq]
    by_cases hb : c = '\\'
    · rw [if_pos hb, if_pos hb]
      by_cases hu : e = 'u'
      · rw [if_pos hu, if_pos hu]
        cases hd : decodeUEsc cs2 with
        | none => rfl
        | some pr =>
          obtain ⟨ch, rest⟩ := pr
          have hr := decodeUEsc_length _ _ _ hd
          have ha : rest.length < fa := by
            simp only [List.length_cons] at h1
            omega
          have hbb : rest.length < fb := by
            simp only [List.length_cons] at h2
            omega
          exact congrArg (Option.map (fun sr => (ch :: sr.1, sr.2)))
            (parseStringBodyF_mono fa fb rest ha hbb)
      · rw [if_neg hu, if_neg hu]
        cases escMap e with
        | none => rfl
        | some ch =>
          have ha : cs2.length < fa := by
            simp only [List.length_cons] at h1
            omega
          have hbb : cs2.length < fb := by
            simp only [List.length_cons] at h2
            omega
          exact congrArg (Option.map (fun sr => (ch :: sr.1, sr.2)))
            (parseStringBodyF_mono fa fb cs2 ha hbb)
    rw [if_neg hb, if_neg hb]
    by_cases hc : c.toNat < 0x20
    · rw [if_pos hc, if_pos hc]
    · rw [if_neg hc, if_neg hc]
      have ha : (e :: cs2).length < fa := by
        simp only [List.length_cons] at h1 ⊢
        omega
      have hbb : (e :: cs2).length < fb := by
        simp only [List.length_cons] at h2 ⊢
        omega
      rw [parseStringBodyF_mono fa fb (e :: cs2) ha hbb]
termination_by cs.length
decreasing_by
  all_goals simp only [List.length_cons]
  all_goals omega

/-- Sufficient fuel computes `parseStringBody`. -/
theorem parseStringBodyF_eq (f : ℕ) (cs : List Char) (h : cs.length < f) :
    parseStringBodyF f cs = parseStringBody cs :=
  parseStringBodyF_mono f (cs.length + 1) cs h (by omega)

theorem parseStringBodyF_quote (f : ℕ) (cs : List Char) :
    parseStringBodyF (f + 1) ('"' :: cs) = some ([], cs) := rfl

theorem parseStringBodyF_uEsc (f : ℕ) (cs2 tail : List Char) (ch : Char)
    (hd : decodeUEsc cs2 = some (ch, tail)) :
    parseStringBodyF (f + 1) ('\\' :: 'u' :: cs2)
      = (parseStringBodyF f tail).map (fun sr => (ch :: sr.1, sr.2)) := by
  simp [parseStringBodyF, hd]

theorem parseStringBodyF_escMap (f : ℕ) (e ch : Char) (cs2 : List Char)
    (he : escMap e = some ch) (hu : e ≠ 'u') :
    parseStringBodyF (f + 1) ('\\' :: e :: cs2)
      = (parseStringBodyF f cs2).map (fun sr => (ch :: sr.1, sr.2)) := by
  simp [parseStringBodyF, hu, he]

theorem parseStringBodyF_plain (f : ℕ) (c : Char) (cs : List Char)
    (h1 : c ≠ '"') (h2 : c ≠ '\\') (h3 : ¬ c.toNat < 0x20) :
    parseStringBodyF (f + 1) (c :: cs)
      = (parseStringBodyF f cs).map (fun sr => (c :: sr.1, sr.2)) := by
  simp [parseStringBodyF, h1, h2, h3]

theorem hexDigVal_hexDigCh (k : ℕ) (h : k < 16) : hexDigVal (hexDigCh k) = some k := by
  interval_cases k <;> rfl

/-- One escaped character parses back to that character. -/
theorem parseStringBody_escapeChar (c : Char) (tail : List Char) :
    parseStringBody (escapeChar c ++ tail)
      = (parseStringBody tail).map (fun sr => (c :: sr.1, sr.2)) := by
  by_cases h1 : c = '"'
  · subst h1
    show parseStringBody ('\\' :: '"' :: tail) = _
    rw [parseStringBody, parseStringBodyF_escMap _ '"' '"' tail rfl (by decide),
      parseStringBodyF_eq _ _ (by simp only [List.length_cons]; omega)]
  by_cases h2 : c = '\\'
  · subst h2
    show parseStringBody ('\\' :: '\\' :: tail) = _
    rw [parseStringBody, parseStringBodyF_escMap _ '\\' '\\' tail rfl (by decide),
      parseStringBodyF_eq _ _ (by simp only [List.length_cons]; omega)]
  by_cases h3 : c = '\n'
  · subst h3
    show parseStringBody ('\\' :: 'n' :: tail) = _
    rw [parseStringBody, parseStringBodyF_escMap _ 'n' '\n' tail rfl (by decide),
      parseStringBodyF_eq _ _ (by simp only [List.length_cons]; omega)]
  by_cases h4 : c = '\r'
  · subst h4
    show parseStringBody ('\\' :: 'r' :: tail) = _
    rw [parseStringBody, parseStringBodyF_escMap _ 'r' '\x0d' tail rfl (by decide),
      parseStringBodyF_eq _ _ (by simp only [List.length_cons]; omega)]
  by_cases h5 : c = '\t'
  · subst h5
    show parseStringBody ('\\' :: 't' :: tail) = _
    rw [parseStringBody, parseStringBodyF_escMap _ 't' '\t' tail rfl (by decide),
      parseStringBodyF_eq _ _ (by simp only [List.length_cons]; omega)]
  by_cases h6 : c = '\x08'
  · subst h6
    show parseStringBody ('\\' :: 'b' :: tail) = _
    rw [parseStringBody, parseStringBodyF_escMap _ 'b' '\x08' tail rfl (by decide),
      parseStringBodyF_eq _ _ (by simp only [List.length_cons]; omega)]
  by_cases h7 : c = '\x0c'
  · subst h7
    show parseStringBody ('\\' :: 'f' :: tail) = _
    rw [parseStringBody, parseStringBodyF_escMap _ 'f' '\x0c' tail rfl (by decide),
      parseStringBodyF_eq _ _ (by simp only [List.length_cons]; omega)]
  by_cases hlt : c.toNat < 0x20
  · rw [escapeChar, if_neg h1, if_neg h2, if_neg h3, if_neg h4, if_neg h5, if_neg h6,
      if_neg h7, if_pos hlt]
    have hdiv : c.toNat / 16 < 16 := by omega
    have hmod : c.toNat % 16 < 16 := Nat.mod_lt _ (by norm_num)
    have h0 : hexDigVal '0' = some 0 := rfl
    have hdec : decodeUEsc
        ('0' :: '0' :: hexDigCh (c.toNat / 16) :: hexDigCh (c.toNat % 16) :: tail)
        = some (c, tail) := by
      simp only [decodeUEsc, hex4, hexDigVal_hexDigCh _ hdiv, hexDigVal_hexDigCh _ hmod, h0]
      rw [show ((0 * 16 + 0) * 16 + c.toNat / 16) * 16 + c.toNat % 16 = c.toNat by omega]
      rw [if_pos (by simp only [Bool.or_eq_true, decide_eq_true_eq]; omega),
        Char.ofNat_toNat]
    rw [List.cons_append, List.cons_append, List.cons_append, List.cons_append,
      List.cons_append, List.cons_append, List.nil_append]
    rw [parseStringBody, parseStringBodyF_uEsc _ _ _ _ hdec,
      parseStringBodyF_eq _ _ (by simp only [List.length_cons]; omega)]
  · rw [escapeChar, if_neg h1, if_neg h2, if_neg h3, if_neg h4, if_neg h5, if_neg h6,
      if_neg h7, if_neg hlt, List.cons_append, List.nil_append]
    rw [parseStringBody, parseStringBodyF_plain _ _ _ h1 h2 hlt,
      parseStringBodyF_eq _ _ (by simp only [List.length_cons]; omega)]

/-- The string-body parser inverts the serializer escaping. -/
theorem parseStringBody_render (s rest : List Char) :
    parseStringBody (s.flatMap escapeChar ++ ('"' :: rest)) = some (s, rest) := by
  induction s with
  | nil =>
    show parseStringBody ('"' :: rest) = some ([], rest)
    rw [parseStringBody, parseStringBodyF_quote]
  | cons c s ih =>
    rw [List.flatMap_cons, List.append_assoc, parseStringBody_escapeChar, ih,
      Option.map_some']


theorem stripLit_self (lit r : List Char) : stripLit lit (lit ++ r) = some r := by
  rw [stripLit, if_pos, List.drop_left]
  rw [List.isPrefixOf_iff_prefix]
  exact List.prefix_append lit r

theorem scanValue_str (fuel : ℕ) (r : List Char) :
    scanValue (fuel + 1) ('"' :: r)
      = (parseStringBody r).map (fun sr => (Json.str sr.1, sr.2)) := rfl

theorem scanValue_null (fuel : ℕ) (r : List Char) :
    scanValue (fuel + 1) ('n' :: 'u' :: 'l' :: 'l' :: r) = some (.null, r) := by
  have hs : stripLit ['u', 'l', 'l'] ('u' :: 'l' :: 'l' :: r) = some r :=
    stripLit_self ['u', 'l', 'l'] r
  rw [scanValue]
  simp [hs]

theorem scanValue_true (fuel : ℕ) (r : List Char) :
    scanValue (fuel + 1) ('t' :: 'r' :: 'u' :: 'e' :: r) = some (.bool true, r) := by
  have hs : stripLit ['r', 'u', 'e'] ('r' :: 'u' :: 'e' :: r) = some r :=
    stripLit_self ['r', 'u', 'e'] r
  rw [scanValue]
  simp [hs]

theorem scanValue_false (fuel : ℕ) (r : List Char) :
    scanValue (fuel + 1) ('f' :: 'a' :: 'l' :: 's' :: 'e' :: r) = some (.bool false, r) := by
  have hs : stripLit ['a', 'l', 's', 'e'] ('a' :: 'l' :: 's' :: 'e' :: r) = some r :=
    stripLit_self ['a', 'l', 's', 'e'] r
  rw [scanValue]
  simp [hs]

theorem scanValue_nan (fuel : ℕ) (r : List Char) :
    scanValue (fuel + 1) ('N' :: 'a' :: 'N' :: r) = some (.nan, r) := by
  have hs : stripLit ['a', 'N'] ('a' :: 'N' :: r) = some r :=
    stripLit_self ['a', 'N'] r
  rw [scanValue]
  simp [hs]

theorem scanValue_inf (fuel : ℕ) (r : List Char) :
    scanValue (fuel + 1)
      ('I' :: 'n' :: 'f' :: 'i' :: 'n' :: 'i' :: 't' :: 'y' :: r) = some (.inf false, r) := by
  have hs : stripLit ['n', 'f', 'i', 'n', 'i', 't', 'y']
      ('n' :: 'f' :: 'i' :: 'n' :: 'i' :: 't' :: 'y' :: r) = some r :=
    stripLit_self ['n', 'f', 'i', 'n', 'i', 't', 'y'] r
  rw [scanValue]
  simp [hs]

theorem scanValue_negInf (fuel : ℕ) (r : List Char) :
    scanValue (fuel + 1)
      ('-' :: 'I' :: 'n' :: 'f' :: 'i' :: 'n' :: 'i' :: 't' :: 'y' :: r)
      = some (.inf true, r) := by
  have hs : stripLit ['I', 'n', 'f', 'i', 'n', 'i', 't', 'y']
      ('I' :: 'n' :: 'f' :: 'i' :: 'n' :: 'i' :: 't' :: 'y' :: r) = some r :=
    stripLit_self ['I', 'n', 'f', 'i', 'n', 'i', 't', 'y'] r
  rw [scanValue]
  simp [hs]

theorem scanValue_emptyObj (fuel : ℕ) (r : List Char) :
    scanValue (fuel + 1) ('{' :: '}' :: r) = some (.obj [], r) := rfl

theorem scanValue_emptyArr (fuel : ℕ) (r : List Char) :
    scanValue (fuel + 1) ('[' :: ']' :: r) = some (.arr [], r) := rfl

theorem scanValue_obj_key (fuel : ℕ) (r x : List Char) (h : skipJsonWs r = '"' :: x) :
    scanValue (fuel + 1) ('{' :: r)
      = (parseMembers fuel ('"' :: x)).map (fun mr => (Json.obj (objCollapse mr.1), mr.2)) := by
  rw [scanValue]
  simp only [h]
  rfl

theorem scanValue_arr_elem (fuel : ℕ) (r x : List Char) (c : Char)
    (h : skipJsonWs r = c :: x) (hc : c ≠ ']') :
    scanValue (fuel + 1) ('[' :: r)
      = (parseElems fuel (c :: x)).map (fun er => (Json.arr er.1, er.2)) := by
  rw [scanValue]
  simp only [h]
  rw [if_neg (show ¬ ('[' : Char) = '"' by decide),
    if_neg (show ¬ ('[' : Char) = '{' by decide), if_pos trivial]
  split
  · rename_i heq
    rw [List.cons.injEq] at heq
    exact absurd heq.1 hc
  · rfl

theorem skipJsonWs_replicate_sp (n : ℕ) (x : List Char) :
    skipJsonWs (List.replicate n ' ' ++ x) = skipJsonWs x := by
  induction n with
  | zero => rfl
  | succ n ih =>
    rw [List.replicate_succ, List.cons_append, skipJsonWs, List.dropWhile_cons,
      if_pos (by decide)]
    exact ih

theorem skipJsonWs_nlIndent (lvl : ℕ) (x : List Char) :
    skipJsonWs (nlIndent lvl ++ x) = skipJsonWs x := by
  rw [nlIndent, List.cons_append, skipJsonWs, List.dropWhile_cons, if_pos (by decide)]
  exact skipJsonWs_replicate_sp _ x

theorem skipJsonWs_cons_false (c : Char) (cs : List Char) (h : isJsonWs c = false) :
    skipJsonWs (c :: cs) = c :: cs := by
  rw [skipJsonWs, List.dropWhile_cons, if_neg]
  simp [h]

theorem isDigitCh_ne (c x : Char) (h : isDigitCh c = true) (hx : isDigitCh x = false) :
    c ≠ x := by
  rintro rfl
  rw [h] at hx
  cases hx

/-- The characters a rendered JSON value can start with. -/
def valueStartCh (c : Char) : Bool :=
  c = '"' || c = '{' || c = '[' || c = 'n' || c = 't' || c = 'f' ||
    c = 'N' || c = 'I' || c = '-' || isDigitCh c

theorem isDigitCh_not_ws (c : Char) (h : isDigitCh c = true) : isJsonWs c = false := by
  cases hw : isJsonWs c
  · rfl
  · exfalso
    simp only [isJsonWs, Bool.or_eq_true, decide_eq_true_eq] at hw
    rcases hw with ((rfl | rfl) | rfl) | rfl <;> exact absurd h (by decide)

theorem valueStartCh_not_ws (c : Char) (h : valueStartCh c = true) : isJsonWs c = false := by
  simp only [valueStartCh, Bool.or_eq_true, decide_eq_true_eq] at h
  rcases h with ((((((((rfl | rfl) | rfl) | rfl) | rfl) | rfl) | rfl) | rfl) | rfl) | hd
  all_goals first
  | rfl
  | exact isDigitCh_not_ws c hd

theorem valueStartCh_ne (c x : Char) (h : valueStartCh c = true)
    (hx : valueStartCh x = false) : c ≠ x := by
  rintro rfl
  rw [h] at hx
  cases hx

theorem intPartWfB_head (ip : List Char) (h : intPartWfB ip = true) :
    ∃ i0 ip2, ip = i0 :: ip2 ∧ isDigitCh i0 = true := by
  match ip with
  | [] => exact absurd h (by decide)
  | [c] => exact ⟨c, [], rfl, by simpa [intPartWfB] using h⟩
  | c :: d :: t =>
    have h2 : (isDigitCh c && decide (c ≠ '0') && digitsOnly (d :: t)) = true := h
    simp only [Bool.and_eq_true] at h2
    exact ⟨c, d :: t, rfl, h2.1.1⟩

example : renderValue .null 0 = ['n', 'u', 'l', 'l'] := rfl
example (s : List Char) (lvl : ℕ) : renderValue (.str s) lvl = renderStr s := rfl
example (lvl : ℕ) : renderValue (.obj []) lvl = ['{', '}'] := rfl

theorem stripLit_ne (l0 : Char) (lit : List Char) (c : Char) (t : List Char) (h : c ≠ l0) :
    stripLit (l0 :: lit) (c :: t) = none := by
  rw [stripLit, if_neg]
  intro hcon
  rw [List.isPrefixOf_iff_prefix, List.cons_prefix_cons] at hcon
  exact h hcon.1.symm

theorem numWfB_ip (n : JNum) (h : numWfB n = true) : intPartWfB n.ip = true := by
  simp only [numWfB, Bool.and_eq_true] at h
  exact h.1.1

/-- A rendered well-formed value starts with a value-start character. -/
theorem renderValue_head (j : Json) (lvl : ℕ) (hwf : wfB j = true) :
    ∃ c t, renderValue j lvl = c :: t ∧ valueStartCh c = true := by
  cases j with
  | null => exact ⟨'n', ['u', 'l', 'l'], rfl, by decide⟩
  | bool b =>
    cases b
    · exact ⟨'f', ['a', 'l', 's', 'e'], rfl, by decide⟩
    · exact ⟨'t', ['r', 'u', 'e'], rfl, by decide⟩
  | num n =>
    obtain ⟨neg, ip, fp, ep⟩ := n
    have hip : intPartWfB ip = true := numWfB_ip _ hwf
    obtain ⟨i0, ip2, rfl, hd⟩ := intPartWfB_head ip hip
    cases neg
    · exact ⟨i0, ip2 ++ (renderFracPart fp ++ renderExpPart ep), rfl,
        by simp [valueStartCh, hd]⟩
    · exact ⟨'-', (i0 :: ip2) ++ (renderFracPart fp ++ renderExpPart ep), rfl, by decide⟩
  | nan => exact ⟨'N', ['a', 'N'], rfl, by decide⟩
  | inf b =>
    cases b
    · exact ⟨'I', ['n', 'f', 'i', 'n', 'i', 't', 'y'], rfl, by decide⟩
    · exact ⟨'-', ['I', 'n', 'f', 'i', 'n', 'i', 't', 'y'], rfl, by decide⟩
  | str s => exact ⟨'"', s.flatMap escapeChar ++ ['"'], rfl, by decide⟩
  | arr es =>
    cases es with
    | nil => exact ⟨'[', [']'], rfl, by decide⟩
    | cons e es =>
      exact ⟨'[', nlIndent (lvl + 1) ++ renderValue e (lvl + 1) ++
        renderElemsTail es (lvl + 1) ++ nlIndent lvl ++ [']'], rfl, by decide⟩
  | obj fs =>
    cases fs with
    | nil => exact ⟨'{', ['}'], rfl, by decide⟩
    | cons kv kvs =>
      exact ⟨'{', nlIndent (lvl + 1) ++ renderMember kv (lvl + 1) ++
        renderMembersTail kvs (lvl + 1) ++ nlIndent lvl ++ ['}'], rfl, by decide⟩

theorem scanValue_digit (fuel : ℕ) (c : Char) (r : List Char) (hd : isDigitCh c = true) :
    scanValue (fuel + 1) (c :: r)
      = (scanNumberTok false (c :: r)).map (fun nr => (Json.num nr.1, nr.2)) := by
  rw [scanValue]
  split_ifs with h1 h2 h3 h4 h5 h6 h7 h8 h9
  · exact absurd h1 (isDigitCh_ne c '"' hd (by decide))
  · exact absurd h2 (isDigitCh_ne c '{' hd (by decide))
  · exact absurd h3 (isDigitCh_ne c '[' hd (by decide))
  · exact absurd h4 (isDigitCh_ne c 'n' hd (by decide))
  · exact absurd h5 (isDigitCh_ne c 't' hd (by decide))
  · exact absurd h6 (isDigitCh_ne c 'f' hd (by decide))
  · exact absurd h7 (isDigitCh_ne c 'N' hd (by decide))
  · exact absurd h8 (isDigitCh_ne c 'I' hd (by decide))
  · exact absurd h9 (isDigitCh_ne c '-' hd (by decide))
  · rfl

theorem scanValue_minus_num (fuel : ℕ) (r : List Char)
    (h : stripLit ('I' :: ['n', 'f', 'i', 'n', 'i', 't', 'y']) r = none) :
    scanValue (fuel + 1) ('-' :: r)
      = (scanNumberTok true r).map (fun nr => (Json.num nr.1, nr.2)) := by
  rw [scanValue]
  simp only [h]
  rfl

/-- A rendered well-formed number scans back to itself. -/
theorem scanValue_num (fuel : ℕ) (n : JNum) (rest : List Char) (hwf : numWfB n = true)
    (hrest : numDelimJ rest = true) :
    scanValue (fuel + 1) (renderNum n ++ rest) = some (.num n, rest) := by
  obtain ⟨neg, ip, fp, ep⟩ := n
  have hip : intPartWfB ip = true := numWfB_ip _ hwf
  obtain ⟨i0, ip2, rfl, hd⟩ := intPartWfB_head ip hip
  have hinv := scanNumberTok_inv neg (i0 :: ip2) fp ep rest hwf hrest
  cases neg
  · have hshape : renderNum ⟨false, i0 :: ip2, fp, ep⟩ ++ rest
        = i0 :: (ip2 ++ (renderFracPart fp ++ (renderExpPart ep ++ rest))) := by
      simp [renderNum, List.append_assoc]
    rw [hshape, scanValue_digit fuel i0 _ hd,
      show i0 :: (ip2 ++ (renderFracPart fp ++ (renderExpPart ep ++ rest)))
        = (i0 :: ip2) ++ (renderFracPart fp ++ (renderExpPart ep ++ rest)) from rfl,
      hinv, Option.map_some']
  · have hshape : renderNum ⟨true, i0 :: ip2, fp, ep⟩ ++ rest
        = '-' :: (i0 :: (ip2 ++ (renderFracPart fp ++ (renderExpPart ep ++ rest)))) := by
      simp [renderNum, List.append_assoc]
    have hstrip : stripLit ('I' :: ['n', 'f', 'i', 'n', 'i', 't', 'y'])
        (i0 :: (ip2 ++ (renderFracPart fp ++ (renderExpPart ep ++ rest)))) = none :=
      stripLit_ne 'I' _ i0 _ (isDigitCh_ne i0 'I' hd (by decide))
    rw [hshape, scanValue_minus_num fuel _ hstrip,
      show i0 :: (ip2 ++ (renderFracPart fp ++ (renderExpPart ep ++ rest)))
        = (i0 :: ip2) ++ (renderFracPart fp ++ (renderExpPart ep ++ rest)) from rfl,
      hinv, Option.map_some']


theorem nlIndent_length (lvl : ℕ) : (nlIndent lvl).length = 2 * lvl + 1 := by
  simp [nlIndent]

theorem skipJsonWs_render (j : Json) (lvl : ℕ) (hwf : wfB j = true) (x : List Char) :
    skipJsonWs (renderValue j lvl ++ x) = renderValue j lvl ++ x := by
  obtain ⟨c, t, hct, hv⟩ := renderValue_head j lvl hwf
  rw [hct, List.cons_append, skipJsonWs_cons_false _ _ (valueStartCh_not_ws c hv)]

theorem objInsert_append (fs : List (List Char × Json)) (k : List Char) (v : Json)
    (h : ∀ kv ∈ fs, kv.1 ≠ k) : objInsert fs k v = fs ++ [(k, v)] := by
  induction fs with
  | nil => rfl
  | cons kv fs ih =>
    obtain ⟨k0, v0⟩ := kv
    rw [objInsert, if_neg (h (k0, v0) (by simp)), ih (fun kv2 hm => h kv2 (by simp [hm]))]
    rfl

theorem objCollapse_aux (ps : List (List Char × Json)) :
    ∀ acc : List (List Char × Json), keysNodupB (ps.map Prod.fst) = true →
    (∀ kv ∈ ps, ∀ kv2 ∈ acc, kv2.1 ≠ kv.1) →
    ps.foldl (fun acc kv => objInsert acc kv.1 kv.2) acc = acc ++ ps := by
  induction ps with
  | nil => intro acc _ _; simp
  | cons kv ps ih =>
    intro acc hnd hdisj
    obtain ⟨k, v⟩ := kv
    simp only [List.map_cons, keysNodupB, Bool.and_eq_true, Bool.not_eq_true',
      decide_eq_false_iff_not] at hnd
    obtain ⟨hknot, hndtail⟩ := hnd
    rw [List.foldl_cons]
    rw [show objInsert acc k v = acc ++ [(k, v)] from
      objInsert_append acc k v (fun kv2 hm => hdisj (k, v) (by simp) kv2 hm)]
    rw [ih (acc ++ [(k, v)]) hndtail ?_]
    · simp
    · intro kv2 hm2 kv3 hm3
      rcases List.mem_append.1 hm3 with hm3 | hm3
      · exact hdisj kv2 (by simp [hm2]) kv3 hm3
      · have : kv3 = (k, v) := by simpa using hm3
        subst this
        intro hcon
        have hck : k = kv2.1 := hcon
        exact hknot (by rw [hck]; exact List.mem_map_of_mem Prod.fst hm2)

/-- Collapsing an object with distinct keys is the identity. -/
theorem objCollapse_nodup (ps : List (List Char × Json))
    (h : keysNodupB (ps.map Prod.fst) = true) : objCollapse ps = ps := by
  rw [objCollapse, objCollapse_aux ps [] h (by simp)]
  simp


/-- The joint round-trip statement for the three mutual parsers, by fuel
induction: a rendered well-formed value (element list, member list) parses
back to itself. -/
theorem rt_all : ∀ fuel : ℕ,
    (∀ (j : Json) (lvl : ℕ) (rest : List Char), wfB j = true → numDelimJ rest = true →
      (renderValue j lvl ++ rest).length ≤ fuel →
      scanValue fuel (renderValue j lvl ++ rest) = some (j, rest)) ∧
    (∀ (e : Json) (es : List Json) (lvl lvl0 : ℕ) (rest : List Char),
      wfB e = true → wfArrB es = true →
      (renderValue e lvl ++ (renderElemsTail es lvl ++ (nlIndent lvl0 ++ (']' :: rest)))).length + 1 ≤ fuel →
      parseElems fuel (renderValue e lvl ++ (renderElemsTail es lvl ++ (nlIndent lvl0 ++ (']' :: rest))))
        = some (e :: es, rest)) ∧
    (∀ (k : List Char) (v : Json) (kvs : List (List Char × Json)) (lvl lvl0 : ℕ) (rest : List Char),
      wfB v = true → wfObjB kvs = true →
      (renderMember (k, v) lvl ++ (renderMembersTail kvs lvl ++ (nlIndent lvl0 ++ ('}' :: rest)))).length ≤ fuel →
      parseMembers fuel (renderMember (k, v) lvl ++ (renderMembersTail kvs lvl ++ (nlIndent lvl0 ++ ('}' :: rest))))
        = some ((k, v) :: kvs, rest)) := by
  intro fuel
  induction fuel with
  | zero =>
    refine ⟨?_, ?_, ?_⟩
    · intro j lvl rest hwf _ hfuel
      obtain ⟨c, t, hct, -⟩ := renderValue_head j lvl hwf
      rw [hct] at hfuel
      simp at hfuel
    · intro e es lvl lvl0 rest hwfe _ hfuel
      omega
    · intro k v kvs lvl lvl0 rest _ _ hfuel
      have hm : renderMember (k, v) lvl ++ (renderMembersTail kvs lvl ++ (nlIndent lvl0 ++ ('}' :: rest)))
          = '"' :: (k.flatMap escapeChar ++ ('"' :: (':' :: (' ' :: (renderValue v lvl ++
              (renderMembersTail kvs lvl ++ (nlIndent lvl0 ++ ('}' :: rest)))))))) := by
        simp [renderMember, renderStr, List.append_assoc]
      rw [hm] at hfuel
      simp at hfuel
  | succ fuel ih =>
    obtain ⟨ih_sv, ih_pe, ih_pm⟩ := ih
    refine ⟨?_, ?_, ?_⟩
    · intro j lvl rest hwf hrest hfuel
      cases j with
      | null => exact scanValue_null fuel rest
      | bool b =>
        cases b
        · exact scanValue_false fuel rest
        · exact scanValue_true fuel rest
      | nan => exact scanValue_nan fuel rest
      | inf b =>
        cases b
        · exact scanValue_inf fuel rest
        · exact scanValue_negInf fuel rest
      | num n => exact scanValue_num fuel n rest hwf hrest
      | str s =>
        show scanValue (fuel + 1) ('"' :: ((s.flatMap escapeChar ++ ['"']) ++ rest))
          = some (.str s, rest)
        rw [scanValue_str, List.append_assoc, List.singleton_append,
          parseStringBody_render, Option.map_some']
      | arr es =>
        cases es with
        | nil => exact scanValue_emptyArr fuel rest
        | cons e es =>
          have hwf2 : wfB e = true ∧ wfArrB es = true := by
            simp only [wfB, wfArrB, Bool.and_eq_true] at hwf
            exact hwf
          obtain ⟨c, t, hct, hvs⟩ := renderValue_head e (lvl + 1) hwf2.1
          have hshape : renderValue (.arr (e :: es)) lvl ++ rest
              = '[' :: (nlIndent (lvl + 1) ++ (renderValue e (lvl + 1) ++
                  (renderElemsTail es (lvl + 1) ++ (nlIndent lvl ++ (']' :: rest))))) := by
            simp [renderValue, List.append_assoc]
          rw [hshape] at hfuel ⊢
          have hskip : skipJsonWs (nlIndent (lvl + 1) ++ (renderValue e (lvl + 1) ++
              (renderElemsTail es (lvl + 1) ++ (nlIndent lvl ++ (']' :: rest)))))
              = c :: (t ++ (renderElemsTail es (lvl + 1) ++ (nlIndent lvl ++ (']' :: rest)))) := by
            rw [skipJsonWs_nlIndent, hct, List.cons_append,
              skipJsonWs_cons_false _ _ (valueStartCh_not_ws c hvs)]
          rw [scanValue_arr_elem fuel _ _ c hskip (valueStartCh_ne c ']' hvs (by decide))]
          have hback : c :: (t ++ (renderElemsTail es (lvl + 1) ++ (nlIndent lvl ++ (']' :: rest))))
              = renderValue e (lvl + 1) ++ (renderElemsTail es (lvl + 1) ++ (nlIndent lvl ++ (']' :: rest))) := by
            rw [hct]
            rfl
          rw [hback]
          have hbound : (renderValue e (lvl + 1) ++ (renderElemsTail es (lvl + 1) ++
              (nlIndent lvl ++ (']' :: rest)))).length + 1 ≤ fuel := by
            simp only [List.length_cons, List.length_append, nlIndent_length] at hfuel ⊢
            omega
          rw [ih_pe e es (lvl + 1) lvl rest hwf2.1 hwf2.2 hbound, Option.map_some']
      | obj fs =>
        cases fs with
        | nil => exact scanValue_emptyObj fuel rest
        | cons kv kvs =>
          obtain ⟨k, v⟩ := kv
          have hwf2 : keysNodupB (((k, v) :: kvs).map Prod.fst) = true ∧
              wfB v = true ∧ wfObjB kvs = true := by
            simp only [wfB, wfObjB, Bool.and_eq_true] at hwf
            exact ⟨hwf.1, hwf.2.1, hwf.2.2⟩
          have hshape : renderValue (.obj ((k, v) :: kvs)) lvl ++ rest
              = '{' :: (nlIndent (lvl + 1) ++ (renderMember (k, v) (lvl + 1) ++
                  (renderMembersTail kvs (lvl + 1) ++ (nlIndent lvl ++ ('}' :: rest))))) := by
            simp [renderValue, List.append_assoc]
          rw [hshape] at hfuel ⊢
          have hm : renderMember (k, v) (lvl + 1) ++
              (renderMembersTail kvs (lvl + 1) ++ (nlIndent lvl ++ ('}' :: rest)))
              = '"' :: (k.flatMap escapeChar ++ ('"' :: (':' :: (' ' :: (renderValue v (lvl + 1) ++
                  (renderMembersTail kvs (lvl + 1) ++ (nlIndent lvl ++ ('}' :: rest)))))))) := by
            simp [renderMember, renderStr, List.append_assoc]
          have hskip : skipJsonWs (nlIndent (lvl + 1) ++ (renderMember (k, v) (lvl + 1) ++
              (renderMembersTail kvs (lvl + 1) ++ (nlIndent lvl ++ ('}' :: rest)))))
              = '"' :: (k.flatMap escapeChar ++ ('"' :: (':' :: (' ' :: (renderValue v (lvl + 1) ++
                  (renderMembersTail kvs (lvl + 1) ++ (nlIndent lvl ++ ('}' :: rest)))))))) := by
            rw [skipJsonWs_nlIndent, hm, skipJsonWs_cons_false _ _ (by decide)]
          rw [scanValue_obj_key fuel _ _ hskip]
          have hback : ('"' : Char) :: (k.flatMap escapeChar ++ ('"' :: (':' :: (' ' :: (renderValue v (lvl + 1) ++
              (renderMembersTail kvs (lvl + 1) ++ (nlIndent lvl ++ ('}' :: rest))))))))
              = renderMember (k, v) (lvl + 1) ++
                  (renderMembersTail kvs (lvl + 1) ++ (nlIndent lvl ++ ('}' :: rest))) := hm.symm
          rw [hback]
          have hbound : (renderMember (k, v) (lvl + 1) ++
              (renderMembersTail kvs (lvl + 1) ++ (nlIndent lvl ++ ('}' :: rest)))).length ≤ fuel := by
            rw [hm] at hfuel
            rw [hm]
            simp only [List.length_cons, List.length_append, nlIndent_length] at hfuel ⊢
            omega
          rw [ih_pm k v kvs (lvl + 1) lvl rest hwf2.2.1 hwf2.2.2 hbound, Option.map_some',
            objCollapse_nodup _ hwf2.1]
    · intro e es lvl lvl0 rest hwfe hwfes hfuel
      have hrest2 : numDelimJ (renderElemsTail es lvl ++ (nlIndent lvl0 ++ (']' :: rest))) = true := by
        cases es <;> rfl
      have hsv := ih_sv e lvl _ hwfe hrest2 (by omega)
      rw [parseElems]
      simp only [hsv]
      cases es with
      | nil =>
        have hskip : skipJsonWs (renderElemsTail [] lvl ++ (nlIndent lvl0 ++ (']' :: rest)))
            = ']' :: rest := by
          show skipJsonWs (nlIndent lvl0 ++ (']' :: rest)) = _
          rw [skipJsonWs_nlIndent, skipJsonWs_cons_false _ _ (by decide)]
        simp only [hskip]
      | cons e2 es2 =>
        have hwf2 : wfB e2 = true ∧ wfArrB es2 = true := by
          simp only [wfArrB, Bool.and_eq_true] at hwfes
          exact hwfes
        have hshape2 : renderElemsTail (e2 :: es2) lvl ++ (nlIndent lvl0 ++ (']' :: rest))
            = ',' :: (nlIndent lvl ++ (renderValue e2 lvl ++
                (renderElemsTail es2 lvl ++ (nlIndent lvl0 ++ (']' :: rest))))) := by
          simp [renderElemsTail, List.append_assoc]
        rw [hshape2]
        rw [skipJsonWs_cons_false ',' _ (by decide)]
        have hskip2 : skipJsonWs (nlIndent lvl ++ (renderValue e2 lvl ++
            (renderElemsTail es2 lvl ++ (nlIndent lvl0 ++ (']' :: rest)))))
            = renderValue e2 lvl ++ (renderElemsTail es2 lvl ++ (nlIndent lvl0 ++ (']' :: rest))) := by
          rw [skipJsonWs_nlIndent, skipJsonWs_render e2 lvl hwf2.1]
        have hlen_e : 1 ≤ (renderValue e lvl).length := by
          obtain ⟨c, t, hct, -⟩ := renderValue_head e lvl hwfe
          rw [hct]
          simp
        have hbound : (renderValue e2 lvl ++ (renderElemsTail es2 lvl ++
            (nlIndent lvl0 ++ (']' :: rest)))).length + 1 ≤ fuel := by
          rw [hshape2] at hfuel
          simp only [List.length_cons, List.length_append, nlIndent_length] at hfuel ⊢
          omega
        have hpe2 := ih_pe e2 es2 lvl lvl0 rest hwf2.1 hwf2.2 hbound
        simp only [hskip2, hpe2, Option.map_some']
    · intro k v kvs lvl lvl0 rest hwfv hwfkvs hfuel
      have hm : renderMember (k, v) lvl ++ (renderMembersTail kvs lvl ++ (nlIndent lvl0 ++ ('}' :: rest)))
          = '"' :: (k.flatMap escapeChar ++ ('"' :: (':' :: (' ' :: (renderValue v lvl ++
              (renderMembersTail kvs lvl ++ (nlIndent lvl0 ++ ('}' :: rest)))))))) := by
        simp [renderMember, renderStr, List.append_assoc]
      have hskip1 : skipJsonWs (':' :: (' ' :: (renderValue v lvl ++
          (renderMembersTail kvs lvl ++ (nlIndent lvl0 ++ ('}' :: rest))))))
          = ':' :: (' ' :: (renderValue v lvl ++
              (renderMembersTail kvs lvl ++ (nlIndent lvl0 ++ ('}' :: rest)))))
          := skipJsonWs_cons_false ':' _ (by decide)
      rw [hm, parseMembers]
      simp only [parseStringBody_render, hskip1]
      have hskip2 : skipJsonWs (' ' :: (renderValue v lvl ++
          (renderMembersTail kvs lvl ++ (nlIndent lvl0 ++ ('}' :: rest)))))
          = renderValue v lvl ++ (renderMembersTail kvs lvl ++ (nlIndent lvl0 ++ ('}' :: rest))) := by
        rw [skipJsonWs, List.dropWhile_cons, if_pos (by decide)]
        exact skipJsonWs_render v lvl hwfv _
      rw [hskip2]
      have hrest2 : numDelimJ (renderMembersTail kvs lvl ++ (nlIndent lvl0 ++ ('}' :: rest))) = true := by
        cases kvs <;> rfl
      have hbound1 : (renderValue v lvl ++ (renderMembersTail kvs lvl ++
          (nlIndent lvl0 ++ ('}' :: rest)))).length ≤ fuel := by
        rw [hm] at hfuel
        simp only [List.length_cons, List.length_append, nlIndent_length] at hfuel ⊢
        omega
      have hsv := ih_sv v lvl _ hwfv hrest2 hbound1
      simp only [hsv]
      cases kvs with
      | nil =>
        have hskipR : skipJsonWs (renderMembersTail [] lvl ++ (nlIndent lvl0 ++ ('}' :: rest)))
            = '}' :: rest := by
          show skipJsonWs (nlIndent lvl0 ++ ('}' :: rest)) = _
          rw [skipJsonWs_nlIndent, skipJsonWs_cons_false _ _ (by decide)]
        simp only [hskipR]
      | cons kv2 kvs2 =>
        obtain ⟨k2, v2⟩ := kv2
        have hwf2 : wfB v2 = true ∧ wfObjB kvs2 = true := by
          simp only [wfObjB, Bool.and_eq_true] at hwfkvs
          exact hwfkvs
        have hshapeM : renderMembersTail ((k2, v2) :: kvs2) lvl ++ (nlIndent lvl0 ++ ('}' :: rest))
            = ',' :: (nlIndent lvl ++ (renderMember (k2, v2) lvl ++
                (renderMembersTail kvs2 lvl ++ (nlIndent lvl0 ++ ('}' :: rest))))) := by
          simp [renderMembersTail, List.append_assoc]
        rw [hshapeM]
        rw [skipJsonWs_cons_false ',' _ (by decide)]
        have hm2 : renderMember (k2, v2) lvl ++
            (renderMembersTail kvs2 lvl ++ (nlIndent lvl0 ++ ('}' :: rest)))
            = '"' :: (k2.flatMap escapeChar ++ ('"' :: (':' :: (' ' :: (renderValue v2 lvl ++
                (renderMembersTail kvs2 lvl ++ (nlIndent lvl0 ++ ('}' :: rest)))))))) := by
          simp [renderMember, renderStr, List.append_assoc]
        have hskip3 : skipJsonWs (nlIndent lvl ++ (renderMember (k2, v2) lvl ++
            (renderMembersTail kvs2 lvl ++ (nlIndent lvl0 ++ ('}' :: rest)))))
            = renderMember (k2, v2) lvl ++
                (renderMembersTail kvs2 lvl ++ (nlIndent lvl0 ++ ('}' :: rest))) := by
          rw [skipJsonWs_nlIndent, hm2, skipJsonWs_cons_false _ _ (by decide)]
        have hbound2 : (renderMember (k2, v2) lvl ++ (renderMembersTail kvs2 lvl ++
            (nlIndent lvl0 ++ ('}' :: rest)))).length ≤ fuel := by
          rw [hm] at hfuel
          rw [hshapeM] at hfuel
          simp only [List.length_cons, List.length_append, nlIndent_length] at hfuel ⊢
          omega
        have hpm2 := ih_pm k2 v2 kvs2 lvl lvl0 rest hwf2.1 hwf2.2 hbound2
        simp only [hskip3, hpm2, Option.map_some']

/-- `json.loads` inverts `json.dumps` on well-formed documents. -/
theorem loads_dumps (j : Json) (hwf : wfB j = true) : loads (dumps j) = some j := by
  rw [loads]
  have hskip : skipJsonWs (dumps j) = dumps j := by
    have h := skipJsonWs_render j 0 hwf []
    rw [List.append_nil] at h
    exact h
  rw [hskip]
  have hsv := (rt_all ((renderValue j 0).length + 1)).1 j 0 [] hwf rfl
    (by rw [List.append_nil]; exact Nat.le_succ _)
  rw [List.append_nil] at hsv
  rw [show dumps j = renderValue j 0 from rfl, hsv]
  rfl


theorem takeDigitsJ_digits : ∀ cs : List Char, digitsOnly (takeDigitsJ cs).1 = true := by
  intro cs
  induction cs with
  | nil => rfl
  | cons c cs ih =>
    rcases htd : takeDigitsJ cs with ⟨ds, r⟩
    rw [htd] at ih
    by_cases h : isDigitCh c = true
    · rw [takeDigitsJ, if_pos h, htd]
      simpa [digitsOnly, h] using ih
    · rw [takeDigitsJ, if_neg h]
      rfl

theorem scanIntPart_wfB (cs ip r : List Char) (h : scanIntPart cs = some (ip, r)) :
    intPartWfB ip = true := by
  match cs with
  | [] => exact Option.noConfusion h
  | c :: cs2 =>
    rw [scanIntPart] at h
    by_cases hc : c = '0'
    · rw [if_pos hc] at h
      injection h with h2
      have hip : ip = ['0'] := (congrArg Prod.fst h2).symm
      rw [hip]
      decide
    · rw [if_neg hc] at h
      by_cases hd : isDigitCh c = true
      · rw [if_pos hd] at h
        rcases htd : takeDigitsJ cs2 with ⟨ds, r0⟩
        rw [htd] at h
        injection h with h2
        have hip : ip = c :: ds := (congrArg Prod.fst h2).symm
        have hds : digitsOnly ds = true := by
          have := takeDigitsJ_digits cs2
          rw [htd] at this
          exact this
        rw [hip]
        cases ds with
        | nil => simpa [intPartWfB] using hd
        | cons d t =>
          show (isDigitCh c && decide (c ≠ '0') && digitsOnly (d :: t)) = true
          simp [hd, hc, hds]
      · rw [if_neg hd] at h
        exact Option.noConfusion h

theorem scanFrac_wfB (cs : List Char) (fp : Option (List Char)) (r : List Char)
    (h : scanFrac cs = (fp, r)) :
    ∀ ds, fp = some ds → ds ≠ [] ∧ digitsOnly ds = true := by
  match cs with
  | [] =>
    intro ds hds
    rw [scanFrac] at h
    injection h with h1 h2
    rw [← h1] at hds
    exact Option.noConfusion hds
  | c :: cs2 =>
    intro ds hds
    rw [scanFrac] at h
    by_cases hc : c = '.'
    · rw [if_pos hc] at h
      rcases htd : takeDigitsJ cs2 with ⟨ds0, r0⟩
      rw [htd] at h
      have hd0 : digitsOnly ds0 = true := by
        have := takeDigitsJ_digits cs2
        rw [htd] at this
        exact this
      cases ds0 with
      | nil =>
        injection h with h1 h2
        rw [← h1] at hds
        exact Option.noConfusion hds
      | cons d t =>
        injection h with h1 h2
        rw [← h1] at hds
        injection hds with h3
        rw [← h3]
        exact ⟨by simp, hd0⟩
    · rw [if_neg hc] at h
      injection h with h1 h2
      rw [← h1] at hds
      exact Option.noConfusion hds

theorem scanExp_wfB (cs : List Char) (ep : Option (Bool × Option Bool × List Char))
    (r : List Char) (h : scanExp cs = (ep, r)) :
    ∀ up sgn ds, ep = some (up, sgn, ds) → ds ≠ [] ∧ digitsOnly ds = true := by
  match cs with
  | [] =>
    intro up sgn ds hds
    rw [scanExp] at h
    injection h with h1 h2
    rw [← h1] at hds
    exact Option.noConfusion hds
  | c :: cs2 =>
    intro up sgn ds hds
    simp only [scanExp.eq_def] at h
    by_cases hc : (c = 'e' || c = 'E') = true
    · rw [if_pos hc] at h
      match cs2, h with
      | [], h =>
        injection h with h1 h2
        rw [← h1] at hds
        exact Option.noConfusion hds
      | s :: cs3, h =>
        have h : (if (decide (s = '+') || decide (s = '-')) = true then
            match takeDigitsJ cs3 with
            | ([], _) => ((none : Option (Bool × Option Bool × List Char)), c :: s :: cs3)
            | (ds, r) => (some (decide (c = 'E'), some (decide (s = '-')), ds), r)
          else
            match takeDigitsJ (s :: cs3) with
            | ([], _) => ((none : Option (Bool × Option Bool × List Char)), c :: s :: cs3)
            | (ds, r) => (some (decide (c = 'E'), none, ds), r)) = (ep, r) := h
        by_cases hs : (s = '+' || s = '-') = true
        · rw [if_pos hs] at h
          rcases htd : takeDigitsJ cs3 with ⟨ds0, r0⟩
          rw [htd] at h
          have hd0 : digitsOnly ds0 = true := by
            have := takeDigitsJ_digits cs3
            rw [htd] at this
            exact this
          cases ds0 with
          | nil =>
            injection h with h1 h2
            rw [← h1] at hds
            exact Option.noConfusion hds
          | cons d t =>
            injection h with h1 h2
            rw [← h1] at hds
            injection hds with h3
            obtain ⟨-, -, h5⟩ : up = decide (c = 'E') ∧ sgn = some (decide (s = '-')) ∧ ds = d :: t := by
              have h4 := h3.symm
              rw [Prod.mk.injEq, Prod.mk.injEq] at h4
              exact ⟨h4.1, h4.2.1, h4.2.2⟩
            rw [h5]
            exact ⟨by simp, hd0⟩
        · rw [if_neg hs] at h
          rcases htd : takeDigitsJ (s :: cs3) with ⟨ds0, r0⟩
          rw [htd] at h
          have hd0 : digitsOnly ds0 = true := by
            have := takeDigitsJ_digits (s :: cs3)
            rw [htd] at this
            exact this
          cases ds0 with
          | nil =>
            injection h with h1 h2
            rw [← h1] at hds
            exact Option.noConfusion hds
          | cons d t =>
            injection h with h1 h2
            rw [← h1] at hds
            injection hds with h3
            obtain ⟨-, -, h5⟩ : up = decide (c = 'E') ∧ sgn = (none : Option Bool) ∧ ds = d :: t := by
              have h4 := h3.symm
              rw [Prod.mk.injEq, Prod.mk.injEq] at h4
              exact ⟨h4.1, h4.2.1, h4.2.2⟩
            rw [h5]
            exact ⟨by simp, hd0⟩
    · rw [if_neg hc] at h
      injection h with h1 h2
      rw [← h1] at hds
      exact Option.noConfusion hds

/-- Tokens produced by the number scanner are well-formed. -/
theorem scanNumberTok_wfB (neg : Bool) (cs : List Char) (n : JNum) (rest : List Char)
    (h : scanNumberTok neg cs = some (n, rest)) : numWfB n = true := by
  rw [scanNumberTok] at h
  cases hip : scanIntPart cs with
  | none => rw [hip] at h; exact Option.noConfusion h
  | some pr =>
    obtain ⟨ip, r1⟩ := pr
    simp only [hip] at h
    rcases hfr : scanFrac r1 with ⟨fp, r2⟩
    simp only [hfr] at h
    rcases hex : scanExp r2 with ⟨ep, r3⟩
    simp only [hex] at h
    injection h with h2
    have hn : n = ⟨neg, ip, fp, ep⟩ := (congrArg Prod.fst h2).symm
    rw [hn]
    have h1 := scanIntPart_wfB cs ip r1 hip
    simp only [numWfB, Bool.and_eq_true]
    refine ⟨⟨h1, ?_⟩, ?_⟩
    · cases fp with
      | none => rfl
      | some ds =>
        obtain ⟨hne, hds⟩ := scanFrac_wfB r1 (some ds) r2 hfr ds rfl
        simp [List.isEmpty_eq_false, hne, hds]
    · cases ep with
      | none => rfl
      | some x =>
        obtain ⟨up, sgn, ds⟩ := x
        obtain ⟨hne, hds⟩ := scanExp_wfB r2 (some (up, sgn, ds)) r3 hex up sgn ds rfl
        simp [List.isEmpty_eq_false, hne, hds]

theorem objInsert_keys_subset (fs : List (List Char × Json)) (k : List Char) (v : Json) :
    ∀ x ∈ (objInsert fs k v).map Prod.fst, x ∈ fs.map Prod.fst ∨ x = k := by
  induction fs with
  | nil =>
    intro x hx
    simp only [objInsert, List.map_cons, List.map_nil, List.mem_cons,
      List.not_mem_nil, or_false] at hx
    exact Or.inr hx
  | cons kv fs ih =>
    obtain ⟨k0, v0⟩ := kv
    intro x hx
    rw [objInsert] at hx
    by_cases hk : k0 = k
    · rw [if_pos hk] at hx
      simp only [List.map_cons, List.mem_cons] at hx ⊢
      rcases hx with rfl | hx
      · exact Or.inl (Or.inl rfl)
      · exact Or.inl (Or.inr hx)
    · rw [if_neg hk] at hx
      simp only [List.map_cons, List.mem_cons] at hx ⊢
      rcases hx with rfl | hx
      · exact Or.inl (Or.inl rfl)
      · rcases ih x hx with hx2 | hx2
        · exact Or.inl (Or.inr hx2)
        · exact Or.inr hx2

theorem keysNodupB_objInsert (fs : List (List Char × Json)) (k : List Char) (v : Json)
    (h : keysNodupB (fs.map Prod.fst) = true) :
    keysNodupB ((objInsert fs k v).map Prod.fst) = true := by
  induction fs with
  | nil => simp [objInsert, keysNodupB]
  | cons kv fs ih =>
    obtain ⟨k0, v0⟩ := kv
    simp only [List.map_cons, keysNodupB, Bool.and_eq_true, Bool.not_eq_true',
      decide_eq_false_iff_not] at h
    obtain ⟨hk0, htail⟩ := h
    rw [objInsert]
    by_cases hk : k0 = k
    · rw [if_pos hk]
      simp only [List.map_cons, keysNodupB, Bool.and_eq_true, Bool.not_eq_true',
        decide_eq_false_iff_not]
      exact ⟨hk0, htail⟩
    · rw [if_neg hk]
      simp only [List.map_cons, keysNodupB, Bool.and_eq_true, Bool.not_eq_true',
        decide_eq_false_iff_not]
      refine ⟨?_, ih htail⟩
      intro hmem
      rcases objInsert_keys_subset fs k v k0 hmem with hx | hx
      · exact hk0 hx
      · exact hk hx

theorem wfObjB_objInsert (fs : List (List Char × Json)) (k : List Char) (v : Json)
    (hfs : wfObjB fs = true) (hv : wfB v = true) : wfObjB (objInsert fs k v) = true := by
  induction fs with
  | nil =>
    show (wfB v && wfObjB []) = true
    simp [hv]
    rfl
  | cons kv fs ih =>
    obtain ⟨k0, v0⟩ := kv
    have hfs2 : (wfB v0 && wfObjB fs) = true := hfs
    simp only [Bool.and_eq_true] at hfs2
    rw [objInsert]
    by_cases hk : k0 = k
    · rw [if_pos hk]
      show (wfB v && wfObjB fs) = true
      simp [hv, hfs2.2]
    · rw [if_neg hk]
      show (wfB v0 && wfObjB (objInsert fs k v)) = true
      simp [hfs2.1, ih hfs2.2]

/-- The collapsed object dict always has distinct keys and, when all member
values are well-formed, well-formed values. -/
theorem objCollapse_wfB (ps : List (List Char × Json)) (hps : wfObjB ps = true) :
    keysNodupB ((objCollapse ps).map Prod.fst) = true ∧ wfObjB (objCollapse ps) = true := by
  rw [objCollapse]
  suffices hgen : ∀ acc : List (List Char × Json),
      keysNodupB (acc.map Prod.fst) = true → wfObjB acc = true → wfObjB ps = true →
      keysNodupB ((ps.foldl (fun acc kv => objInsert acc kv.1 kv.2) acc).map Prod.fst) = true ∧
        wfObjB (ps.foldl (fun acc kv => objInsert acc kv.1 kv.2) acc) = true by
    exact hgen [] rfl rfl hps
  clear hps
  induction ps with
  | nil => intro acc h1 h2 _; exact ⟨h1, h2⟩
  | cons kv ps ih =>
    intro acc h1 h2 h3
    obtain ⟨k, v⟩ := kv
    have h32 : (wfB v && wfObjB ps) = true := h3
    simp only [Bool.and_eq_true] at h32
    rw [List.foldl_cons]
    exact ih (objInsert acc k v) (keysNodupB_objInsert acc k v h1)
      (wfObjB_objInsert acc k v h2 h32.1) h32.2

set_option maxHeartbeats 2000000 in
/-- Values produced by the parsers are well-formed. -/
theorem parsers_wf : ∀ fuel : ℕ,
    (∀ cs v rest, scanValue fuel cs = some (v, rest) → wfB v = true) ∧
    (∀ cs es rest, parseElems fuel cs = some (es, rest) → wfArrB es = true) ∧
    (∀ cs ms rest, parseMembers fuel cs = some (ms, rest) → wfObjB ms = true) := by
  intro fuel
  induction fuel with
  | zero =>
    refine ⟨?_, ?_, ?_⟩ <;> exact fun cs v rest h => Option.noConfusion h
  | succ fuel ih =>
    obtain ⟨ih_sv, ih_pe, ih_pm⟩ := ih
    refine ⟨?_, ?_, ?_⟩
    · intro cs v rest h
      match cs with
      | [] => exact Option.noConfusion h
      | c :: r =>
        rw [scanValue] at h
        split_ifs at h with h1 h2 h3 h4 h5 h6 h7 h8 h9 h10
        · rw [Option.map_eq_some'] at h
          obtain ⟨⟨s, r2⟩, -, hv⟩ := h
          rw [Prod.mk.injEq] at hv
          rw [← hv.1]
          simp [wfB]
        · split at h
          · injection h with h2
            rw [Prod.mk.injEq] at h2
            rw [← h2.1]
            simp [wfB, keysNodupB, wfObjB]
          · rw [Option.map_eq_some'] at h
            obtain ⟨⟨ms, r2⟩, hms, hv⟩ := h
            rw [Prod.mk.injEq] at hv
            rw [← hv.1]
            have hwfm := ih_pm _ _ _ hms
            obtain ⟨hk, hw⟩ := objCollapse_wfB ms hwfm
            simp only [wfB, Bool.and_eq_true]
            exact ⟨hk, hw⟩
        · split at h
          · injection h with h2
            rw [Prod.mk.injEq] at h2
            rw [← h2.1]
            simp [wfB, wfArrB]
          · rw [Option.map_eq_some'] at h
            obtain ⟨⟨es, r2⟩, hes, hv⟩ := h
            rw [Prod.mk.injEq] at hv
            rw [← hv.1]
            have hwfe := ih_pe _ _ _ hes
            simp only [wfB]
            exact hwfe
        · split at h
          · rename_i r2 heq
            injection h with h2
            rw [Prod.mk.injEq] at h2
            rw [← h2.1]
            simp [wfB]
          · exact Option.noConfusion h
        · split at h
          · rename_i r2 heq
            injection h with h2
            rw [Prod.mk.injEq] at h2
            rw [← h2.1]
            simp [wfB]
          · exact Option.noConfusion h
        · split at h
          · rename_i r2 heq
            injection h with h2
            rw [Prod.mk.injEq] at h2
            rw [← h2.1]
            simp [wfB]
          · exact Option.noConfusion h
        · split at h
          · rename_i r2 heq
            injection h with h2
            rw [Prod.mk.injEq] at h2
            rw [← h2.1]
            simp [wfB]
          · exact Option.noConfusion h
        · split at h
          · rename_i r2 heq
            injection h with h2
            rw [Prod.mk.injEq] at h2
            rw [← h2.1]
            simp [wfB]
          · exact Option.noConfusion h
        · split at h
          · rename_i r2 heq
            injection h with h2
            rw [Prod.mk.injEq] at h2
            rw [← h2.1]
            simp [wfB]
          · rw [Option.map_eq_some'] at h
            obtain ⟨⟨n, r2⟩, hn, hv⟩ := h
            rw [Prod.mk.injEq] at hv
            rw [← hv.1]
            simp only [wfB]
            exact scanNumberTok_wfB true _ n r2 hn
        · rw [Option.map_eq_some'] at h
          obtain ⟨⟨n, r2⟩, hn, hv⟩ := h
          rw [Prod.mk.injEq] at hv
          rw [← hv.1]
          simp only [wfB]
          exact scanNumberTok_wfB false _ n r2 hn
    · intro cs es rest h
      rw [parseElems] at h
      cases hsv : scanValue fuel cs with
      | none => rw [hsv] at h; exact Option.noConfusion h
      | some pr =>
        obtain ⟨v, r⟩ := pr
        have hwv := ih_sv _ _ _ hsv
        simp only [hsv] at h
        split at h
        · injection h with h2
          rw [Prod.mk.injEq] at h2
          rw [← h2.1]
          simp only [wfArrB, Bool.and_eq_true]
          exact ⟨hwv, trivial⟩
        · rw [Option.map_eq_some'] at h
          obtain ⟨⟨es2, r2⟩, hes2, hv⟩ := h
          rw [Prod.mk.injEq] at hv
          rw [← hv.1]
          simp only [wfArrB, Bool.and_eq_true]
          exact ⟨hwv, ih_pe _ _ _ hes2⟩
        · exact Option.noConfusion h
    · intro cs ms rest h
      match cs with
      | [] => exact Option.noConfusion h
      | c :: r0 =>
        by_cases hc : c = '"'
        · subst hc
          rw [parseMembers] at h
          cases hps : parseStringBody r0 with
          | none => rw [hps] at h; exact Option.noConfusion h
          | some pr =>
            obtain ⟨key, r1⟩ := pr
            simp only [hps] at h
            split at h
            · rename_i r2 heq2
              cases hsv : scanValue fuel (skipJsonWs r2) with
              | none => rw [hsv] at h; exact Option.noConfusion h
              | some pr2 =>
                obtain ⟨v, r3⟩ := pr2
                have hwv := ih_sv _ _ _ hsv
                simp only [hsv] at h
                split at h
                · injection h with h2
                  rw [Prod.mk.injEq] at h2
                  rw [← h2.1]
                  simp only [wfObjB, Bool.and_eq_true]
                  exact ⟨hwv, trivial⟩
                · rw [Option.map_eq_some'] at h
                  obtain ⟨⟨ms2, r4⟩, hms2, hv⟩ := h
                  rw [Prod.mk.injEq] at hv
                  rw [← hv.1]
                  simp only [wfObjB, Bool.and_eq_true]
                  exact ⟨hwv, ih_pm _ _ _ hms2⟩
                · exact Option.noConfusion h
            · exact Option.noConfusion h
        · have hnone : parseMembers (fuel + 1) (c :: r0) = none := by
            rw [parseMembers]
            intro r hcon
            rw [List.cons.injEq] at hcon
            exact hc hcon.1
          rw [hnone] at h
          exact Option.noConfusion h

/-- Documents produced by `json.loads` are well-formed. -/
theorem loads_wf (cs : List Char) (j : Json) (h : loads cs = some j) : wfB j = true := by
  rw [loads] at h
  cases hsv : scanValue (cs.length + 1) (skipJsonWs cs) with
  | none => rw [hsv] at h; exact Option.noConfusion h
  | some pr =>
    obtain ⟨v, rest⟩ := pr
    simp only [hsv] at h
    split_ifs at h
    injection h with h2
    rw [← h2]
    exact (parsers_wf (cs.length + 1)).1 _ _ _ hsv


/-! ## Normalization lemmas (claim C9) -/

theorem objGet_objInsert_self (fs : List (List Char × Json)) (k : List Char) (v : Json) :
    objGet (objInsert fs k v) k = some v := by
  induction fs with
  | nil => simp [objInsert, objGet]
  | cons kv fs ih =>
    obtain ⟨k0, v0⟩ := kv
    rw [objInsert]
    by_cases hk : k0 = k
    · rw [if_pos hk, objGet, if_pos hk]
    · rw [if_neg hk, objGet, if_neg hk]
      exact ih

theorem objGet_objInsert_other (fs : List (List Char × Json)) (k : List Char) (v : Json)
    (k2 : List Char) (h : k2 ≠ k) :
    objGet (objInsert fs k v) k2 = objGet fs k2 := by
  induction fs with
  | nil =>
    simp [objInsert, objGet, Ne.symm h]
  | cons kv fs ih =>
    obtain ⟨k0, v0⟩ := kv
    rw [objInsert]
    by_cases hk : k0 = k
    · rw [if_pos hk, objGet, objGet]
      by_cases h0 : k0 = k2
      · exact absurd (h0.symm.trans hk) h
      · rw [if_neg h0, if_neg h0]
    · rw [if_neg hk, objGet, objGet]
      by_cases h0 : k0 = k2
      · rw [if_pos h0, if_pos h0]
      · rw [if_neg h0, if_neg h0]
        exact ih

theorem objInsert_objGet_self (fs : List (List Char × Json)) (k : List Char) (v : Json)
    (h : objGet fs k = some v) : objInsert fs k v = fs := by
  induction fs with
  | nil => exact Option.noConfusion h
  | cons kv fs ih =>
    obtain ⟨k0, v0⟩ := kv
    rw [objGet] at h
    rw [objInsert]
    by_cases hk : k0 = k
    · rw [if_pos hk] at h
      injection h with h2
      rw [if_pos hk, h2]
    · rw [if_neg hk] at h
      rw [if_neg hk, ih h]

theorem objGet_wf (fs : List (List Char × Json)) (k : List Char) (v : Json)
    (hfs : wfObjB fs = true) (h : objGet fs k = some v) : wfB v = true := by
  induction fs with
  | nil => exact Option.noConfusion h
  | cons kv fs ih =>
    obtain ⟨k0, v0⟩ := kv
    have hfs2 : (wfB v0 && wfObjB fs) = true := hfs
    simp only [Bool.and_eq_true] at hfs2
    rw [objGet] at h
    by_cases hk : k0 = k
    · rw [if_pos hk] at h
      injection h with h2
      rw [← h2]
      exact hfs2.1
    · rw [if_neg hk] at h
      exact ih hfs2.2 h

theorem floatOfNumTok_idem (n : JNum) : floatOfNumTok (floatOfNumTok n) = floatOfNumTok n := by
  obtain ⟨neg, ip, fp, ep⟩ := n
  cases fp <;> cases ep <;> rfl

theorem floatOfNumTok_wf (n : JNum) (h : numWfB n = true) : numWfB (floatOfNumTok n) = true := by
  obtain ⟨neg, ip, fp, ep⟩ := n
  cases fp with
  | some ds => cases ep <;> exact h
  | none =>
    cases ep with
    | some x => exact h
    | none =>
      have h1 : intPartWfB ip = true := by
        simp only [numWfB, Bool.and_eq_true] at h
        exact h.1.1
      show numWfB ⟨neg, ip, some ['0'], none⟩ = true
      simp only [numWfB, Bool.and_eq_true]
      refine ⟨⟨h1, ?_⟩, ?_⟩ <;> decide

/-- A successful `float()` conversion is a fixed point of the conversion. -/
theorem toFloatHours_fix (v : Option Json) (j : Json) (h : toFloatHours v = some j) :
    toFloatHours (some j) = some j := by
  match v with
  | none => exact Option.noConfusion h
  | some .null => exact Option.noConfusion h
  | some (.bool b) =>
    injection h with h2
    rw [← h2]
    cases b <;> rfl
  | some (.num n) =>
    injection h with h2
    rw [← h2]
    show toFloatHours (some (.num (floatOfNumTok n))) = some (.num (floatOfNumTok n))
    rw [toFloatHours, floatOfNumTok_idem]
  | some .nan => injection h with h2; rw [← h2]; rfl
  | some (.inf b) => injection h with h2; rw [← h2]; rfl
  | some (.str s) =>
    rw [toFloatHours, Option.map_eq_some'] at h
    obtain ⟨⟨ds, fs2⟩, -, hj⟩ := h
    rw [← hj]
    show toFloatHours (some (.num (floatTokenOfDigits ds fs2)))
      = some (.num (floatTokenOfDigits ds fs2))
    rw [toFloatHours]
    have hfp : (floatTokenOfDigits ds fs2).fp
        = some (if stripTrailingZeros fs2 = [] then ['0'] else stripTrailingZeros fs2) := rfl
    rw [show floatOfNumTok (floatTokenOfDigits ds fs2) = floatTokenOfDigits ds fs2 from by
      rw [floatOfNumTok, hfp]]
  | some (.arr es) => exact Option.noConfusion h
  | some (.obj fs) => exact Option.noConfusion h

/-- `_to_float_hours(...) or 0.0` is idempotent. -/
theorem floatHoursOrZero_idem (v : Option Json) :
    floatHoursOrZero (some (floatHoursOrZero v)) = floatHoursOrZero v := by
  cases hf : toFloatHours v with
  | none =>
    have hv : floatHoursOrZero v = zeroFloatTok := by rw [floatHoursOrZero, hf]
    rw [hv]
    rfl
  | some j =>
    by_cases hz : jsonFloatIsZero j = true
    · have hv : floatHoursOrZero v = zeroFloatTok := by simp [floatHoursOrZero, hf, hz]
      rw [hv]
      rfl
    · have hv : floatHoursOrZero v = j := by simp [floatHoursOrZero, hf, hz]
      rw [hv]
      simp [floatHoursOrZero, toFloatHours_fix v j hf, hz]

theorem digitsOnly_cons (c : Char) (ds : List Char) :
    digitsOnly (c :: ds) = (isDigitCh c && digitsOnly ds) := by
  simp [digitsOnly]

theorem stripLeadingZeros_wf (ds : List Char) (h : digitsOnly ds = true) :
    intPartWfB (stripLeadingZeros ds) = true := by
  induction ds with
  | nil => rfl
  | cons c ds ih =>
    rw [digitsOnly_cons, Bool.and_eq_true] at h
    rw [stripLeadingZeros, List.dropWhile_cons]
    by_cases h0 : c = '0'
    · rw [if_pos (by simp [h0])]
      exact ih h.2
    · rw [if_neg (by simp [h0])]
      cases ds with
      | nil => simpa [intPartWfB] using h.1
      | cons d t =>
        show (isDigitCh c && decide (c ≠ '0') && digitsOnly (d :: t)) = true
        simp [h.1, h0, h.2]

theorem stripTrailingZeros_digits (ds : List Char) (h : digitsOnly ds = true) :
    digitsOnly (stripTrailingZeros ds) = true := by
  rw [stripTrailingZeros]
  rw [digitsOnly, List.all_eq_true] at h ⊢
  intro x hx
  apply h
  rw [List.mem_reverse] at hx
  have hsub := List.dropWhile_sublist (l := ds.reverse) (p := fun c => c = '0')
  have := hsub.mem hx
  rw [List.mem_reverse] at this
  exact this

theorem firstNumberMatch_digits (s ds fs : List Char)
    (h : firstNumberMatch s = some (ds, fs)) :
    ds ≠ [] ∧ digitsOnly ds = true ∧ digitsOnly fs = true := by
  induction s with
  | nil => exact Option.noConfusion h
  | cons c cs ih =>
    rw [firstNumberMatch] at h
    by_cases hd : isDigitCh c = true
    · rw [if_pos hd] at h
      rcases htd : takeDigitsJ (c :: cs) with ⟨ds0, r⟩
      have hds0 : digitsOnly ds0 = true := by
        have := takeDigitsJ_digits (c :: cs)
        rw [htd] at this
        exact this
      have hds0ne : ds0 ≠ [] := by
        rw [takeDigitsJ, hd] at htd
        rcases htd2 : takeDigitsJ cs with ⟨ds1, r1⟩
        rw [htd2] at htd
        simp only [if_true] at htd
        intro hcon
        rw [hcon] at htd
        exact List.noConfusion (congrArg Prod.fst htd)
      simp only [htd] at h
      by_cases hh : r.head? = some '.'
      · rw [if_pos hh] at h
        rcases htd2 : takeDigitsJ r.tail with ⟨fs0, r0⟩
        have hfs0 : digitsOnly fs0 = true := by
          have := takeDigitsJ_digits r.tail
          rw [htd2] at this
          exact this
        simp only [htd2] at h
        by_cases hz : fs0 = []
        · rw [if_pos hz] at h
          injection h with h2
          rw [Prod.mk.injEq] at h2
          rw [← h2.1, ← h2.2]
          exact ⟨hds0ne, hds0, rfl⟩
        · rw [if_neg hz] at h
          injection h with h2
          rw [Prod.mk.injEq] at h2
          rw [← h2.1, ← h2.2]
          exact ⟨hds0ne, hds0, hfs0⟩
      · rw [if_neg hh] at h
        injection h with h2
        rw [Prod.mk.injEq] at h2
        rw [← h2.1, ← h2.2]
        exact ⟨hds0ne, hds0, rfl⟩
    · rw [if_neg hd] at h
      exact ih h

theorem floatTokenOfDigits_wf (ip fp : List Char) (hip : digitsOnly ip = true)
    (hfp : digitsOnly fp = true) : numWfB (floatTokenOfDigits ip fp) = true := by
  rw [floatTokenOfDigits]
  simp only [numWfB, Bool.and_eq_true]
  refine ⟨⟨stripLeadingZeros_wf ip hip, ?_⟩, by decide⟩
  by_cases hz : stripTrailingZeros fp = []
  · simp only [hz, if_true]
    decide
  · simp [hz, List.isEmpty_eq_false, stripTrailingZeros_digits fp hfp]

theorem toFloatHours_wf (v : Option Json) (j : Json)
    (hv : ∀ w, v = some w → wfB w = true) (h : toFloatHours v = some j) :
    wfB j = true := by
  match v with
  | none => exact Option.noConfusion h
  | some .null => exact Option.noConfusion h
  | some (.bool b) =>
    injection h with h2
    rw [← h2]
    cases b <;> simp [wfB] <;> decide
  | some (.num n) =>
    injection h with h2
    rw [← h2]
    have hn : numWfB n = true := by
      have := hv (.num n) rfl
      simpa [wfB] using this
    show wfB (.num (floatOfNumTok n)) = true
    simp only [wfB]
    exact floatOfNumTok_wf n hn
  | some .nan => injection h with h2; rw [← h2]; simp [wfB]
  | some (.inf b) => injection h with h2; rw [← h2]; simp [wfB]
  | some (.str s) =>
    rw [toFloatHours, Option.map_eq_some'] at h
    obtain ⟨⟨ds, fs2⟩, hm, hj⟩ := h
    rw [← hj]
    obtain ⟨-, hds, hfs⟩ := firstNumberMatch_digits s ds fs2 hm
    show wfB (.num (floatTokenOfDigits ds fs2)) = true
    simp only [wfB]
    exact floatTokenOfDigits_wf ds fs2 hds hfs
  | some (.arr es) => exact Option.noConfusion h
  | some (.obj fs) => exact Option.noConfusion h

theorem floatHoursOrZero_wf (v : Option Json) (hv : ∀ w, v = some w → wfB w = true) :
    wfB (floatHoursOrZero v) = true := by
  rw [floatHoursOrZero]
  cases hf : toFloatHours v with
  | none => simp [wfB, zeroFloatTok]; decide
  | some j =>
    by_cases hz : jsonFloatIsZero j = true
    · simp only [hz, if_true]
      show wfB zeroFloatTok = true
      simp [wfB, zeroFloatTok]
      decide
    · simp only [hz, if_false]
      exact toFloatHours_wf v j hv hf

theorem wfArrB_mem (es : List Json) (h : wfArrB es = true) : ∀ e ∈ es, wfB e = true := by
  induction es with
  | nil => intro e he; cases he
  | cons e0 es ih =>
    intro e he
    have h2 : (wfB e0 && wfArrB es) = true := h
    simp only [Bool.and_eq_true] at h2
    rcases List.mem_cons.1 he with rfl | he2
    · exact h2.1
    · exact ih h2.2 e he2

theorem wfArrB_of_mem (es : List Json) (h : ∀ e ∈ es, wfB e = true) : wfArrB es = true := by
  induction es with
  | nil => rfl
  | cons e0 es ih =>
    show (wfB e0 && wfArrB es) = true
    simp only [Bool.and_eq_true]
    exact ⟨h e0 (by simp), ih (fun e he => h e (by simp [he]))⟩

/-- `_normalize_plan_types`-internal task normalization preserves
well-formedness. -/
theorem normalizeTask_wf (t : Json) (h : wfB t = true) : wfB (normalizeTask t) = true := by
  cases t with
  | obj fields =>
    have h2 : keysNodupB (fields.map Prod.fst) = true ∧ wfObjB fields = true := by
      simp only [wfB, Bool.and_eq_true] at h
      exact h
    have hw : wfB (floatHoursOrZero (objGet fields ("estimated_time".data))) = true :=
      floatHoursOrZero_wf _ (fun v hv => objGet_wf _ _ _ h2.2 hv)
    have hnd1 := keysNodupB_objInsert fields ("estimated_time".data)
      (floatHoursOrZero (objGet fields ("estimated_time".data))) h2.1
    have hwf1 := wfObjB_objInsert fields ("estimated_time".data)
      (floatHoursOrZero (objGet fields ("estimated_time".data))) h2.2 hw
    simp only [normalizeTask]
    split
    · simp only [wfB, Bool.and_eq_true]
      exact ⟨hnd1, hwf1⟩
    · simp only [wfB, Bool.and_eq_true]
      refine ⟨keysNodupB_objInsert _ _ _ hnd1, wfObjB_objInsert _ _ _ hwf1 ?_⟩
      simp [wfB]
  | null => exact h
  | bool b => exact h
  | num n => exact h
  | nan => exact h
  | inf b => exact h
  | str s => exact h
  | arr es => exact h

theorem normalizeMilestone_wf (m : Json) (h : wfB m = true) :
    wfB (normalizeMilestone m) = true := by
  cases m with
  | obj fields =>
    have h2 : keysNodupB (fields.map Prod.fst) = true ∧ wfObjB fields = true := by
      simp only [wfB, Bool.and_eq_true] at h
      exact h
    cases hg : objGet fields ("tasks".data) with
    | none => simp only [normalizeMilestone, hg]; exact h
    | some v =>
      cases v with
      | arr ts =>
        have hts : wfArrB ts = true := by
          have := objGet_wf _ _ _ h2.2 hg
          simpa [wfB] using this
        have hts2 : wfArrB (ts.map normalizeTask) = true := by
          apply wfArrB_of_mem
          intro e he
          rw [List.mem_map] at he
          obtain ⟨t0, ht0, rfl⟩ := he
          exact normalizeTask_wf t0 (wfArrB_mem ts hts t0 ht0)
        simp only [normalizeMilestone, hg]
        simp only [wfB, Bool.and_eq_true]
        refine ⟨keysNodupB_objInsert _ _ _ h2.1, wfObjB_objInsert _ _ _ h2.2 ?_⟩
        simp only [wfB]
        exact hts2
      | null => simp only [normalizeMilestone, hg]; exact h
      | bool b => simp only [normalizeMilestone, hg]; exact h
      | num n => simp only [normalizeMilestone, hg]; exact h
      | nan => simp only [normalizeMilestone, hg]; exact h
      | inf b => simp only [normalizeMilestone, hg]; exact h
      | str s2 => simp only [normalizeMilestone, hg]; exact h
      | obj fs2 => simp only [normalizeMilestone, hg]; exact h
  | null => exact h
  | bool b => exact h
  | num n => exact h
  | nan => exact h
  | inf b => exact h
  | str s => exact h
  | arr es => exact h

/-- `_normalize_plan_types` preserves well-formedness. -/
theorem normalizePlanTypes_wf (d : Json) (h : wfB d = true) :
    wfB (normalizePlanTypes d) = true := by
  cases d with
  | obj fields =>
    have h2 : keysNodupB (fields.map Prod.fst) = true ∧ wfObjB fields = true := by
      simp only [wfB, Bool.and_eq_true] at h
      exact h
    cases hg : objGet fields ("milestones".data) with
    | none => simp only [normalizePlanTypes, hg]; exact h
    | some v =>
      cases v with
      | arr ms =>
        have hms : wfArrB ms = true := by
          have := objGet_wf _ _ _ h2.2 hg
          simpa [wfB] using this
        have hms2 : wfArrB (ms.map normalizeMilestone) = true := by
          apply wfArrB_of_mem
          intro e he
          rw [List.mem_map] at he
          obtain ⟨m0, hm0, rfl⟩ := he
          exact normalizeMilestone_wf m0 (wfArrB_mem ms hms m0 hm0)
        simp only [normalizePlanTypes, hg]
        simp only [wfB, Bool.and_eq_true]
        refine ⟨keysNodupB_objInsert _ _ _ h2.1, wfObjB_objInsert _ _ _ h2.2 ?_⟩
        simp only [wfB]
        exact hms2
      | null => simp only [normalizePlanTypes, hg]; exact h
      | bool b => simp only [normalizePlanTypes, hg]; exact h
      | num n => simp only [normalizePlanTypes, hg]; exact h
      | nan => simp only [normalizePlanTypes, hg]; exact h
      | inf b => simp only [normalizePlanTypes, hg]; exact h
      | str s2 => simp only [normalizePlanTypes, hg]; exact h
      | obj fs2 => simp only [normalizePlanTypes, hg]; exact h
  | null => exact h
  | bool b => exact h
  | num n => exact h
  | nan => exact h
  | inf b => exact h
  | str s => exact h
  | arr es => exact h

theorem normalizeTask_obj_eq (fs : List (List Char × Json)) : normalizeTask (.obj fs)
    = .obj (if (match objGet (objInsert fs ("estimated_time".data)
            (floatHoursOrZero (objGet fs ("estimated_time".data)))) ("priority".data) with
          | some (.str s) => s = "high".data || s = "medium".data || s = "low".data
          | _ => false) then
        objInsert fs ("estimated_time".data)
          (floatHoursOrZero (objGet fs ("estimated_time".data)))
      else objInsert (objInsert fs ("estimated_time".data)
          (floatHoursOrZero (objGet fs ("estimated_time".data)))) ("priority".data)
        (.str ("medium".data))) := rfl

/-- Task normalization is idempotent. -/
theorem normalizeTask_idem (t : Json) : normalizeTask (normalizeTask t) = normalizeTask t := by
  cases t with
  | obj fields =>
    rw [normalizeTask_obj_eq fields]
    by_cases hcond : (match objGet
        (objInsert fields ("estimated_time".data)
          (floatHoursOrZero (objGet fields ("estimated_time".data)))) ("priority".data) with
      | some (.str s) => s = "high".data || s = "medium".data || s = "low".data
      | _ => false) = true
    · rw [if_pos hcond, normalizeTask_obj_eq]
      have hget : objGet (objInsert fields ("estimated_time".data)
            (floatHoursOrZero (objGet fields ("estimated_time".data)))) ("estimated_time".data)
          = some (floatHoursOrZero (objGet fields ("estimated_time".data))) :=
        objGet_objInsert_self _ _ _
      rw [hget, floatHoursOrZero_idem, objInsert_objGet_self _ _ _ hget, if_pos hcond]
    · rw [if_neg hcond, normalizeTask_obj_eq]
      have hgetE : objGet (objInsert
            (objInsert fields ("estimated_time".data)
              (floatHoursOrZero (objGet fields ("estimated_time".data))))
            ("priority".data) (.str ("medium".data))) ("estimated_time".data)
          = some (floatHoursOrZero (objGet fields ("estimated_time".data))) := by
        rw [objGet_objInsert_other _ _ _ _ (by decide), objGet_objInsert_self]
      rw [hgetE, floatHoursOrZero_idem, objInsert_objGet_self _ _ _ hgetE]
      have hvalid : (match objGet (objInsert
            (objInsert fields ("estimated_time".data)
              (floatHoursOrZero (objGet fields ("estimated_time".data))))
            ("priority".data) (.str ("medium".data))) ("priority".data) with
          | some (.str s) => s = "high".data || s = "medium".data || s = "low".data
          | _ => false) = true := by
        rw [objGet_objInsert_self]
        decide
      rw [if_pos hvalid]
  | null => rfl
  | bool b => rfl
  | num n => rfl
  | nan => rfl
  | inf b => rfl
  | str s => rfl
  | arr es => rfl

theorem normalizeMilestone_obj_eq (fs : List (List Char × Json)) : normalizeMilestone (.obj fs)
    = (match objGet fs ("tasks".data) with
       | some (.arr ts) => .obj (objInsert fs ("tasks".data) (.arr (ts.map normalizeTask)))
       | _ => .obj fs) := rfl

theorem normalizeMilestone_idem (m : Json) :
    normalizeMilestone (normalizeMilestone m) = normalizeMilestone m := by
  cases m with
  | obj fields =>
    rw [normalizeMilestone_obj_eq fields]
    cases hg : objGet fields ("tasks".data) with
    | none =>
      simp only [hg]
      rw [normalizeMilestone_obj_eq fields]
      simp only [hg]
    | some v =>
      cases v with
      | arr ts =>
        simp only [hg]
        rw [normalizeMilestone_obj_eq]
        have hself : objGet (objInsert fields ("tasks".data)
              (.arr (ts.map normalizeTask))) ("tasks".data)
            = some (.arr (ts.map normalizeTask)) := objGet_objInsert_self _ _ _
        simp only [hself]
        have hmap : (ts.map normalizeTask).map normalizeTask = ts.map normalizeTask := by
          rw [List.map_map]
          exact List.map_congr_left (fun t _ => normalizeTask_idem t)
        rw [hmap, objInsert_objGet_self _ _ _ hself]
      | null => simp only [hg]; rw [normalizeMilestone_obj_eq fields]; simp only [hg]
      | bool b => simp only [hg]; rw [normalizeMilestone_obj_eq fields]; simp only [hg]
      | num n => simp only [hg]; rw [normalizeMilestone_obj_eq fields]; simp only [hg]
      | nan => simp only [hg]; rw [normalizeMilestone_obj_eq fields]; simp only [hg]
      | inf b => simp only [hg]; rw [normalizeMilestone_obj_eq fields]; simp only [hg]
      | str s2 => simp only [hg]; rw [normalizeMilestone_obj_eq fields]; simp only [hg]
      | obj fs2 => simp only [hg]; rw [normalizeMilestone_obj_eq fields]; simp only [hg]
  | null => rfl
  | bool b => rfl
  | num n => rfl
  | nan => rfl
  | inf b => rfl
  | str s => rfl
  | arr es => rfl

theorem normalizePlanTypes_obj_eq (fs : List (List Char × Json)) : normalizePlanTypes (.obj fs)
    = (match objGet fs ("milestones".data) with
       | some (.arr ms) =>
         .obj (objInsert fs ("milestones".data) (.arr (ms.map normalizeMilestone)))
       | _ => .obj fs) := rfl

/-- Plan-type normalization is idempotent. -/
theorem normalizePlanTypes_idem (d : Json) :
    normalizePlanTypes (normalizePlanTypes d) = normalizePlanTypes d := by
  cases d with
  | obj fields =>
    rw [normalizePlanTypes_obj_eq fields]
    cases hg : objGet fields ("milestones".data) with
    | none =>
      simp only [hg]
      rw [normalizePlanTypes_obj_eq fields]
      simp only [hg]
    | some v =>
      cases v with
      | arr ms =>
        simp only [hg]
        rw [normalizePlanTypes_obj_eq]
        have hself : objGet (objInsert fields ("milestones".data)
              (.arr (ms.map normalizeMilestone))) ("milestones".data)
            = some (.arr (ms.map normalizeMilestone)) := objGet_objInsert_self _ _ _
        simp only [hself]
        have hmap : (ms.map normalizeMilestone).map normalizeMilestone
            = ms.map normalizeMilestone := by
          rw [List.map_map]
          exact List.map_congr_left (fun m _ => normalizeMilestone_idem m)
        rw [hmap, objInsert_objGet_self _ _ _ hself]
      | null => simp only [hg]; rw [normalizePlanTypes_obj_eq fields]; simp only [hg]
      | bool b => simp only [hg]; rw [normalizePlanTypes_obj_eq fields]; simp only [hg]
      | num n => simp only [hg]; rw [normalizePlanTypes_obj_eq fields]; simp only [hg]
      | nan => simp only [hg]; rw [normalizePlanTypes_obj_eq fields]; simp only [hg]
      | inf b => simp only [hg]; rw [normalizePlanTypes_obj_eq fields]; simp only [hg]
      | str s2 => simp only [hg]; rw [normalizePlanTypes_obj_eq fields]; simp only [hg]
      | obj fs2 => simp only [hg]; rw [normalizePlanTypes_obj_eq fields]; simp only [hg]
  | null => rfl
  | bool b => rfl
  | num n => rfl
  | nan => rfl
  | inf b => rfl
  | str s => rfl
  | arr es => rfl

/-- Normalization keeps the two required plan keys present. -/
theorem normalizePlanTypes_keys (d : Json) (h : hasPlanKeys d = true) :
    hasPlanKeys (normalizePlanTypes d) = true := by
  cases d with
  | obj fields =>
    rw [normalizePlanTypes_obj_eq fields]
    cases hg : objGet fields ("milestones".data) with
    | none => exact h
    | some v =>
      cases v with
      | arr ms =>
        simp only [hasPlanKeys, Bool.and_eq_true, Option.isSome_iff_exists] at h
        simp only [hasPlanKeys, Bool.and_eq_true, Option.isSome_iff_exists]
        refine ⟨⟨.arr (ms.map normalizeMilestone), objGet_objInsert_self _ _ _⟩, ?_⟩
        rw [objGet_objInsert_other _ _ _ _ (by decide)]
        exact h.2
      | null => exact h
      | bool b => exact h
      | num n => exact h
      | nan => exact h
      | inf b => exact h
      | str s2 => exact h
      | obj fs2 => exact h
  | null => exact absurd h (by simp [hasPlanKeys])
  | bool b => exact absurd h (by simp [hasPlanKeys])
  | num n => exact absurd h (by simp [hasPlanKeys])
  | nan => exact absurd h (by simp [hasPlanKeys])
  | inf b => exact absurd h (by simp [hasPlanKeys])
  | str s => exact absurd h (by simp [hasPlanKeys])
  | arr es => exact absurd h (by simp [hasPlanKeys])

/-- Normalization of an object is an object. -/
theorem normalizePlanTypes_obj_shape (fields : List (List Char × Json)) :
    ∃ fs2, normalizePlanTypes (.obj fields) = .obj fs2 := by
  rw [normalizePlanTypes_obj_eq fields]
  cases hg : objGet fields ("milestones".data) with
  | none => exact ⟨fields, rfl⟩
  | some v =>
    cases v with
    | arr ms => exact ⟨_, rfl⟩
    | null => exact ⟨fields, rfl⟩
    | bool b => exact ⟨fields, rfl⟩
    | num n => exact ⟨fields, rfl⟩
    | nan => exact ⟨fields, rfl⟩
    | inf b => exact ⟨fields, rfl⟩
    | str s2 => exact ⟨fields, rfl⟩
    | obj fs2 => exact ⟨fields, rfl⟩


/-! ## Scanner-trace invariants of the serializer (claim C9) -/

/-- Characters that leave the brace scanner state unchanged (outside
escapes). -/
def plainScanCh (c : Char) : Bool :=
  !(c = '"' || c = '\\' || c = '{' || c = '}' || c = '`')

/-- A segment that the brace scanner traverses neutrally from an
out-of-string state at ambient depth `k`, never dipping below `k`, with
backticks only inside strings and unescaped closing braces only above
`k`. -/
def SegInv (k : Int) (cs : List Char) : Prop :=
  scanFold ⟨false, false, k⟩ cs = ⟨false, false, k⟩ ∧
  ∀ pre c suf, cs = pre ++ c :: suf →
    (scanFold ⟨false, false, k⟩ pre).depth ≥ k ∧
    (c = '`' → (scanFold ⟨false, false, k⟩ pre).inString = true) ∧
    (c = '}' ∧ (scanFold ⟨false, false, k⟩ pre).inString = false →
      (scanFold ⟨false, false, k⟩ pre).depth > k)

/-- A string-interior segment: traversed neutrally from the in-string
state, with every intermediate state still inside the string at depth
`k`. -/
def InStrSeg (k : Int) (cs : List Char) : Prop :=
  scanFold ⟨true, false, k⟩ cs = ⟨true, false, k⟩ ∧
  ∀ pre c suf, cs = pre ++ c :: suf →
    (scanFold ⟨true, false, k⟩ pre).inString = true ∧
    (scanFold ⟨true, false, k⟩ pre).depth = k

theorem append_cons_split (a b pre suf : List Char) (c : Char) (h : a ++ b = pre ++ c :: suf) :
    (∃ suf2, a = pre ++ c :: suf2 ∧ suf = suf2 ++ b) ∨
    (∃ pre2, pre = a ++ pre2 ∧ b = pre2 ++ c :: suf) := by
  induction a generalizing pre with
  | nil => exact Or.inr ⟨pre, rfl, h⟩
  | cons a0 a ih =>
    cases pre with
    | nil =>
      rw [List.cons_append, List.nil_append, List.cons.injEq] at h
      exact Or.inl ⟨a, by rw [List.nil_append, h.1], h.2.symm⟩
    | cons p0 pre =>
      rw [List.cons_append, List.cons_append, List.cons.injEq] at h
      rcases ih pre h.2 with ⟨suf2, haeq, hs⟩ | ⟨pre2, hpeq, hbeq⟩
      · exact Or.inl ⟨suf2, by rw [List.cons_append, haeq, h.1], hs⟩
      · exact Or.inr ⟨pre2, by rw [List.cons_append, hpeq, h.1], hbeq⟩

theorem SegInv_nil (k : Int) : SegInv k [] := by
  refine ⟨rfl, ?_⟩
  rintro pre c suf hcon
  exact absurd hcon (by simp)

theorem SegInv_append (k : Int) (a b : List Char) (ha : SegInv k a) (hb : SegInv k b) :
    SegInv k (a ++ b) := by
  obtain ⟨ha1, ha2⟩ := ha
  obtain ⟨hb1, hb2⟩ := hb
  constructor
  · rw [scanFold_append, ha1, hb1]
  · intro pre c suf h
    rcases append_cons_split a b pre suf c h with ⟨suf2, haeq, -⟩ | ⟨pre2, hpeq, hbeq⟩
    · exact ha2 pre c suf2 haeq
    · rw [hpeq, scanFold_append, ha1]
      exact hb2 pre2 c suf hbeq

theorem InStrSeg_nil (k : Int) : InStrSeg k [] := by
  refine ⟨rfl, ?_⟩
  rintro pre c suf hcon
  exact absurd hcon (by simp)

theorem InStrSeg_append (k : Int) (a b : List Char) (ha : InStrSeg k a) (hb : InStrSeg k b) :
    InStrSeg k (a ++ b) := by
  obtain ⟨ha1, ha2⟩ := ha
  obtain ⟨hb1, hb2⟩ := hb
  constructor
  · rw [scanFold_append, ha1, hb1]
  · intro pre c suf h
    rcases append_cons_split a b pre suf c h with ⟨suf2, haeq, -⟩ | ⟨pre2, hpeq, hbeq⟩
    · exact ha2 pre c suf2 haeq
    · rw [hpeq, scanFold_append, ha1]
      exact hb2 pre2 c suf hbeq

theorem scanStep_plain (k : Int) (c : Char) (h : plainScanCh c = true) :
    scanStep ⟨false, false, k⟩ c = ⟨false, false, k⟩ := by
  simp only [plainScanCh, Bool.not_eq_true', Bool.or_eq_false_iff,
    decide_eq_false_iff_not] at h
  obtain ⟨⟨⟨⟨h1, h2⟩, h3⟩, h4⟩, h5⟩ := h
  rw [scanStep]
  simp [h1, h2, h3, h4]

theorem SegInv_plainList (k : Int) (cs : List Char)
    (h : ∀ c ∈ cs, plainScanCh c = true) : SegInv k cs := by
  induction cs with
  | nil => exact SegInv_nil k
  | cons c0 cs ih =>
    have hstep := scanStep_plain k c0 (h c0 (by simp))
    have hplain0 := h c0 (by simp)
    obtain ⟨ih1, ih2⟩ := ih (fun c hc => h c (by simp [hc]))
    constructor
    · rw [scanFold_cons, hstep, ih1]
    · intro pre c suf hsplit
      cases pre with
      | nil =>
        rw [List.nil_append, List.cons.injEq] at hsplit
        refine ⟨le_refl k, ?_, ?_⟩
        · intro hc
          rw [hc] at hsplit
          rw [hsplit.1] at hplain0
          exact absurd hplain0 (by decide)
        · rintro ⟨hc, -⟩
          rw [hc] at hsplit
          rw [hsplit.1] at hplain0
          exact absurd hplain0 (by decide)
      | cons p0 pre2 =>
        rw [List.cons_append, List.cons.injEq] at hsplit
        rw [scanFold_cons, ← hsplit.1, hstep]
        exact ih2 pre2 c suf hsplit.2

theorem scanStep_inStr_plain (k : Int) (c : Char) (h1 : c ≠ '"') (h2 : c ≠ '\\') :
    scanStep ⟨true, false, k⟩ c = ⟨true, false, k⟩ := by
  rw [scanStep]
  simp [h1, h2]

theorem InStrSeg_plainInStr (k : Int) (cs : List Char)
    (h : ∀ c ∈ cs, c ≠ '"' ∧ c ≠ '\\') : InStrSeg k cs := by
  induction cs with
  | nil => exact InStrSeg_nil k
  | cons c0 cs ih =>
    have hc0 := h c0 (by simp)
    have hstep := scanStep_inStr_plain k c0 hc0.1 hc0.2
    obtain ⟨ih1, ih2⟩ := ih (fun c hc => h c (by simp [hc]))
    constructor
    · rw [scanFold_cons, hstep, ih1]
    · intro pre c suf hsplit
      cases pre with
      | nil => exact ⟨rfl, rfl⟩
      | cons p0 pre2 =>
        rw [List.cons_append, List.cons.injEq] at hsplit
        rw [scanFold_cons, ← hsplit.1, hstep]
        exact ih2 pre2 c suf hsplit.2

theorem InStrSeg_escPair (k : Int) (e : Char) : InStrSeg k ['\\', e] := by
  constructor
  · rfl
  · intro pre c suf hsplit
    match pre, hsplit with
    | [], _ => exact ⟨rfl, rfl⟩
    | ['\\'], _ => exact ⟨rfl, rfl⟩
    | p0 :: p1 :: p2 :: pre2, hsplit => simp at hsplit
    | [p0, p1], hsplit => simp at hsplit

theorem hexDigCh_plain (n : ℕ) (h : n < 16) : hexDigCh n ≠ '"' ∧ hexDigCh n ≠ '\\' := by
  interval_cases n <;> exact ⟨by decide, by decide⟩

theorem InStrSeg_escapeChar (k : Int) (c : Char) : InStrSeg k (escapeChar c) := by
  by_cases h1 : c = '"'
  · subst h1; exact InStrSeg_escPair k '"'
  by_cases h2 : c = '\\'
  · subst h2; exact InStrSeg_escPair k '\\'
  by_cases h3 : c = '\n'
  · subst h3; exact InStrSeg_escPair k 'n'
  by_cases h4 : c = '\r'
  · subst h4; exact InStrSeg_escPair k 'r'
  by_cases h5 : c = '\t'
  · subst h5; exact InStrSeg_escPair k 't'
  by_cases h6 : c = '\x08'
  · subst h6; exact InStrSeg_escPair k 'b'
  by_cases h7 : c = '\x0c'
  · subst h7; exact InStrSeg_escPair k 'f'
  by_cases hlt : c.toNat < 0x20
  · rw [escapeChar, if_neg h1, if_neg h2, if_neg h3, if_neg h4, if_neg h5, if_neg h6,
      if_neg h7, if_pos hlt]
    have hsplit : ('\\' :: 'u' :: '0' :: '0' :: hexDigCh (c.toNat / 16)
          :: hexDigCh (c.toNat % 16) :: [])
        = ['\\', 'u'] ++ ['0', '0', hexDigCh (c.toNat / 16), hexDigCh (c.toNat % 16)] := rfl
    rw [hsplit]
    refine InStrSeg_append k _ _ (InStrSeg_escPair k 'u') (InStrSeg_plainInStr k _ ?_)
    intro x hx
    have hdiv : c.toNat / 16 < 16 := by omega
    have hmod : c.toNat % 16 < 16 := Nat.mod_lt _ (by norm_num)
    simp only [List.mem_cons, List.not_mem_nil, or_false] at hx
    rcases hx with rfl | rfl | rfl | rfl
    · exact ⟨by decide, by decide⟩
    · exact ⟨by decide, by decide⟩
    · exact hexDigCh_plain _ hdiv
    · exact hexDigCh_plain _ hmod
  · rw [escapeChar, if_neg h1, if_neg h2, if_neg h3, if_neg h4, if_neg h5, if_neg h6,
      if_neg h7, if_neg hlt]
    exact InStrSeg_plainInStr k [c] (fun x hx => by
      simp only [List.mem_cons, List.not_mem_nil, or_false] at hx
      rw [hx]
      exact ⟨h1, h2⟩)

theorem InStrSeg_flatMap (k : Int) (s : List Char) :
    InStrSeg k (s.flatMap escapeChar) := by
  induction s with
  | nil => exact InStrSeg_nil k
  | cons c s ih =>
    rw [List.flatMap_cons]
    exact InStrSeg_append k _ _ (InStrSeg_escapeChar k c) ih

/-- A rendered string literal is a neutral scanner segment. -/
theorem SegInv_renderStr (k : Int) (s : List Char) : SegInv k (renderStr s) := by
  obtain ⟨hf1, hf2⟩ := InStrSeg_flatMap k s
  constructor
  · rw [renderStr, scanFold_cons]
    rw [show scanStep ⟨false, false, k⟩ '"' = ⟨true, false, k⟩ from rfl]
    rw [scanFold_append, hf1]
    rfl
  · intro pre c suf hsplit
    rw [renderStr] at hsplit
    cases pre with
    | nil =>
      rw [List.nil_append, List.cons.injEq] at hsplit
      refine ⟨le_refl k, ?_, ?_⟩
      · intro hc
        rw [hc] at hsplit
        exact absurd hsplit.1.symm (by decide)
      · rintro ⟨hc, -⟩
        rw [hc] at hsplit
        exact absurd hsplit.1.symm (by decide)
    | cons p0 pre2 =>
      rw [List.cons_append, List.cons.injEq] at hsplit
      rw [scanFold_cons, ← hsplit.1,
        show scanStep ⟨false, false, k⟩ '"' = ⟨true, false, k⟩ from rfl]
      rcases append_cons_split _ _ _ _ _ hsplit.2 with ⟨suf2, haeq, -⟩ | ⟨pre3, hpeq, hbeq⟩
      · obtain ⟨hin, hdep⟩ := hf2 pre2 c suf2 haeq
        refine ⟨le_of_eq hdep.symm, fun _ => hin, ?_⟩
        rintro ⟨-, hcon⟩
        rw [hin] at hcon
        cases hcon
      · have hpre3 : pre3 = [] := by
          cases pre3 with
          | nil => rfl
          | cons q0 q2 =>
            rw [List.cons_append, List.cons.injEq] at hbeq
            have := congrArg List.length hbeq.2
            simp only [List.length_nil, List.length_append, List.length_cons] at this
            omega
        subst hpre3
        rw [List.append_nil] at hpeq
        rw [List.nil_append] at hbeq
        injection hbeq with hx1 hx2
        rw [hpeq, hf1]
        refine ⟨le_refl k, fun _ => rfl, ?_⟩
        rintro ⟨-, hcon⟩
        exact Bool.noConfusion hcon

/-- Wrapping a neutral inner segment in braces gives a neutral segment one
level up. -/
theorem SegInv_braces (k : Int) (B : List Char) (hB : SegInv (k + 1) B) :
    SegInv k ('{' :: (B ++ ['}'])) := by
  obtain ⟨hB1, hB2⟩ := hB
  have hopen : scanStep ⟨false, false, k⟩ '{' = ⟨false, false, k + 1⟩ := rfl
  constructor
  · rw [scanFold_cons, hopen, scanFold_append, hB1]
    show scanStep ⟨false, false, k + 1⟩ '}' = ⟨false, false, k⟩
    rw [show scanStep ⟨false, false, k + 1⟩ '}' = ⟨false, false, k + 1 - 1⟩ from rfl]
    rw [show (k + 1 - 1 : Int) = k by ring]
  · intro pre c suf hsplit
    cases pre with
    | nil =>
      rw [List.nil_append, List.cons.injEq] at hsplit
      refine ⟨le_refl k, ?_, ?_⟩
      · intro hc
        rw [hc] at hsplit
        exact absurd hsplit.1.symm (by decide)
      · rintro ⟨hc, -⟩
        rw [hc] at hsplit
        exact absurd hsplit.1.symm (by decide)
    | cons p0 pre2 =>
      rw [List.cons_append, List.cons.injEq] at hsplit
      rw [scanFold_cons, ← hsplit.1, hopen]
      rcases append_cons_split _ _ _ _ _ hsplit.2 with ⟨suf2, haeq, -⟩ | ⟨pre3, hpeq, hbeq⟩
      · obtain ⟨hd, hbt, hcl⟩ := hB2 pre2 c suf2 haeq
        refine ⟨by omega, hbt, ?_⟩
        intro hcc
        have := hcl hcc
        omega
      · have hpre3 : pre3 = [] := by
          cases pre3 with
          | nil => rfl
          | cons q0 q2 =>
            rw [List.cons_append, List.cons.injEq] at hbeq
            have := congrArg List.length hbeq.2
            simp only [List.length_nil, List.length_append, List.length_cons] at this
            omega
        subst hpre3
        rw [List.append_nil] at hpeq
        rw [List.nil_append] at hbeq
        injection hbeq with hx1 hx2
        rw [hpeq, hB1]
        refine ⟨?_, ?_, ?_⟩
        · show k + 1 ≥ k
          omega
        · intro hc
          rw [hc] at hx1
          exact absurd hx1 (by decide)
        · rintro ⟨-, -⟩
          show k + 1 > k
          omega

theorem isDigitCh_plain (c : Char) (h : isDigitCh c = true) : plainScanCh c = true := by
  cases hp : plainScanCh c
  · exfalso
    simp only [plainScanCh, Bool.not_eq_false', Bool.or_eq_true,
      decide_eq_true_eq] at hp
    rcases hp with ((((rfl | rfl) | rfl) | rfl) | rfl) <;> exact absurd h (by decide)
  · rfl

theorem digitsOnly_plain (cs : List Char) (h : digitsOnly cs = true) :
    ∀ c ∈ cs, plainScanCh c = true := by
  intro c hc
  rw [digitsOnly, List.all_eq_true] at h
  exact isDigitCh_plain c (h c hc)

theorem intPartWfB_digits (ip : List Char) (h : intPartWfB ip = true) :
    digitsOnly ip = true := by
  match ip with
  | [] => exact absurd h (by decide)
  | [c] =>
    rw [intPartWfB] at h
    simp [digitsOnly, h]
  | c :: d :: t =>
    have h2 : (isDigitCh c && decide (c ≠ '0') && digitsOnly (d :: t)) = true := h
    simp only [Bool.and_eq_true] at h2
    rw [digitsOnly_cons, Bool.and_eq_true]
    exact ⟨h2.1.1, h2.2⟩

theorem SegInv_nlIndent (k : Int) (lvl : ℕ) : SegInv k (nlIndent lvl) := by
  apply SegInv_plainList
  intro c hc
  rw [nlIndent] at hc
  rcases List.mem_cons.1 hc with rfl | hc2
  · decide
  · rw [List.eq_of_mem_replicate hc2]
    decide

theorem SegInv_renderNum (k : Int) (n : JNum) (hwf : numWfB n = true) :
    SegInv k (renderNum n) := by
  obtain ⟨neg, ip, fp, ep⟩ := n
  simp only [numWfB, Bool.and_eq_true] at hwf
  apply SegInv_plainList
  intro c hc0
  have hc : c ∈ ((if neg then ['-'] else ([] : List Char)) ++ ip) ++
      (renderFracPart fp ++ renderExpPart ep) := hc0
  rw [List.mem_append, List.mem_append, List.mem_append] at hc
  rcases hc with (hc | hc) | hc | hc
  · cases neg
    · simp at hc
    · simp only [if_true, List.mem_cons, List.not_mem_nil, or_false] at hc
      rw [hc]
      decide
  · exact digitsOnly_plain ip (intPartWfB_digits ip hwf.1.1) c hc
  · match hfp : fp, hc with
    | some ds, hc =>
      rw [renderFracPart] at hc
      rcases List.mem_cons.1 hc with rfl | hc2
      · decide
      · refine digitsOnly_plain ds ?_ c hc2
        have h2 : (!ds.isEmpty && digitsOnly ds) = true := hwf.1.2
        simp only [Bool.and_eq_true] at h2
        exact h2.2
    | none, hc => cases hc
  · match hep : ep, hc with
    | some x, hc =>
      obtain ⟨up, sgn, ds⟩ := x
      rw [renderExpPart] at hc
      rcases List.mem_cons.1 hc with rfl | hc2
      · cases up <;> decide
      · rw [List.mem_append] at hc2
        rcases hc2 with hc3 | hc3
        · match sgn, hc3 with
          | some true, hc3 =>
            simp only [renderSgn, List.mem_cons, List.not_mem_nil, or_false] at hc3
            rw [hc3]
            decide
          | some false, hc3 =>
            simp only [renderSgn, List.mem_cons, List.not_mem_nil, or_false] at hc3
            rw [hc3]
            decide
          | none, hc3 => cases hc3
        · refine digitsOnly_plain ds ?_ c hc3
          have h2 : (!ds.isEmpty && digitsOnly ds) = true := hwf.2
          simp only [Bool.and_eq_true] at h2
          exact h2.2
    | none, hc => cases hc

mutual

/-- A rendered well-formed value is a neutral scanner segment at any
ambient depth. -/
theorem SegInv_renderValue (j : Json) (lvl : ℕ) (k : Int) (hwf : wfB j = true) :
    SegInv k (renderValue j lvl) := by
  cases j with
  | null => exact SegInv_plainList k ['n', 'u', 'l', 'l'] (by decide)
  | bool b =>
    cases b
    · exact SegInv_plainList k ['f', 'a', 'l', 's', 'e'] (by decide)
    · exact SegInv_plainList k ['t', 'r', 'u', 'e'] (by decide)
  | nan => exact SegInv_plainList k ['N', 'a', 'N'] (by decide)
  | inf b =>
    cases b
    · exact SegInv_plainList k ['I', 'n', 'f', 'i', 'n', 'i', 't', 'y'] (by decide)
    · exact SegInv_plainList k ['-', 'I', 'n', 'f', 'i', 'n', 'i', 't', 'y'] (by decide)
  | num n => exact SegInv_renderNum k n (by simpa [wfB] using hwf)
  | str s => exact SegInv_renderStr k s
  | arr es =>
    cases es with
    | nil => exact SegInv_plainList k ['[', ']'] (by decide)
    | cons e es =>
      have hwf2 : wfB e = true ∧ wfArrB es = true := by
        simp only [wfB, wfArrB, Bool.and_eq_true] at hwf
        exact hwf
      exact SegInv_append k ['['] _ (SegInv_plainList k ['['] (by decide))
        (SegInv_append k _ [']']
          (SegInv_append k _ _
            (SegInv_append k _ _
              (SegInv_append k _ _ (SegInv_nlIndent k (lvl + 1))
                (SegInv_renderValue e (lvl + 1) k hwf2.1))
              (SegInv_renderElemsTail es (lvl + 1) k hwf2.2))
            (SegInv_nlIndent k lvl))
          (SegInv_plainList k [']'] (by decide)))
  | obj fs =>
    cases fs with
    | nil => exact SegInv_braces k [] (SegInv_nil (k + 1))
    | cons kv kvs =>
      have hwf2 : wfB kv.2 = true ∧ wfObjB kvs = true := by
        simp only [wfB, wfObjB, Bool.and_eq_true] at hwf
        exact ⟨hwf.2.1, hwf.2.2⟩
      exact SegInv_braces k _
        (SegInv_append (k + 1) _ _
          (SegInv_append (k + 1) _ _
            (SegInv_append (k + 1) _ _ (SegInv_nlIndent (k + 1) (lvl + 1))
              (SegInv_renderMember kv (lvl + 1) (k + 1) hwf2.1))
            (SegInv_renderMembersTail kvs (lvl + 1) (k + 1) hwf2.2))
          (SegInv_nlIndent (k + 1) lvl))

theorem SegInv_renderMember (kv : List Char × Json) (lvl : ℕ) (k : Int)
    (hwf : wfB kv.2 = true) : SegInv k (renderMember kv lvl) := by
  obtain ⟨k0, v⟩ := kv
  exact SegInv_append k _ _ (SegInv_renderStr k k0)
    (SegInv_append k [':', ' '] _ (SegInv_plainList k [':', ' '] (by decide))
      (SegInv_renderValue v lvl k hwf))

theorem SegInv_renderElemsTail (es : List Json) (lvl : ℕ) (k : Int)
    (hwf : wfArrB es = true) : SegInv k (renderElemsTail es lvl) := by
  cases es with
  | nil => exact SegInv_nil k
  | cons e es =>
    have hwf2 : wfB e = true ∧ wfArrB es = true := by
      simp only [wfArrB, Bool.and_eq_true] at hwf
      exact hwf
    exact SegInv_append k [','] _ (SegInv_plainList k [','] (by decide))
      (SegInv_append k _ _
        (SegInv_append k _ _ (SegInv_nlIndent k lvl)
          (SegInv_renderValue e lvl k hwf2.1))
        (SegInv_renderElemsTail es lvl k hwf2.2))

theorem SegInv_renderMembersTail (kvs : List (List Char × Json)) (lvl : ℕ) (k : Int)
    (hwf : wfObjB kvs = true) : SegInv k (renderMembersTail kvs lvl) := by
  cases kvs with
  | nil => exact SegInv_nil k
  | cons kv kvs =>
    have hwf2 : wfB kv.2 = true ∧ wfObjB kvs = true := by
      simp only [wfObjB, Bool.and_eq_true] at hwf
      exact hwf
    exact SegInv_append k [','] _ (SegInv_plainList k [','] (by decide))
      (SegInv_append k _ _
        (SegInv_append k _ _ (SegInv_nlIndent k lvl)
          (SegInv_renderMember kv lvl k hwf2.1))
        (SegInv_renderMembersTail kvs lvl k hwf2.2))

end


/-! ## Parser balance: accepted documents scan neutrally (claim C9) -/

/-- A quoted string literal whose body is string-interior is a neutral
scanner segment. -/
theorem SegInv_quoted (k : Int) (B : List Char) (hB : InStrSeg k B) :
    SegInv k ('"' :: (B ++ ['"'])) := by
  obtain ⟨hf1, hf2⟩ := hB
  constructor
  · rw [scanFold_cons]
    rw [show scanStep ⟨false, false, k⟩ '"' = ⟨true, false, k⟩ from rfl]
    rw [scanFold_append, hf1]
    rfl
  · intro pre c suf hsplit
    cases pre with
    | nil =>
      rw [List.nil_append, List.cons.injEq] at hsplit
      refine ⟨le_refl k, ?_, ?_⟩
      · intro hc
        rw [hc] at hsplit
        exact absurd hsplit.1.symm (by decide)
      · rintro ⟨hc, -⟩
        rw [hc] at hsplit
        exact absurd hsplit.1.symm (by decide)
    | cons p0 pre2 =>
      rw [List.cons_append, List.cons.injEq] at hsplit
      rw [scanFold_cons, ← hsplit.1,
        show scanStep ⟨false, false, k⟩ '"' = ⟨true, false, k⟩ from rfl]
      rcases append_cons_split _ _ _ _ _ hsplit.2 with ⟨suf2, haeq, -⟩ | ⟨pre3, hpeq, hbeq⟩
      · obtain ⟨hin, hdep⟩ := hf2 pre2 c suf2 haeq
        refine ⟨le_of_eq hdep.symm, fun _ => hin, ?_⟩
        rintro ⟨-, hcon⟩
        rw [hin] at hcon
        cases hcon
      · have hpre3 : pre3 = [] := by
          cases pre3 with
          | nil => rfl
          | cons q0 q2 =>
            rw [List.cons_append, List.cons.injEq] at hbeq
            have := congrArg List.length hbeq.2
            simp only [List.length_nil, List.length_append, List.length_cons] at this
            omega
        subst hpre3
        rw [List.append_nil] at hpeq
        rw [List.nil_append] at hbeq
        injection hbeq with hx1 hx2
        rw [hpeq, hf1]
        refine ⟨le_refl k, fun _ => rfl, ?_⟩
        rintro ⟨-, hcon⟩
        exact Bool.noConfusion hcon

theorem isJsonWs_plain (c : Char) (h : isJsonWs c = true) : plainScanCh c = true := by
  simp only [isJsonWs, Bool.or_eq_true, decide_eq_true_eq] at h
  rcases h with ((rfl | rfl) | rfl) | rfl <;> decide

/-- Whitespace skipping splits off a scanner-neutral prefix. -/
theorem skipJsonWs_decomp (cs : List Char) :
    ∃ w, cs = w ++ skipJsonWs cs ∧ (∀ c ∈ w, isJsonWs c = true) ∧ ∀ k, SegInv k w := by
  refine ⟨cs.takeWhile isJsonWs, ?_, ?_, ?_⟩
  · rw [skipJsonWs, List.takeWhile_append_dropWhile]
  · intro c hc
    exact List.mem_takeWhile_imp hc
  · intro k
    exact SegInv_plainList k _ (fun c hc => isJsonWs_plain c (List.mem_takeWhile_imp hc))

theorem hexDigVal_plain (c : Char) (n : ℕ) (h : hexDigVal c = some n) :
    c ≠ '"' ∧ c ≠ '\\' := by
  constructor
  · rintro rfl
    rw [show hexDigVal '"' = none from rfl] at h
    exact Option.noConfusion h
  · rintro rfl
    rw [show hexDigVal '\\' = none from rfl] at h
    exact Option.noConfusion h

theorem hex4_plain (a b c d : Char) (n : ℕ) (h : hex4 a b c d = some n) :
    (a ≠ '"' ∧ a ≠ '\\') ∧ (b ≠ '"' ∧ b ≠ '\\') ∧
    (c ≠ '"' ∧ c ≠ '\\') ∧ (d ≠ '"' ∧ d ≠ '\\') := by
  rw [hex4] at h
  cases ha : hexDigVal a with
  | none => rw [ha] at h; exact Option.noConfusion h
  | some va =>
    cases hb : hexDigVal b with
    | none => rw [ha, hb] at h; exact Option.noConfusion h
    | some vb =>
      cases hc : hexDigVal c with
      | none => rw [ha, hb, hc] at h; exact Option.noConfusion h
      | some vc =>
        cases hd : hexDigVal d with
        | none => rw [ha, hb, hc, hd] at h; exact Option.noConfusion h
        | some vd =>
          exact ⟨hexDigVal_plain a va ha, hexDigVal_plain b vb hb,
            hexDigVal_plain c vc hc, hexDigVal_plain d vd hd⟩

set_option maxRecDepth 4096 in
/-- The characters consumed by a `\uXXXX` decode are string-interior. -/
theorem decodeUEsc_split (cs2 : List Char) (ch : Char) (rest : List Char)
    (h : decodeUEsc cs2 = some (ch, rest)) :
    ∃ u, cs2 = u ++ rest ∧ ∀ k, InStrSeg k u := by
  match cs2 with
  | [] => cases h
  | [a] => cases h
  | [a, b] => cases h
  | [a, b, c1] => cases h
  | a :: b :: c1 :: d1 :: rest0 =>
    cases hh : hex4 a b c1 d1 with
    | none => simp only [decodeUEsc, hh] at h; exact Option.noConfusion h
    | some n =>
      have hfour := hex4_plain a b c1 d1 n hh
      have hseg4 : ∀ k, InStrSeg k [a, b, c1, d1] := by
        intro k
        refine InStrSeg_plainInStr k _ ?_
        intro x hx
        simp only [List.mem_cons, List.not_mem_nil, or_false] at hx
        rcases hx with rfl | rfl | rfl | rfl
        · exact hfour.1
        · exact hfour.2.1
        · exact hfour.2.2.1
        · exact hfour.2.2.2
      simp only [decodeUEsc, hh] at h
      by_cases h1 : (decide (n < 0xD800) || decide (0xE000 ≤ n)) = true
      · rw [if_pos h1] at h
        injection h with h5
        have h6 : rest0 = rest := congrArg Prod.snd h5
        subst h6
        exact ⟨[a, b, c1, d1], rfl, hseg4⟩
      · rw [if_neg h1] at h
        by_cases h2 : n ≤ 0xDBFF
        · rw [if_pos h2] at h
          match rest0, h with
          | [], h => exact Option.noConfusion h
          | [e2], h => exact Option.noConfusion h
          | [e2, u2], h => exact Option.noConfusion h
          | [e2, u2, a2], h => exact Option.noConfusion h
          | [e2, u2, a2, b2], h => exact Option.noConfusion h
          | [e2, u2, a2, b2, c2], h => exact Option.noConfusion h
          | e2 :: u2 :: a2 :: b2 :: c2 :: d2 :: rest2, h =>
            have h : (if (decide (e2 = '\\') && decide (u2 = 'u')) = true then
                (match hex4 a2 b2 c2 d2 with
                 | some n2 =>
                   if (decide (0xDC00 ≤ n2) && decide (n2 ≤ 0xDFFF)) = true then
                     some (Char.ofNat (0x10000 + ((n - 0xD800) * 1024 + (n2 - 0xDC00))),
                       rest2)
                   else none
                 | none => none)
              else none) = some (ch, rest) := h
            by_cases h3 : (decide (e2 = '\\') && decide (u2 = 'u')) = true
            · rw [if_pos h3] at h
              simp only [Bool.and_eq_true, decide_eq_true_eq] at h3
              cases hh2 : hex4 a2 b2 c2 d2 with
              | none => rw [hh2] at h; exact Option.noConfusion h
              | some n2 =>
                rw [hh2] at h
                have hfour2 := hex4_plain a2 b2 c2 d2 n2 hh2
                have h : (if (decide (0xDC00 ≤ n2) && decide (n2 ≤ 0xDFFF)) = true then
                    some (Char.ofNat (0x10000 + ((n - 0xD800) * 1024 + (n2 - 0xDC00))),
                      rest2)
                  else none) = some (ch, rest) := h
                by_cases h4 : (decide (0xDC00 ≤ n2) && decide (n2 ≤ 0xDFFF)) = true
                · rw [if_pos h4] at h
                  injection h with h5
                  have h6 : rest2 = rest := congrArg Prod.snd h5
                  subst h6
                  refine ⟨[a, b, c1, d1] ++ ('\\' :: 'u' :: [a2, b2, c2, d2]),
                    by simp [h3.1, h3.2], ?_⟩
                  intro k
                  refine InStrSeg_append k _ _ (hseg4 k) ?_
                  have hsh : ('\\' :: 'u' :: [a2, b2, c2, d2])
                      = ['\\', 'u'] ++ [a2, b2, c2, d2] := rfl
                  rw [hsh]
                  refine InStrSeg_append k _ _ (InStrSeg_escPair k 'u')
                    (InStrSeg_plainInStr k _ ?_)
                  intro x hx
                  simp only [List.mem_cons, List.not_mem_nil, or_false] at hx
                  rcases hx with rfl | rfl | rfl | rfl
                  · exact hfour2.1
                  · exact hfour2.2.1
                  · exact hfour2.2.2.1
                  · exact hfour2.2.2.2
                · rw [if_neg h4] at h; exact Option.noConfusion h
            · rw [if_neg h3] at h; exact Option.noConfusion h
        · rw [if_neg h2] at h; exact Option.noConfusion h

/-- A successful string-body parse consumes a string-interior segment
followed by the closing quote. -/
theorem parseStringBodyF_balance : ∀ (f : ℕ) (cs s rest : List Char),
    parseStringBodyF f cs = some (s, rest) →
    ∃ seg, cs = seg ++ '"' :: rest ∧ ∀ k, InStrSeg k seg := by
  intro f
  induction f with
  | zero => intro cs s rest h; cases h
  | succ f ih =>
    intro cs s rest h
    match cs with
    | [] => cases h
    | c :: cs =>
      by_cases hq : c = '"'
      · subst hq
        rw [parseStringBodyF_quote] at h
        injection h with h5
        have h6 : cs = rest := congrArg Prod.snd h5
        subst h6
        exact ⟨[], rfl, fun k => InStrSeg_nil k⟩
      · by_cases hb : c = '\\'
        · subst hb
          simp only [parseStringBodyF] at h
          rw [if_neg hq] at h
          match cs, h with
          | [], h => cases h
          | e :: cs2, h =>
            have h : (if e = 'u' then
                (match decodeUEsc cs2 with
                 | some (ch, rest) =>
                   (parseStringBodyF f rest).map (fun sr => (ch :: sr.1, sr.2))
                 | none => none)
              else
                (match escMap e with
                 | some ch => (parseStringBodyF f cs2).map (fun sr => (ch :: sr.1, sr.2))
                 | none => none)) = some (s, rest) := h
            by_cases hu : e = 'u'
            · rw [if_pos hu] at h
              cases hdec : decodeUEsc cs2 with
              | none => rw [hdec] at h; exact Option.noConfusion h
              | some pr =>
                obtain ⟨ch, rest0⟩ := pr
                rw [hdec] at h
                rw [Option.map_eq_some'] at h
                obtain ⟨sr, hsr, heq⟩ := h
                have hrest : sr.2 = rest := congrArg Prod.snd heq
                obtain ⟨u, hu2, hustr⟩ := decodeUEsc_split cs2 ch rest0 hdec
                obtain ⟨seg2, hseg2, hseg2str⟩ := ih rest0 sr.1 sr.2 (by
                  rw [hsr])
                refine ⟨'\\' :: e :: (u ++ seg2), ?_, ?_⟩
                · rw [hu2, hseg2, hrest]
                  simp
                · intro k
                  have hsh : '\\' :: e :: (u ++ seg2) = ['\\', e] ++ (u ++ seg2) := rfl
                  rw [hsh]
                  exact InStrSeg_append k _ _ (InStrSeg_escPair k e)
                    (InStrSeg_append k _ _ (hustr k) (hseg2str k))
            · rw [if_neg hu] at h
              cases hesc : escMap e with
              | none => rw [hesc] at h; exact Option.noConfusion h
              | some ch =>
                rw [hesc] at h
                rw [Option.map_eq_some'] at h
                obtain ⟨sr, hsr, heq⟩ := h
                have hrest : sr.2 = rest := congrArg Prod.snd heq
                obtain ⟨seg2, hseg2, hseg2str⟩ := ih cs2 sr.1 sr.2 (by rw [hsr])
                refine ⟨'\\' :: e :: seg2, ?_, ?_⟩
                · rw [hseg2, hrest]
                  simp
                · intro k
                  have hsh : '\\' :: e :: seg2 = ['\\', e] ++ seg2 := rfl
                  rw [hsh]
                  exact InStrSeg_append k _ _ (InStrSeg_escPair k e) (hseg2str k)
        · simp only [parseStringBodyF] at h
          rw [if_neg hq, if_neg hb] at h
          by_cases hctl : c.toNat < 0x20
          · rw [if_pos hctl] at h
            exact Option.noConfusion h
          · rw [if_neg hctl] at h
            rw [Option.map_eq_some'] at h
            obtain ⟨sr, hsr, heq⟩ := h
            have hrest : sr.2 = rest := congrArg Prod.snd heq
            obtain ⟨seg2, hseg2, hseg2str⟩ := ih cs sr.1 sr.2 (by rw [hsr])
            refine ⟨c :: seg2, ?_, ?_⟩
            · rw [hseg2, hrest]
              simp
            · intro k
              have hsh : c :: seg2 = [c] ++ seg2 := rfl
              rw [hsh]
              refine InStrSeg_append k _ _ (InStrSeg_plainInStr k [c] ?_) (hseg2str k)
              intro x hx
              simp only [List.mem_cons, List.not_mem_nil, or_false] at hx
              rw [hx]
              exact ⟨hq, hb⟩

theorem parseStringBody_balance (cs s rest : List Char)
    (h : parseStringBody cs = some (s, rest)) :
    ∃ seg, cs = seg ++ '"' :: rest ∧ ∀ k, InStrSeg k seg :=
  parseStringBodyF_balance (cs.length + 1) cs s rest h

theorem takeDigitsJ_decomp : ∀ cs : List Char,
    cs = (takeDigitsJ cs).1 ++ (takeDigitsJ cs).2 ∧
    ∀ c ∈ (takeDigitsJ cs).1, isDigitCh c = true := by
  intro cs
  induction cs with
  | nil => exact ⟨rfl, by intro c hc; cases hc⟩
  | cons c cs ih =>
    by_cases hd : isDigitCh c = true
    · cases htd : takeDigitsJ cs with
      | mk ds r =>
        rw [htd] at ih
        have hres : takeDigitsJ (c :: cs) = (c :: ds, r) := by
          rw [takeDigitsJ, if_pos hd, htd]
        rw [hres]
        constructor
        · show c :: cs = c :: ds ++ r
          rw [List.cons_append, ← ih.1]
        · intro x hx
          rcases List.mem_cons.1 hx with rfl | hx2
          · exact hd
          · exact ih.2 x hx2
    · have hres : takeDigitsJ (c :: cs) = ([], c :: cs) := by
        rw [takeDigitsJ, if_neg hd]
      rw [hres]
      exact ⟨rfl, by intro x hx; cases hx⟩

theorem stripLit_decomp (lit cs r : List Char) (h : stripLit lit cs = some r) :
    cs = lit ++ r := by
  rw [stripLit] at h
  split_ifs at h with hp
  · rw [List.isPrefixOf_iff_prefix] at hp
    obtain ⟨t, rfl⟩ := hp
    injection h with h2
    rw [← h2, List.drop_left]

theorem scanIntPart_decomp (cs ip r : List Char) (h : scanIntPart cs = some (ip, r)) :
    cs = ip ++ r ∧ ∀ c ∈ ip, plainScanCh c = true := by
  match cs with
  | [] => cases h
  | c :: cs2 =>
    rw [scanIntPart] at h
    split_ifs at h with h0 hd
    · injection h with h2
      rw [Prod.mk.injEq] at h2
      rw [← h2.1, ← h2.2, h0]
      exact ⟨rfl, by intro x hx; simp only [List.mem_cons, List.not_mem_nil,
        or_false] at hx; rw [hx]; decide⟩
    · cases htd : takeDigitsJ cs2 with
      | mk ds r0 =>
        obtain ⟨hdec, hdig⟩ := takeDigitsJ_decomp cs2
        rw [htd] at hdec hdig h
        injection h with h2
        rw [Prod.mk.injEq] at h2
        rw [← h2.1, ← h2.2]
        constructor
        · show c :: cs2 = c :: ds ++ r0
          rw [List.cons_append, ← hdec]
        · intro x hx
          rcases List.mem_cons.1 hx with rfl | hx2
          · exact isDigitCh_plain x hd
          · exact isDigitCh_plain x (hdig x hx2)

theorem scanFrac_decomp (cs : List Char) (fp : Option (List Char)) (r : List Char)
    (h : scanFrac cs = (fp, r)) :
    ∃ seg, cs = seg ++ r ∧ ∀ c ∈ seg, plainScanCh c = true := by
  match cs with
  | [] =>
    rw [scanFrac] at h
    injection h with h1 h2
    exact ⟨[], by rw [← h2]; rfl, by intro c hc; cases hc⟩
  | c :: cs2 =>
    rw [scanFrac] at h
    split_ifs at h with hdot
    · cases htd : takeDigitsJ cs2 with
      | mk ds r0 =>
        obtain ⟨hdec, hdig⟩ := takeDigitsJ_decomp cs2
        rw [htd] at hdec hdig h
        cases ds with
        | nil =>
          injection h with h1 h2
          exact ⟨[], by rw [← h2]; rfl, by intro x hx; cases hx⟩
        | cons d ds2 =>
          injection h with h1 h2
          refine ⟨c :: d :: ds2, ?_, ?_⟩
          · rw [← h2]
            show c :: cs2 = c :: ((d :: ds2) ++ r0)
            rw [← hdec]
          · intro x hx
            rcases List.mem_cons.1 hx with rfl | hx2
            · rw [hdot]; decide
            · exact isDigitCh_plain x (hdig x hx2)
    · injection h with h1 h2
      exact ⟨[], by rw [← h2]; rfl, by intro x hx; cases hx⟩

theorem scanExp_decomp (cs : List Char) (ep : Option (Bool × Option Bool × List Char))
    (r : List Char) (h : scanExp cs = (ep, r)) :
    ∃ seg, cs = seg ++ r ∧ ∀ c ∈ seg, plainScanCh c = true := by
  match cs with
  | [] =>
    simp only [scanExp] at h
    injection h with h1 h2
    exact ⟨[], by rw [← h2]; rfl, by intro c hc; cases hc⟩
  | c :: cs2 =>
    simp only [scanExp] at h
    split_ifs at h with he
    · have hcpl : plainScanCh c = true := by
        have he2 := he
        simp only [Bool.or_eq_true, decide_eq_true_eq] at he2
        rcases he2 with rfl | rfl <;> decide
      match cs2, h with
      | [], h =>
        injection h with h1 h2
        exact ⟨[], by rw [← h2]; rfl, by intro x hx; cases hx⟩
      | s0 :: cs3, h =>
        have h : (if (decide (s0 = '+') || decide (s0 = '-')) = true then
            (match takeDigitsJ cs3 with
             | ([], _) => (none, c :: s0 :: cs3)
             | (ds, r1) => (some (decide (c = 'E'), some (decide (s0 = '-')), ds), r1))
          else
            (match takeDigitsJ (s0 :: cs3) with
             | ([], _) => (none, c :: s0 :: cs3)
             | (ds, r1) => (some (decide (c = 'E'), none, ds), r1))) = (ep, r) := h
        by_cases hs : (decide (s0 = '+') || decide (s0 = '-')) = true
        · rw [if_pos hs] at h
          have hspl : plainScanCh s0 = true := by
            simp only [Bool.or_eq_true, decide_eq_true_eq] at hs
            rcases hs with rfl | rfl <;> decide
          cases htd : takeDigitsJ cs3 with
          | mk ds r0 =>
            obtain ⟨hdec, hdig⟩ := takeDigitsJ_decomp cs3
            rw [htd] at hdec hdig h
            cases ds with
            | nil =>
              injection h with h1 h2
              exact ⟨[], by rw [← h2]; rfl, by intro x hx; cases hx⟩
            | cons d ds2 =>
              injection h with h1 h2
              refine ⟨c :: s0 :: d :: ds2, ?_, ?_⟩
              · rw [← h2]
                show c :: s0 :: cs3 = c :: s0 :: ((d :: ds2) ++ r0)
                rw [← hdec]
              · intro x hx
                rcases List.mem_cons.1 hx with rfl | hx2
                · exact hcpl
                · rcases List.mem_cons.1 hx2 with rfl | hx3
                  · exact hspl
                  · exact isDigitCh_plain x (hdig x hx3)
        · rw [if_neg hs] at h
          cases htd : takeDigitsJ (s0 :: cs3) with
          | mk ds r0 =>
            obtain ⟨hdec, hdig⟩ := takeDigitsJ_decomp (s0 :: cs3)
            rw [htd] at hdec hdig h
            cases ds with
            | nil =>
              injection h with h1 h2
              exact ⟨[], by rw [← h2]; rfl, by intro x hx; cases hx⟩
            | cons d ds2 =>
              injection h with h1 h2
              refine ⟨c :: d :: ds2, ?_, ?_⟩
              · rw [← h2]
                show c :: s0 :: cs3 = c :: ((d :: ds2) ++ r0)
                rw [← hdec]
              · intro x hx
                rcases List.mem_cons.1 hx with rfl | hx2
                · exact hcpl
                · exact isDigitCh_plain x (hdig x hx2)
    · injection h with h1 h2
      exact ⟨[], by rw [← h2]; rfl, by intro x hx; cases hx⟩

/-- A scanned number token consists of scanner-passive characters. -/
theorem scanNumberTok_decomp (neg : Bool) (cs : List Char) (n : JNum)
    (rest : List Char) (h : scanNumberTok neg cs = some (n, rest)) :
    ∃ seg, cs = seg ++ rest ∧ ∀ c ∈ seg, plainScanCh c = true := by
  rw [scanNumberTok] at h
  cases hip : scanIntPart cs with
  | none => rw [hip] at h; exact Option.noConfusion h
  | some pr =>
    obtain ⟨ip, r1⟩ := pr
    rw [hip] at h
    obtain ⟨hin, hipl⟩ := scanIntPart_decomp cs ip r1 hip
    cases hf : scanFrac r1 with
    | mk fp r2 =>
      obtain ⟨fseg, hfr, hfl⟩ := scanFrac_decomp r1 fp r2 hf
      cases he : scanExp r2 with
      | mk ep r3 =>
        obtain ⟨eseg, her, hel⟩ := scanExp_decomp r2 ep r3 he
        simp only [hf, he] at h
        injection h with h2
        have hr3 : r3 = rest := congrArg Prod.snd h2
        refine ⟨ip ++ (fseg ++ eseg), ?_, ?_⟩
        · rw [hin, hfr, her, hr3]
          simp
        · intro x hx
          rcases List.mem_append.1 hx with hx1 | hx2
          · exact hipl x hx1
          · rcases List.mem_append.1 hx2 with hx3 | hx4
            · exact hfl x hx3
            · exact hel x hx4

set_option maxHeartbeats 2000000 in
/-- A successful parse consumes a scanner-neutral segment: the mutual
induction for `scanValue`, `parseElems` (with its closing bracket) and
`parseMembers` (with its closing brace). -/
theorem parsers_balance : ∀ fuel : ℕ,
    (∀ cs v rest, scanValue fuel cs = some (v, rest) →
      ∃ seg, cs = seg ++ rest ∧ ∀ k, SegInv k seg) ∧
    (∀ cs es rest, parseElems fuel cs = some (es, rest) →
      ∃ seg, cs = seg ++ ']' :: rest ∧ ∀ k, SegInv k seg) ∧
    (∀ cs ms rest, parseMembers fuel cs = some (ms, rest) →
      ∃ seg, cs = seg ++ '}' :: rest ∧ ∀ k, SegInv k seg) := by
  intro fuel
  induction fuel with
  | zero =>
    refine ⟨?_, ?_, ?_⟩ <;> exact fun cs v rest h => Option.noConfusion h
  | succ fuel ih =>
    obtain ⟨ih_sv, ih_pe, ih_pm⟩ := ih
    refine ⟨?_, ?_, ?_⟩
    · intro cs v rest h
      match cs with
      | [] => exact Option.noConfusion h
      | c :: r =>
        rw [scanValue] at h
        split_ifs at h with h1 h2 h3 h4 h5 h6 h7 h8 h9 h10
        · rw [Option.map_eq_some'] at h
          obtain ⟨⟨s, r2⟩, hps, hv⟩ := h
          rw [Prod.mk.injEq] at hv
          obtain ⟨bseg, hbr, hbstr⟩ := parseStringBody_balance r s r2 hps
          refine ⟨'"' :: (bseg ++ ['"']), ?_, ?_⟩
          · rw [h1, hbr, ← hv.2]
            simp
          · intro k
            exact SegInv_quoted k bseg (hbstr k)
        · obtain ⟨w, hw, -, hwseg⟩ := skipJsonWs_decomp r
          split at h
          · rename_i r2 heq
            injection h with hv
            rw [Prod.mk.injEq] at hv
            rw [heq] at hw
            refine ⟨'{' :: (w ++ ['}']), ?_, ?_⟩
            · rw [h2, hw, ← hv.2]
              simp
            · intro k
              exact SegInv_braces k w (hwseg (k + 1))
          · rw [Option.map_eq_some'] at h
            obtain ⟨⟨ms, r2⟩, hms, hv⟩ := h
            rw [Prod.mk.injEq] at hv
            obtain ⟨seg2, hseg2, hseg2inv⟩ := ih_pm _ _ _ hms
            rw [hseg2] at hw
            refine ⟨'{' :: ((w ++ seg2) ++ ['}']), ?_, ?_⟩
            · rw [h2, hw, ← hv.2]
              simp
            · intro k
              exact SegInv_braces k (w ++ seg2)
                (SegInv_append (k + 1) w seg2 (hwseg (k + 1)) (hseg2inv (k + 1)))
        · obtain ⟨w, hw, -, hwseg⟩ := skipJsonWs_decomp r
          split at h
          · rename_i r2 heq
            injection h with hv
            rw [Prod.mk.injEq] at hv
            rw [heq] at hw
            refine ⟨'[' :: (w ++ [']']), ?_, ?_⟩
            · rw [h3, hw, ← hv.2]
              simp
            · intro k
              refine SegInv_append k ['['] _ (SegInv_plainList k ['['] (by decide)) ?_
              exact SegInv_append k w [']'] (hwseg k) (SegInv_plainList k [']'] (by decide))
          · rw [Option.map_eq_some'] at h
            obtain ⟨⟨es, r2⟩, hes, hv⟩ := h
            rw [Prod.mk.injEq] at hv
            obtain ⟨seg2, hseg2, hseg2inv⟩ := ih_pe _ _ _ hes
            rw [hseg2] at hw
            refine ⟨'[' :: (w ++ (seg2 ++ [']'])), ?_, ?_⟩
            · rw [h3, hw, ← hv.2]
              simp
            · intro k
              refine SegInv_append k ['['] _ (SegInv_plainList k ['['] (by decide)) ?_
              refine SegInv_append k w _ (hwseg k) ?_
              exact SegInv_append k seg2 [']'] (hseg2inv k)
                (SegInv_plainList k [']'] (by decide))
        · split at h
          · rename_i r2 heq
            injection h with hv
            rw [Prod.mk.injEq] at hv
            have hdec := stripLit_decomp _ _ _ heq
            refine ⟨'n' :: ("ull".data), ?_, ?_⟩
            · rw [h4, hdec, ← hv.2]
              rfl
            · intro k
              exact SegInv_plainList k _ (by decide)
          · exact Option.noConfusion h
        · split at h
          · rename_i r2 heq
            injection h with hv
            rw [Prod.mk.injEq] at hv
            have hdec := stripLit_decomp _ _ _ heq
            refine ⟨'t' :: ("rue".data), ?_, ?_⟩
            · rw [h5, hdec, ← hv.2]
              rfl
            · intro k
              exact SegInv_plainList k _ (by decide)
          · exact Option.noConfusion h
        · split at h
          · rename_i r2 heq
            injection h with hv
            rw [Prod.mk.injEq] at hv
            have hdec := stripLit_decomp _ _ _ heq
            refine ⟨'f' :: ("alse".data), ?_, ?_⟩
            · rw [h6, hdec, ← hv.2]
              rfl
            · intro k
              exact SegInv_plainList k _ (by decide)
          · exact Option.noConfusion h
        · split at h
          · rename_i r2 heq
            injection h with hv
            rw [Prod.mk.injEq] at hv
            have hdec := stripLit_decomp _ _ _ heq
            refine ⟨'N' :: ("aN".data), ?_, ?_⟩
            · rw [h7, hdec, ← hv.2]
              rfl
            · intro k
              exact SegInv_plainList k _ (by decide)
          · exact Option.noConfusion h
        · split at h
          · rename_i r2 heq
            injection h with hv
            rw [Prod.mk.injEq] at hv
            have hdec := stripLit_decomp _ _ _ heq
            refine ⟨'I' :: ("nfinity".data), ?_, ?_⟩
            · rw [h8, hdec, ← hv.2]
              rfl
            · intro k
              exact SegInv_plainList k _ (by decide)
          · exact Option.noConfusion h
        · split at h
          · rename_i r2 heq
            injection h with hv
            rw [Prod.mk.injEq] at hv
            have hdec := stripLit_decomp _ _ _ heq
            refine ⟨'-' :: ("Infinity".data), ?_, ?_⟩
            · rw [h9, hdec, ← hv.2]
              rfl
            · intro k
              exact SegInv_plainList k _ (by decide)
          · rw [Option.map_eq_some'] at h
            obtain ⟨⟨n, r2⟩, hn, hv⟩ := h
            rw [Prod.mk.injEq] at hv
            obtain ⟨tseg, htr, htl⟩ := scanNumberTok_decomp true r n r2 hn
            refine ⟨'-' :: tseg, ?_, ?_⟩
            · rw [h9, htr, ← hv.2]
              rfl
            · intro k
              refine SegInv_plainList k _ ?_
              intro x hx
              rcases List.mem_cons.1 hx with rfl | hx2
              · decide
              · exact htl x hx2
        · rw [Option.map_eq_some'] at h
          obtain ⟨⟨n, r2⟩, hn, hv⟩ := h
          rw [Prod.mk.injEq] at hv
          obtain ⟨tseg, htr, htl⟩ := scanNumberTok_decomp false (c :: r) n r2 hn
          refine ⟨tseg, ?_, ?_⟩
          · rw [htr, ← hv.2]
          · intro k
            exact SegInv_plainList k _ htl
    · intro cs es rest h
      rw [parseElems] at h
      cases hsv : scanValue fuel cs with
      | none => rw [hsv] at h; exact Option.noConfusion h
      | some pr =>
        obtain ⟨v, r⟩ := pr
        obtain ⟨vseg, hvr, hvinv⟩ := ih_sv _ _ _ hsv
        obtain ⟨w, hw, -, hwseg⟩ := skipJsonWs_decomp r
        simp only [hsv] at h
        split at h
        · rename_i r2 heq
          injection h with hv
          rw [Prod.mk.injEq] at hv
          rw [heq] at hw
          refine ⟨vseg ++ w, ?_, ?_⟩
          · rw [hvr, hw, ← hv.2]
            simp
          · intro k
            exact SegInv_append k vseg w (hvinv k) (hwseg k)
        · rename_i r2 heq
          rw [Option.map_eq_some'] at h
          obtain ⟨⟨es2, r3⟩, hes2, hv⟩ := h
          rw [Prod.mk.injEq] at hv
          obtain ⟨seg2, hseg2, hseg2inv⟩ := ih_pe _ _ _ hes2
          obtain ⟨w2, hw2, -, hw2seg⟩ := skipJsonWs_decomp r2
          rw [hseg2] at hw2
          rw [heq] at hw
          refine ⟨vseg ++ (w ++ ([','] ++ (w2 ++ seg2))), ?_, ?_⟩
          · rw [hvr, hw, hw2, ← hv.2]
            simp
          · intro k
            refine SegInv_append k vseg _ (hvinv k) ?_
            refine SegInv_append k w _ (hwseg k) ?_
            refine SegInv_append k [','] _ (SegInv_plainList k [','] (by decide)) ?_
            exact SegInv_append k w2 seg2 (hw2seg k) (hseg2inv k)
        · exact Option.noConfusion h
    · intro cs ms rest h
      match cs with
      | [] => exact Option.noConfusion h
      | c :: r0 =>
        by_cases hc : c = '"'
        · subst hc
          rw [parseMembers] at h
          cases hps : parseStringBody r0 with
          | none => rw [hps] at h; exact Option.noConfusion h
          | some pr =>
            obtain ⟨key, r1⟩ := pr
            obtain ⟨kseg, hkr, hkstr⟩ := parseStringBody_balance r0 key r1 hps
            obtain ⟨w1, hw1, -, hw1seg⟩ := skipJsonWs_decomp r1
            simp only [hps] at h
            split at h
            · rename_i r2 heq2
              rw [heq2] at hw1
              cases hsv : scanValue fuel (skipJsonWs r2) with
              | none => rw [hsv] at h; exact Option.noConfusion h
              | some pr2 =>
                obtain ⟨v, r3⟩ := pr2
                obtain ⟨vseg, hvr, hvinv⟩ := ih_sv _ _ _ hsv
                obtain ⟨w2, hw2, -, hw2seg⟩ := skipJsonWs_decomp r2
                rw [hvr] at hw2
                obtain ⟨w3, hw3, -, hw3seg⟩ := skipJsonWs_decomp r3
                simp only [hsv] at h
                split at h
                · rename_i r4 heq4
                  rw [heq4] at hw3
                  injection h with hv
                  rw [Prod.mk.injEq] at hv
                  refine ⟨('"' :: (kseg ++ ['"'])) ++
                    (w1 ++ ([':'] ++ (w2 ++ (vseg ++ w3)))), ?_, ?_⟩
                  · rw [hkr, hw1, hw2, hw3, ← hv.2]
                    simp
                  · intro k
                    refine SegInv_append k _ _ (SegInv_quoted k kseg (hkstr k)) ?_
                    refine SegInv_append k w1 _ (hw1seg k) ?_
                    refine SegInv_append k [':'] _ (SegInv_plainList k [':'] (by decide)) ?_
                    refine SegInv_append k w2 _ (hw2seg k) ?_
                    exact SegInv_append k vseg w3 (hvinv k) (hw3seg k)
                · rename_i r4 heq4
                  rw [heq4] at hw3
                  rw [Option.map_eq_some'] at h
                  obtain ⟨⟨ms2, r5⟩, hms2, hv⟩ := h
                  rw [Prod.mk.injEq] at hv
                  obtain ⟨seg2, hseg2, hseg2inv⟩ := ih_pm _ _ _ hms2
                  obtain ⟨w4, hw4, -, hw4seg⟩ := skipJsonWs_decomp r4
                  rw [hseg2] at hw4
                  refine ⟨('"' :: (kseg ++ ['"'])) ++
                    (w1 ++ ([':'] ++ (w2 ++ (vseg ++ (w3 ++ ([','] ++ (w4 ++ seg2))))))),
                    ?_, ?_⟩
                  · rw [hkr, hw1, hw2, hw3, hw4, ← hv.2]
                    simp
                  · intro k
                    refine SegInv_append k _ _ (SegInv_quoted k kseg (hkstr k)) ?_
                    refine SegInv_append k w1 _ (hw1seg k) ?_
                    refine SegInv_append k [':'] _ (SegInv_plainList k [':'] (by decide)) ?_
                    refine SegInv_append k w2 _ (hw2seg k) ?_
                    refine SegInv_append k vseg _ (hvinv k) ?_
                    refine SegInv_append k w3 _ (hw3seg k) ?_
                    refine SegInv_append k [','] _ (SegInv_plainList k [','] (by decide)) ?_
                    exact SegInv_append k w4 seg2 (hw4seg k) (hseg2inv k)
                · exact Option.noConfusion h
            · exact Option.noConfusion h
        · have hnone : parseMembers (fuel + 1) (c :: r0) = none := by
            rw [parseMembers]
            intro r hcon
            rw [List.cons.injEq] at hcon
            exact hc hcon.1
          rw [hnone] at h
          exact Option.noConfusion h

/-- A document accepted by `json.loads` scans to the neutral state: all
braces balance and every string is closed. -/
theorem loads_balance (cs : List Char) (j : Json) (h : loads cs = some j) :
    scanFold scanSt0 cs = scanSt0 := by
  rw [loads] at h
  cases hsv : scanValue (cs.length + 1) (skipJsonWs cs) with
  | none => rw [hsv] at h; exact Option.noConfusion h
  | some pr =>
    obtain ⟨v, rest⟩ := pr
    simp only [hsv] at h
    split_ifs at h with hre
    obtain ⟨w1, hw1, -, hw1seg⟩ := skipJsonWs_decomp cs
    obtain ⟨seg, hseg, hseginv⟩ := (parsers_balance (cs.length + 1)).1 _ _ _ hsv
    obtain ⟨w2, hw2, -, hw2seg⟩ := skipJsonWs_decomp rest
    rw [hre, List.append_nil] at hw2
    rw [hseg, hw2] at hw1
    rw [hw1]
    show scanFold ⟨false, false, 0⟩ (w1 ++ (seg ++ w2)) = ⟨false, false, 0⟩
    rw [scanFold_append, (hw1seg 0).1, scanFold_append, (hseginv 0).1]
    exact (hw2seg 0).1


/-! ## The extractor and the fence on canonical content (claim C9) -/

theorem hitCond_ne (st : ScanSt) (c : Char) (h : ¬ c = '}') : hitCond st c = false := by
  simp [hitCond, h]

/-- `scanLoop` returns the slice up to the first hit. -/
theorem scanLoop_first_hit (cs : List Char) (st : ScanSt) (j : ℕ)
    (hj : HitAt st cs j) (hmin : ∀ j2 < j, ¬ HitAt st cs j2) :
    scanLoop st [] cs = some (cs.take (j + 1)) := by
  cases hout : scanLoop st [] cs with
  | none =>
    rw [scanLoop_eq_none_iff] at hout
    exact absurd hj (hout j)
  | some out =>
    obtain ⟨j2, hj2, hmin2, rfl⟩ := scanLoop_eq_some cs st out hout
    have hjj : j2 = j := by
      rcases lt_trichotomy j2 j with hlt | heq | hgt
      · exact absurd hj2 (hmin j2 hlt)
      · exact heq
      · exact absurd hj (hmin2 j hgt)
    rw [hjj]

/-- No character strictly inside a neutral segment at ambient depth `k ≥ 1`
can satisfy the hit condition. -/
theorem hitCond_seg (k : Int) (hk : 1 ≤ k) (B : List Char) (hB : SegInv k B)
    (p : List Char) (c : Char) (suf : List Char) (h : B = p ++ c :: suf) :
    hitCond (scanFold ⟨false, false, k⟩ p) c = false := by
  obtain ⟨hd, hbt, hcl⟩ := hB.2 p c suf h
  by_cases hc : c = '}'
  · subst hc
    cases hin : (scanFold ⟨false, false, k⟩ p).inString with
    | true => simp [hitCond, hin]
    | false =>
      have hdep := hcl ⟨rfl, hin⟩
      have hne : (scanFold ⟨false, false, k⟩ p).depth ≠ 1 := by omega
      simp [hitCond, hne]
  · exact hitCond_ne _ _ hc

/-- On a rendered object followed by anything, the brace scan stops exactly
at the object's closing brace. -/
theorem scanLoop_obj (B : List Char) (hB : SegInv 1 B) (tail : List Char) :
    scanLoop scanSt0 [] (('{' :: (B ++ ['}'])) ++ tail) = some ('{' :: (B ++ ['}'])) := by
  have hshape : ('{' :: (B ++ ['}'])) ++ tail = '{' :: (B ++ '}' :: tail) := by
    simp
  have hstep : scanStep scanSt0 '{' = ⟨false, false, 1⟩ := by
    rw [show scanStep scanSt0 '{' = ⟨false, false, (0 : Int) + 1⟩ from rfl]
    norm_num
  have hfold : scanFold scanSt0 ('{' :: B) = ⟨false, false, 1⟩ := by
    rw [scanFold_cons, hstep, hB.1]
  have hhit : HitAt scanSt0 (('{' :: (B ++ ['}'])) ++ tail) (B.length + 1) := by
    refine ⟨'{' :: B, '}', tail, by simp, by simp, ?_⟩
    rw [hfold]
    decide
  have hmin : ∀ j2 < B.length + 1, ¬ HitAt scanSt0 (('{' :: (B ++ ['}'])) ++ tail) j2 := by
    rintro j2 hj2 ⟨p, c, q, hpq, hlen, hhit2⟩
    rw [hshape] at hpq
    cases p with
    | nil =>
      rw [List.nil_append, List.cons.injEq] at hpq
      rw [← hpq.1] at hhit2
      rw [hitCond_ne _ _ (by decide)] at hhit2
      exact Bool.noConfusion hhit2
    | cons p0 p2 =>
      rw [List.cons_append, List.cons.injEq] at hpq
      have hp2len : p2.length < B.length := by
        rw [List.length_cons] at hlen
        omega
      rcases append_cons_split B ('}' :: tail) p2 q c hpq.2 with
        ⟨suf2, hBeq, -⟩ | ⟨pre2, hp2eq, -⟩
      · have hhc := hitCond_seg 1 (le_refl 1) B hB p2 c suf2 hBeq
        rw [scanFold_cons, ← hpq.1, hstep] at hhit2
        rw [hhc] at hhit2
        exact Bool.noConfusion hhit2
      · have := congrArg List.length hp2eq
        rw [List.length_append] at this
        omega
  have hout := scanLoop_first_hit _ scanSt0 (B.length + 1) hhit hmin
  rw [hout]
  congr 1
  have hlen2 : ('{' :: (B ++ ['}'])).length = B.length + 1 + 1 := by simp
  exact List.take_left' hlen2

/-- The last character of a list ending in `]` -/
theorem last_of_concat (l p : List Char) (b c : Char) (h : l ++ [b] = p ++ [c]) :
    c = b := by
  have h2 := congrArg List.getLast? h
  rw [List.getLast?_concat, List.getLast?_concat] at h2
  injection h2 with h3
  exact h3.symm

/-- The whole extractor on a fenced rendered object: it finds the object's
opening brace and returns exactly the rendered object. -/
theorem extractFirstJsonObject_fence (B : List Char) (hB : SegInv 1 B)
    (tail0 : List Char) :
    extractFirstJsonObject (("```json\n".data ++ ('{' :: (B ++ ['}']))) ++ tail0)
      = some ('{' :: (B ++ ['}'])) := by
  have hd8 : "```json\n".data = ['`', '`', '`', 'j', 's', 'o', 'n', '\n'] := rfl
  rw [extractFirstJsonObject]
  rw [if_neg (by rw [hd8]; simp)]
  have hshape : ("```json\n".data ++ ('{' :: (B ++ ['}']))) ++ tail0
      = "```json\n".data ++ '{' :: ((B ++ ['}']) ++ tail0) := by simp
  rw [hshape, findBraceSuffix_append _ _ (by rw [hd8]; decide)]
  show Option.map pyStrip (scanLoop scanSt0 [] ('{' :: ((B ++ ['}']) ++ tail0)))
    = some ('{' :: (B ++ ['}']))
  rw [show ('{' :: ((B ++ ['}']) ++ tail0)) = ('{' :: (B ++ ['}'])) ++ tail0 from by simp]
  rw [scanLoop_obj B hB tail0]
  rw [Option.map_some']
  congr 1
  refine pyStrip_id _ (by simp) ?_ ?_
  · intro c t hct
    rw [List.cons.injEq] at hct
    rw [← hct.1]
    decide
  · intro c p hcp
    have hcp2 : ('{' :: B) ++ ['}'] = p ++ [c] := by
      rw [← hcp]
      simp
    rw [last_of_concat _ _ _ _ hcp2]
    decide

theorem scanStep_inString_of_ne (st : ScanSt) (c : Char) (h : ¬ c = '"') :
    (scanStep st c).inString = st.inString := by
  rw [scanStep]
  by_cases h1 : st.escape
  · rw [if_pos h1]
  · rw [if_neg h1]
    by_cases h2 : (c = '\\' && st.inString) = true
    · rw [if_pos h2]
    · rw [if_neg h2]
      rw [if_neg h]
      by_cases h4 : (!st.inString && c = '{') = true
      · rw [if_pos h4]
      · rw [if_neg h4]
        by_cases h5 : (!st.inString && c = '}') = true
        · rw [if_pos h5]
        · rw [if_neg h5]

theorem scanFold_inString_of_no_quote (w : List Char) (st : ScanSt)
    (h : ∀ c ∈ w, ¬ c = '"') : (scanFold st w).inString = st.inString := by
  induction w generalizing st with
  | nil => rfl
  | cons c w ih =>
    rw [scanFold_cons, ih _ (fun x hx => h x (by simp [hx])),
      scanStep_inString_of_ne st c (h c (by simp))]

theorem isPyWs_ne_quote (c : Char) (h : isPyWs c = true) : ¬ c = '"' := by
  rintro rfl
  exact absurd h (by decide)

/-- A backtick inside a rendered object lies inside a string: the scanner
state just before it has `in_string = true`. -/
theorem dumps_backtick_inString (B : List Char) (hB : SegInv 1 B)
    (p suf : List Char) (h : '{' :: (B ++ ['}']) = p ++ '`' :: suf) :
    (scanFold scanSt0 p).inString = true := by
  cases p with
  | nil =>
    rw [List.nil_append, List.cons.injEq] at h
    exact absurd h.1 (by decide)
  | cons p0 p2 =>
    rw [List.cons_append, List.cons.injEq] at h
    rcases append_cons_split B ['}'] p2 suf '`' h.2 with
      ⟨suf2, hBeq, -⟩ | ⟨pre2, hp2eq, htl⟩
    · have hbt := (hB.2 p2 '`' suf2 hBeq).2.1 rfl
      have hstep : scanStep scanSt0 '{' = ⟨false, false, 1⟩ := by
        rw [show scanStep scanSt0 '{' = ⟨false, false, (0 : Int) + 1⟩ from rfl]
        norm_num
      rw [scanFold_cons, ← h.1, hstep]
      exact hbt
    · exfalso
      cases pre2 with
      | nil =>
        rw [List.nil_append, List.cons.injEq] at htl
        exact absurd htl.1 (by decide)
      | cons q0 q2 =>
        have := congrArg List.length htl
        simp only [List.length_cons, List.length_append, List.length_nil] at this
        omega

/-- Dropping an all-satisfying prefix continues the drop on the right part. -/
theorem dropWhile_append_all {p : Char → Bool} (w l : List Char)
    (hw : ∀ c ∈ w, p c = true) : (w ++ l).dropWhile p = l.dropWhile p := by
  induction w with
  | nil => rfl
  | cons c w ih =>
    rw [List.cons_append, List.dropWhile_cons, hw c (by simp)]
    simp only [if_true]
    exact ih (fun x hx => hw x (by simp [hx]))

/-- Right strip splits off an all-whitespace suffix. -/
theorem rstrip_decomp (l : List Char) :
    ∃ w, l = (l.reverse.dropWhile isPyWs).reverse ++ w ∧ ∀ c ∈ w, isPyWs c = true := by
  refine ⟨(l.reverse.takeWhile isPyWs).reverse, ?_, ?_⟩
  · rw [← List.reverse_append, List.takeWhile_append_dropWhile, List.reverse_reverse]
  · intro c hc
    rw [List.mem_reverse] at hc
    exact List.mem_takeWhile_imp hc

/-- Stripping a whitespace-wrapped token with non-whitespace first and last
characters yields the token. -/
theorem pyStrip_ws_wrap (w1 core w2 : List Char)
    (hw1 : ∀ c ∈ w1, isPyWs c = true) (hw2 : ∀ c ∈ w2, isPyWs c = true)
    (hhead : ∀ c t, core = c :: t → isPyWs c = false)
    (hlast : ∀ c p, core = p ++ [c] → isPyWs c = false)
    (hne : core ≠ []) :
    pyStrip (w1 ++ (core ++ w2)) = core := by
  match core, hne with
  | c0 :: t0, _ =>
    obtain ⟨p1, d1, hpd⟩ : ∃ p d, c0 :: t0 = p ++ [d] :=
      ⟨(c0 :: t0).dropLast, (c0 :: t0).getLast (by simp),
        (List.dropLast_append_getLast (by simp)).symm⟩
    rw [pyStrip, pyStripLeft, dropWhile_append_all w1 _ hw1]
    rw [List.cons_append, List.dropWhile_cons, hhead c0 t0 rfl]
    simp only [Bool.false_eq_true, if_false]
    rw [show c0 :: (t0 ++ w2) = (c0 :: t0) ++ w2 from rfl]
    rw [List.reverse_append, dropWhile_append_all w2.reverse _
      (fun c hc => hw2 c (List.mem_reverse.1 hc))]
    rw [hpd, List.reverse_append, List.reverse_singleton, List.singleton_append,
      List.dropWhile_cons, hlast d1 p1 hpd]
    simp

theorem splitAtFirstTicks_some : ∀ X : List Char,
    ∃ ba, splitAtFirstTicks (X ++ ("```".data)) = some ba := by
  intro X
  induction X with
  | nil => exact ⟨([], []), rfl⟩
  | cons x X ih =>
    obtain ⟨ba, hba⟩ := ih
    by_cases hp : ("```".data).isPrefixOf (x :: (X ++ "```".data)) = true
    · refine ⟨([], (x :: (X ++ "```".data)).drop 3), ?_⟩
      rw [List.cons_append]
      simp only [splitAtFirstTicks]
      rw [if_pos hp]
    · refine ⟨(x :: ba.1, ba.2), ?_⟩
      rw [List.cons_append]
      simp only [splitAtFirstTicks]
      rw [if_neg hp, hba]
      rfl

theorem splitAtFirstTicks_eq_some : ∀ (cs b a : List Char),
    splitAtFirstTicks cs = some (b, a) → cs = b ++ '`' :: '`' :: '`' :: a := by
  intro cs
  induction cs with
  | nil => intro b a h; cases h
  | cons c cs ih =>
    intro b a h
    simp only [splitAtFirstTicks] at h
    by_cases hp : ("```".data).isPrefixOf (c :: cs) = true
    · rw [if_pos hp] at h
      injection h with h2
      rw [Prod.mk.injEq] at h2
      rw [List.isPrefixOf_iff_prefix] at hp
      obtain ⟨t, ht⟩ := hp
      rw [← h2.1, ← h2.2, ← ht]
      rfl
    · rw [if_neg hp] at h
      rw [Option.map_eq_some'] at h
      obtain ⟨ba0, hba0, heq⟩ := h
      rw [Prod.mk.injEq] at heq
      have hcs := ih ba0.1 ba0.2 (by rw [hba0])
      rw [← heq.1, ← heq.2, List.cons_append, ← hcs]

/-- `fenceLoop` on text opening with a `json` fence marker resolves by the
first subsequent triple backtick. -/
theorem fenceLoop_canonical (Y b a : List Char)
    (hsp : splitAtFirstTicks ('\n' :: Y) = some (b, a)) :
    fenceLoop ('`' :: '`' :: '`' :: 'j' :: 's' :: 'o' :: 'n' :: '\n' :: Y)
      = some (pyStrip b) := by
  have hstep : fenceLoop ('`' :: '`' :: '`' :: 'j' :: 's' :: 'o' :: 'n' :: '\n' :: Y)
      = (match splitAtFirstTicks ('\n' :: Y) with
         | some ba => some (pyStrip ba.1)
         | none => fenceLoop ('`' :: '`' :: 'j' :: 's' :: 'o' :: 'n' :: '\n' :: Y)) := rfl
  rw [hstep, hsp]

theorem okDict_obj (fs : List (List Char × Json)) (reason : String) :
    okDict ⟨true, some (.obj fs), reason⟩ = some (.obj fs) := rfl

theorem okDict_some (r : ParseOut) (d : Json) (h : okDict r = some d) :
    r.ok = true ∧ r.parsed = some d := by
  obtain ⟨ok, parsed, reason⟩ := r
  cases ok with
  | false => exact Option.noConfusion h
  | true =>
    cases parsed with
    | none => exact Option.noConfusion h
    | some p =>
      cases p with
      | obj fields =>
        have h2 : some (Json.obj fields) = some d := h
        exact ⟨rfl, h2⟩
      | null => exact Option.noConfusion h
      | bool b => exact Option.noConfusion h
      | num n => exact Option.noConfusion h
      | nan => exact Option.noConfusion h
      | inf b => exact Option.noConfusion h
      | str s => exact Option.noConfusion h
      | arr es => exact Option.noConfusion h

/-- Evaluation of `_try_parse_plan_json` when the fenced candidate parses
with the plan keys. -/
theorem tryParsePlanJson_fence_some (content cand : List Char) (p : Json)
    (hne0 : ¬ content = []) (hfence : extractJsonFromFence content = some cand)
    (hcne : cand ≠ []) (hld : loads cand = some p) (hpk : hasPlanKeys p = true) :
    tryParsePlanJson content = ⟨true, some p, "parsed_from_fence"⟩ := by
  rw [tryParsePlanJson, if_neg hne0, hfence]
  show (if cand ≠ [] then
      (match loads cand with
       | some p2 => if hasPlanKeys p2 then (⟨true, some p2, "parsed_from_fence"⟩ : ParseOut)
         else tryParseFromTextObject content
       | none => tryParseFromTextObject content)
    else tryParseFromTextObject content) = (⟨true, some p, "parsed_from_fence"⟩ : ParseOut)
  rw [if_pos hcne, hld]
  show (if hasPlanKeys p then (⟨true, some p, "parsed_from_fence"⟩ : ParseOut)
    else tryParseFromTextObject content) = (⟨true, some p, "parsed_from_fence"⟩ : ParseOut)
  rw [if_pos hpk]

/-- Evaluation of `_try_parse_plan_json` when the fenced candidate fails to
parse: fall through to the text-object extraction. -/
theorem tryParsePlanJson_fence_fail (content cand : List Char)
    (hne0 : ¬ content = []) (hfence : extractJsonFromFence content = some cand)
    (hcne : cand ≠ []) (hld : loads cand = none) :
    tryParsePlanJson content = tryParseFromTextObject content := by
  rw [tryParsePlanJson, if_neg hne0, hfence]
  show (if cand ≠ [] then
      (match loads cand with
       | some p2 => if hasPlanKeys p2 then (⟨true, some p2, "parsed_from_fence"⟩ : ParseOut)
         else tryParseFromTextObject content
       | none => tryParseFromTextObject content)
    else tryParseFromTextObject content) = tryParseFromTextObject content
  rw [if_pos hcne, hld]

/-- Evaluation of the text-object fallback when extraction and parsing
succeed with the plan keys. -/
theorem tryParseFromTextObject_some (content cand : List Char) (p : Json)
    (hex : extractFirstJsonObject content = some cand) (hcne : cand ≠ [])
    (hld : loads cand = some p) (hpk : hasPlanKeys p = true) :
    tryParseFromTextObject content = ⟨true, some p, "parsed_from_text_object"⟩ := by
  rw [tryParseFromTextObject, hex]
  show (if cand ≠ [] then
      (match loads cand with
       | some p2 => if hasPlanKeys p2 then
           (⟨true, some p2, "parsed_from_text_object"⟩ : ParseOut)
         else ⟨false, none, "no_json_found_or_incomplete"⟩
       | none => (⟨false, none, "json_parse_failed"⟩ : ParseOut))
    else ⟨false, none, "no_json_found_or_incomplete"⟩)
    = (⟨true, some p, "parsed_from_text_object"⟩ : ParseOut)
  rw [if_pos hcne, hld]
  show (if hasPlanKeys p then (⟨true, some p, "parsed_from_text_object"⟩ : ParseOut)
    else ⟨false, none, "no_json_found_or_incomplete"⟩)
    = (⟨true, some p, "parsed_from_text_object"⟩ : ParseOut)
  rw [if_pos hpk]

/-- A parse accepted by the `ok and isinstance(parsed, dict)` test comes
from a successful `json.loads` and carries the plan keys. -/
theorem okDict_fromText (content : List Char) (d : Json)
    (h : okDict (tryParseFromTextObject content) = some d) :
    (∃ cand, loads cand = some d) ∧ hasPlanKeys d = true := by
  rw [tryParseFromTextObject] at h
  cases hex : extractFirstJsonObject content with
  | none => rw [hex] at h; exact Option.noConfusion h
  | some cand =>
    rw [hex] at h
    have h : okDict (if cand ≠ [] then
        (match loads cand with
         | some p => if hasPlanKeys p then
             (⟨true, some p, "parsed_from_text_object"⟩ : ParseOut)
           else ⟨false, none, "no_json_found_or_incomplete"⟩
         | none => (⟨false, none, "json_parse_failed"⟩ : ParseOut))
      else ⟨false, none, "no_json_found_or_incomplete"⟩) = some d := h
    split_ifs at h with hne
    · cases hld : loads cand with
      | none => rw [hld] at h; exact Option.noConfusion h
      | some p =>
        rw [hld] at h
        have h : okDict (if hasPlanKeys p then
            (⟨true, some p, "parsed_from_text_object"⟩ : ParseOut)
          else ⟨false, none, "no_json_found_or_incomplete"⟩) = some d := h
        split_ifs at h with hpk
        · obtain ⟨-, hparsed⟩ := okDict_some _ _ h
          have hpd : some p = some d := hparsed
          injection hpd with hpd2
          subst hpd2
          exact ⟨⟨cand, hld⟩, hpk⟩
        · exact Option.noConfusion h
    · exact Option.noConfusion h

/-- Any accepted parse result is a well-formed document with the plan
keys. -/
theorem okDict_props (content : List Char) (d : Json)
    (h : okDict (tryParsePlanJson content) = some d) :
    wfB d = true ∧ hasPlanKeys d = true := by
  rw [tryParsePlanJson] at h
  split_ifs at h with hemp
  · exact Option.noConfusion h
  · cases hex : extractJsonFromFence content with
    | none =>
      rw [hex] at h
      obtain ⟨⟨cand, hld⟩, hpk⟩ := okDict_fromText content d h
      exact ⟨loads_wf _ _ hld, hpk⟩
    | some cand =>
      rw [hex] at h
      have h : okDict (if cand ≠ [] then
          (match loads cand with
           | some p => if hasPlanKeys p then (⟨true, some p, "parsed_from_fence"⟩ : ParseOut)
             else tryParseFromTextObject content
           | none => tryParseFromTextObject content)
        else tryParseFromTextObject content) = some d := h
      split_ifs at h with hne
      · cases hld : loads cand with
        | none =>
          rw [hld] at h
          obtain ⟨⟨cand2, hld2⟩, hpk⟩ := okDict_fromText content d h
          exact ⟨loads_wf _ _ hld2, hpk⟩
        | some p =>
          rw [hld] at h
          have h : okDict (if hasPlanKeys p then
              (⟨true, some p, "parsed_from_fence"⟩ : ParseOut)
            else tryParseFromTextObject content) = some d := h
          split_ifs at h with hpk
          · obtain ⟨-, hparsed⟩ := okDict_some _ _ h
            have hpd : some p = some d := hparsed
            injection hpd with hpd2
            subst hpd2
            exact ⟨loads_wf _ _ hld, hpk⟩
          · obtain ⟨⟨cand2, hld2⟩, hpk2⟩ := okDict_fromText content d h
            exact ⟨loads_wf _ _ hld2, hpk2⟩
      · obtain ⟨⟨cand2, hld2⟩, hpk⟩ := okDict_fromText content d h
        exact ⟨loads_wf _ _ hld2, hpk⟩

/-- The rendering of a well-formed nonempty object is a braced neutral
segment. -/
theorem dumps_obj_shape (kv : List Char × Json) (kvs : List (List Char × Json))
    (hwf : wfB (.obj (kv :: kvs)) = true) :
    ∃ B, dumps (.obj (kv :: kvs)) = '{' :: (B ++ ['}']) ∧ SegInv 1 B := by
  have hwf2 : wfB kv.2 = true ∧ wfObjB kvs = true := by
    simp only [wfB, wfObjB, Bool.and_eq_true] at hwf
    exact ⟨hwf.2.1, hwf.2.2⟩
  refine ⟨nlIndent 1 ++ (renderMember kv 1 ++ (renderMembersTail kvs 1 ++ nlIndent 0)),
    ?_, ?_⟩
  · show renderValue (.obj (kv :: kvs)) 0 = _
    simp [renderValue, List.append_assoc]
  · refine SegInv_append 1 _ _ (SegInv_nlIndent 1 1) ?_
    refine SegInv_append 1 _ _ (SegInv_renderMember kv 1 1 hwf2.1) ?_
    exact SegInv_append 1 _ _ (SegInv_renderMembersTail kvs 1 1 hwf2.2)
      (SegInv_nlIndent 1 0)

/-- Re-running `_try_parse_plan_json` on the canonical fenced rewrite of a
well-formed plan document succeeds and returns exactly that document:
either the fence regex captures the whole rendered object, or a backtick
run inside one of its strings cuts the fenced candidate mid-string, the
cut candidate fails `json.loads` (its scan state is still inside a
string), and the text-object fallback extracts the full object. -/
theorem tryParsePlanJson_canonical (d2 : Json) (hwf : wfB d2 = true)
    (hpk : hasPlanKeys d2 = true) :
    okDict (tryParsePlanJson (canonicalContent d2)) = some d2 := by
  obtain ⟨fields, hdsh, hms, -⟩ := hasPlanKeys_obj d2 hpk
  obtain ⟨kv, kvs, hfs⟩ : ∃ kv kvs, fields = kv :: kvs := by
    cases fields with
    | nil =>
      exfalso
      rw [show objGet ([] : List (List Char × Json)) ("milestones".data) = none from rfl]
        at hms
      exact Bool.noConfusion hms
    | cons kv kvs => exact ⟨kv, kvs, rfl⟩
  subst hfs
  obtain ⟨B, hD, hB⟩ := dumps_obj_shape kv kvs (by rw [← hdsh]; exact hwf)
  have hDd : dumps d2 = '{' :: (B ++ ['}']) := by rw [hdsh]; exact hD
  have hcontent : canonicalContent d2
      = '`' :: '`' :: '`' :: 'j' :: 's' :: 'o' :: 'n' :: '\n'
        :: (dumps d2 ++ ('\n' :: '`' :: '`' :: '`' :: [])) := rfl
  have hne0 : ¬ canonicalContent d2 = [] := by rw [hcontent]; simp
  obtain ⟨⟨b, a⟩, hsp⟩ := splitAtFirstTicks_some ('\n' :: (dumps d2 ++ ['\n']))
  have hsp2 : splitAtFirstTicks ('\n' :: (dumps d2 ++ ('\n' :: '`' :: '`' :: '`' :: [])))
      = some (b, a) := by
    rw [show ('\n' :: (dumps d2 ++ ('\n' :: '`' :: '`' :: '`' :: ([] : List Char))))
      = ('\n' :: (dumps d2 ++ ['\n'])) ++ ("```".data) from by simp]
    exact hsp
  have hfence : extractJsonFromFence (canonicalContent d2) = some (pyStrip b) := by
    rw [extractJsonFromFence, if_neg hne0, hcontent]
    exact fenceLoop_canonical _ b a hsp2
  have hdecomp := splitAtFirstTicks_eq_some _ b a hsp2
  have hextract : extractFirstJsonObject (canonicalContent d2)
      = some ('{' :: (B ++ ['}'])) := by
    have hcc : canonicalContent d2
        = ("```json\n".data ++ ('{' :: (B ++ ['}']))) ++ ("\n```".data) := by
      rw [canonicalContent, hDd]
    rw [hcc]
    exact extractFirstJsonObject_fence B hB _
  cases b with
  | nil =>
    exfalso
    rw [List.nil_append, List.cons.injEq] at hdecomp
    exact absurd hdecomp.1 (by decide)
  | cons b0 b' =>
    rw [List.cons_append, List.cons.injEq] at hdecomp
    rcases append_cons_split (dumps d2) ('\n' :: '`' :: '`' :: '`' :: []) b'
        ('`' :: '`' :: a) '`' hdecomp.2 with
      ⟨suf3, hDeq, -⟩ | ⟨pre2, hb'eq, htl⟩
    · -- a backtick run starts inside the rendered object: the fenced
      -- candidate is cut mid-string and fails to parse
      rw [hDd] at hDeq
      obtain ⟨p2, hb'⟩ : ∃ p2, b' = '{' :: p2 := by
        cases b' with
        | nil =>
          exfalso
          rw [List.nil_append, List.cons.injEq] at hDeq
          exact absurd hDeq.1 (by decide)
        | cons c0 p2 =>
          rw [List.cons_append, List.cons.injEq] at hDeq
          exact ⟨p2, by rw [← hDeq.1]⟩
      rw [hb'] at hDeq
      obtain ⟨w, hwdec, hwws⟩ := rstrip_decomp ('{' :: p2)
      have hcand : pyStrip (b0 :: b') = (('{' :: p2).reverse.dropWhile isPyWs).reverse := by
        rw [← hdecomp.1, hb']
        rw [pyStrip, pyStripLeft]
        have h1 : List.dropWhile isPyWs ('\n' :: '{' :: p2) = '{' :: p2 := by
          rw [List.dropWhile_cons, if_pos (by decide), List.dropWhile_cons,
            if_neg (by decide)]
        rw [h1]
      have hCne1 : (('{' :: p2).reverse.dropWhile isPyWs).reverse ≠ [] := by
        intro hC
        rw [hC, List.nil_append] at hwdec
        have := hwws '{' (by rw [← hwdec]; simp)
        exact absurd this (by decide)
      have hin : (scanFold scanSt0 ((('{' :: p2).reverse.dropWhile isPyWs).reverse)).inString
          = true := by
        have hin0 : (scanFold scanSt0 ('{' :: p2)).inString = true :=
          dumps_backtick_inString B hB ('{' :: p2) suf3 hDeq
        rw [hwdec, scanFold_append] at hin0
        rw [scanFold_inString_of_no_quote w _
          (fun c hc => isPyWs_ne_quote c (hwws c hc))] at hin0
        exact hin0
      have hldC : loads ((('{' :: p2).reverse.dropWhile isPyWs).reverse) = none := by
        cases hld : loads ((('{' :: p2).reverse.dropWhile isPyWs).reverse) with
        | none => rfl
        | some j =>
          exfalso
          have hbal := loads_balance _ _ hld
          rw [hbal] at hin
          exact Bool.noConfusion hin
      rw [hcand] at hfence
      rw [tryParsePlanJson_fence_fail _ _ hne0 hfence hCne1 hldC]
      rw [tryParseFromTextObject_some _ _ d2 hextract (by simp)
        (by rw [← hDd]; exact loads_dumps d2 hwf) hpk]
      rw [hdsh]
      exact okDict_obj _ _
    · -- the first backtick run is the closing fence: the candidate is the
      -- whole rendered object
      obtain ⟨q0, q2, hpre⟩ : ∃ q0 q2, pre2 = q0 :: q2 := by
        cases pre2 with
        | nil =>
          exfalso
          rw [List.nil_append, List.cons.injEq] at htl
          exact absurd htl.1 (by decide)
        | cons q0 q2 => exact ⟨q0, q2, rfl⟩
      rw [hpre, List.cons_append, List.cons.injEq] at htl
      have hlen := congrArg List.length htl.2
      simp only [List.length_cons, List.length_append, List.length_nil] at hlen
      have hq2 : q2 = [] := List.length_eq_zero.1 (by omega)
      rw [hpre, hq2, ← htl.1] at hb'eq
      have hcand : pyStrip (b0 :: b') = dumps d2 := by
        rw [← hdecomp.1, hb'eq]
        rw [show ('\n' :: (dumps d2 ++ ['\n'])) = ['\n'] ++ (dumps d2 ++ ['\n'])
          from rfl]
        refine pyStrip_ws_wrap ['\n'] (dumps d2) ['\n']
          (by intro c hc; simp only [List.mem_cons, List.not_mem_nil, or_false] at hc;
              rw [hc]; decide)
          (by intro c hc; simp only [List.mem_cons, List.not_mem_nil, or_false] at hc;
              rw [hc]; decide) ?_ ?_ (by rw [hDd]; simp)
        · intro c t hct
          rw [hDd, List.cons.injEq] at hct
          rw [← hct.1]
          decide
        · intro c p hcp
          rw [hDd] at hcp
          have hcp2 : ('{' :: B) ++ ['}'] = p ++ [c] := by
            rw [← hcp]
            simp
          rw [last_of_concat _ _ _ _ hcp2]
          decide
      rw [hcand] at hfence
      rw [tryParsePlanJson_fence_some _ _ d2 hne0 hfence (by rw [hDd]; simp)
        (loads_dumps d2 hwf) hpk]
      rw [hdsh]
      exact okDict_obj _ _


/-! # Claim C9 -/

/-- An accepted parse that went through `finishFlow` yields canonical
content which re-parses and re-normalizes to the same document. -/
theorem finishFlow_plan (content : List Char) (d : Json) (prompts : List (List Char))
    (out : FlowOut) (hout : finishFlow content (some d) prompts = out)
    (hok : okDict (tryParsePlanJson content) = some d) (d2 : Json)
    (hplan : out.plan = some d2) :
    out.content = canonicalContent d2 ∧
    okDict (tryParsePlanJson out.content) = some d2 ∧
    normalizePlanTypes d2 = d2 := by
  have hout2 : (⟨canonicalContent (normalizePlanTypes d), some (normalizePlanTypes d),
      prompts⟩ : FlowOut) = out := hout
  rw [← hout2] at hplan
  have hplan2 : some (normalizePlanTypes d) = some d2 := hplan
  injection hplan2 with hplan3
  obtain ⟨hwf, hpk⟩ := okDict_props content d hok
  have hwf2 : wfB d2 = true := by
    rw [← hplan3]
    exact normalizePlanTypes_wf d hwf
  have hpk2 : hasPlanKeys d2 = true := by
    rw [← hplan3]
    exact normalizePlanTypes_keys d hpk
  have hcontent : out.content = canonicalContent d2 := by
    rw [← hout2, hplan3]
  refine ⟨hcontent, ?_, ?_⟩
  · rw [hcontent]
    exact tryParsePlanJson_canonical d2 hwf2 hpk2
  · rw [← hplan3]
    exact normalizePlanTypes_idem d

/-- C9: whenever plan parsing and normalization succeed on any attempt of
the repair flow, the content returned to the caller is the canonical
fenced pretty-printed rewrite of the normalized plan, re-running the
parse-and-acceptance test on that returned content succeeds again and
yields the identical (field-equal) plan document, and re-normalizing it is
the identity — acceptance is idempotent. -/
theorem acceptance_idempotent (gen : List Char → Except GenErr (List Char))
    (userMsg : List Char) (out : FlowOut) (d2 : Json)
    (hflow : sendChatFlow gen userMsg = .ok out) (hplan : out.plan = some d2) :
    out.content = canonicalContent d2 ∧
    okDict (tryParsePlanJson out.content) = some d2 ∧
    normalizePlanTypes d2 = d2 := by
  rw [sendChatFlow] at hflow
  cases hg : gen userMsg with
  | error e =>
    rw [hg] at hflow
    exact Except.noConfusion hflow
  | ok content =>
    simp only [hg] at hflow
    cases hok : okDict (tryParsePlanJson content) with
    | some d =>
      simp only [hok] at hflow
      injection hflow with hout
      exact finishFlow_plan content d _ out hout hok d2 hplan
    | none =>
      simp only [hok] at hflow
      by_cases hlike : looksLikePlanText content = true
      · rw [if_pos hlike] at hflow
        cases hg2 : gen repairPromptV1 with
        | error e =>
          rw [hg2] at hflow
          exact Except.noConfusion hflow
        | ok content2 =>
          simp only [hg2] at hflow
          cases hok2 : okDict (tryParsePlanJson content2) with
          | some d =>
            simp only [hok2] at hflow
            injection hflow with hout
            exact finishFlow_plan content2 d _ out hout hok2 d2 hplan
          | none =>
            simp only [hok2] at hflow
            cases hg3 : gen repairPromptV2Minimal with
            | error e =>
              rw [hg3] at hflow
              exact Except.noConfusion hflow
            | ok content3 =>
              simp only [hg3] at hflow
              cases hok3 : okDict (tryParsePlanJson content3) with
              | some d =>
                simp only [hok3] at hflow
                injection hflow with hout
                exact finishFlow_plan content3 d _ out hout hok3 d2 hplan
              | none =>
                simp only [hok3] at hflow
                injection hflow with hout
                exfalso
                rw [← hout] at hplan
                have hplan2 : (none : Option Json) = some d2 := hplan
                exact Option.noConfusion hplan2
      · rw [if_neg hlike] at hflow
        injection hflow with hout
        exfalso
        rw [← hout] at hplan
        have hplan2 : (none : Option Json) = some d2 := hplan
        exact Option.noConfusion hplan2

/-- A generator whose reply parses on the first attempt. -/
def genC9 : List Char → Except GenErr (List Char) :=
  fun _ => .ok ("\x7b\"milestones\": 0, \"response_to_user\": 0\x7d".data)

/-- The document the reply of `genC9` parses and normalizes to. -/
def planC9 : Json :=
  .obj [("milestones".data, .num ⟨false, ['0'], none, none⟩),
        ("response_to_user".data, .num ⟨false, ['0'], none, none⟩)]

/-- Witness for C9: a concrete accepted plan whose flow output is the
canonical fence, on which the acceptance test succeeds again with the
identical document. -/
theorem acceptance_idempotent_witness :
    sendChatFlow genC9 ['h']
      = .ok ⟨canonicalContent planC9, some planC9, [['h']]⟩ ∧
    ((⟨canonicalContent planC9, some planC9, [['h']]⟩ : FlowOut).content
        = canonicalContent planC9 ∧
      okDict (tryParsePlanJson
        ((⟨canonicalContent planC9, some planC9, [['h']]⟩ : FlowOut).content))
        = some planC9 ∧
      normalizePlanTypes planC9 = planC9) :=
  ⟨rfl, acceptance_idempotent genC9 ['h'] _ planC9 rfl rfl⟩

